import Mathlib

/-!
# Verification of the asynccachedview caching layer

Shallow embedding of `asynccachedview` (identity-map cache for
asynchronously obtained dataclasses) and proofs about it.

The embedding follows the current source tree:
* `asynccachedview/cache/_cache.py` — `Cache.obtain`, `Cache.cache`,
  `Cache.cache_attribute`, `Cache.cached_attribute_lookup`,
  `Cache._obtain_mapped`, `WeakLockDict`;
* `asynccachedview/cache/_pickler.py` — `pickle_and_reduce_to_identities`
  and `unpickle_and_reconstruct_from_identities` (two-pass persistent-id
  pickling);
* `asynccachedview/cache/database.py` — `Database.store`,
  `Database._create_table`, `Database._upsert`;
* `asynccachedview/dataclasses/_core.py` — `DataClass._set_cache`
  (once-settable cache association cell);
* `asynccachedview/dataclasses/_restrictions.py` — `inspect_return_type`.

Python objects live on a heap (`List Node`); an address (index) is the
Lean stand-in for an object's identity (`id()`); mutable dict entries are
modelled as assoc-lists with newest-first lookup, so that insertion is a
prepend (Python `d[k] = v` overwrite semantics).
-/

namespace ACV

/-- Primitive field/value payloads (ints, strings, None). -/
inductive Prim where
  | int (n : Int)
  | str (s : String)
  | noneV
deriving DecidableEq, Repr

/-- Identity tuple of an entity: values of its identity fields
(`aiosqlitemydataclass.identity(obj)`). -/
abbrev Ident := List Prim

/-- Assoc-list lookup, newest entry first (Python `dict` read). -/
def lookupL {α β : Type} [DecidableEq α] : List (α × β) → α → Option β
  | [], _ => none
  | (k, v) :: t, k' => if k' = k then some v else lookupL t k'

end ACV

namespace ACV

/-! ## Durable store: `asynccachedview/cache/database.py`

`Database.store` upserts a row; if the row's table does not exist yet it
creates the table (columns = the dataclass's fields, primary key = the
identity fields) and retries the upsert exactly once.  Any other
operational error propagates.  Errors other than "no such table" do not
arise from table layout alone, so the model lets the caller inject them
through a fault parameter per SQL statement (sqlite I/O failures). -/

/-- Static description of an augmented dataclass, as used by
`database.py` (`_all_field_names`, `_identity_field_names`,
`__qualname__`). -/
structure DC where
  qualname : String
  all_field_names : List String
  identity_field_names : List String
deriving DecidableEq, Repr

/-- `Database._tablename`: `dataclass.__qualname__.replace('.', '_')`. -/
def tablename (dc : DC) : String :=
  dc.qualname.replace "." "_"

/-- A table created by `_create_table`: name, all columns, primary-key
columns. -/
structure Table where
  name : String
  columns : List String
  pkey : List String
deriving DecidableEq, Repr

/-- sqlite-side state: the created tables and the stored rows
(row = (table name, identity values, all field values)). -/
structure DBState where
  tables : List Table
  rows : List ((String × Ident) × List Prim)
deriving Repr

/-- `sqlite3.OperationalError` contents as matched by `Database.store`:
`ex.args[0]`. -/
inductive DBError where
  | operational (msg : String)
deriving DecidableEq, Repr

/-- An object being persisted: its dataclass plus field values
(`_dataclass_to_dict`, minus `_cache_holder`). -/
structure RowObj where
  dc : DC
  ident : Ident
  fields : List Prim
deriving DecidableEq, Repr

/-- `Database._upsert`: one `INSERT ... ON CONFLICT ... DO UPDATE`
statement.  Fails with `no such table: <t>` when the table was never
created; `fault` injects any other operational error the engine may
raise for this statement. -/
def db_upsert (db : DBState) (fault : Option String) (obj : RowObj) :
    Except DBError DBState :=
  match fault with
  | some msg => .error (.operational msg)
  | none =>
    if (db.tables.map Table.name).contains (tablename obj.dc) then
      .ok { db with
              rows := ((tablename obj.dc, obj.ident), obj.fields) :: db.rows }
    else
      .error (.operational ("no such table: " ++ tablename obj.dc))

/-- `Database._create_table`: `CREATE TABLE <name> (<all fields>,
PRIMARY KEY (<identity fields>))`. -/
def db_create_table (db : DBState) (dc : DC) : DBState :=
  { db with
      tables := { name := tablename dc,
                  columns := dc.all_field_names,
                  pkey := dc.identity_field_names } :: db.tables }

/-- `Database.store`: try the upsert; on `no such table: <tablename>`
create the table and retry the upsert exactly once (that second
attempt's outcome propagates); re-raise anything else. -/
def db_store (db : DBState) (fault retry_fault : Option String)
    (obj : RowObj) : Except DBError DBState :=
  match db_upsert db fault obj with
  | .ok db' => .ok db'
  | .error ex =>
    if ex = .operational ("no such table: " ++ tablename obj.dc) then
      db_upsert (db_create_table db obj.dc) retry_fault obj
    else
      .error ex

end ACV

namespace ACV

/-! ## Graph codec: `asynccachedview/cache/_pickler.py`

Python objects live on a heap; an address is the stand-in for `id()`.
The pickle byte stream is modelled as a list of opcodes; the memo key of
a memoized object is its (old) address, standing in for pickle's
sequential memo indices keyed by `id(obj)`.  Containers are serialized
list-style (allocate empty, memoize, then append each element — pickle's
EMPTY_LIST/PUT/APPEND protocol), which is what makes reference cycles
representable.  Entities are replaced by persistent-id tokens: the
repository's `DissociatingPickler.persistent_id` returns
`(obj.__class__, identity(obj))` for every ACV dataclass instance, and
persistent ids are emitted at every occurrence (pickle checks
`persistent_id` before its memo). -/

/-- A heap address: object identity. -/
abbrev Addr := Nat

/-- A persistent-id token: `(obj.__class__, aiosqlitemydataclass.identity(obj))`. -/
structure PID where
  cls : Nat
  ident : Ident
deriving DecidableEq, Repr

/-- A Python object: a primitive, an ACV dataclass instance
(class, identity-field values, remaining field values), or a container
of references. -/
inductive Node where
  | prim (p : Prim)
  | entity (cls : Nat) (ident : Ident) (rest : List Prim)
  | seq (elems : List Addr)
deriving DecidableEq, Repr

/-- All references inside a node point below `n`. -/
def nodeClosedB (n : Nat) : Node → Bool
  | .seq es => es.all (fun a => decide (a < n))
  | _ => true

/-- Every reference in the heap is a valid address. -/
def HeapClosed (H : List Node) : Prop :=
  ∀ nd ∈ H, nodeClosedB H.length nd = true

/-- Pickle opcodes (the byte stream). -/
inductive Op where
  | pushPrim (p : Prim)
  | pushPid (pid : PID)
  | newSeq
  | put (k : Addr)
  | get (k : Addr)
  | append1
deriving DecidableEq, Repr

/-- Pickler state: memoized container addresses, emitted opcodes, and
the `collected` list of `(instance, identity)` pairs built up by
`DissociatingPickler.persistent_id`. -/
structure EncSt where
  memo : List Addr
  ops : List Op
  collected : List (Addr × Ident)
deriving DecidableEq, Repr

/-- Emit opcodes. -/
def EncSt.emit (st : EncSt) (l : List Op) : EncSt :=
  { st with ops := st.ops ++ l }

mutual
/-- `pickle.Pickler.save` under `DissociatingPickler`: persistent-id
candidates first (ACV dataclasses become `pushPid` tokens and are
appended to `collected`), then the memo, then the structural cases. -/
def pickler_save (H : List Node) : Nat → Addr → EncSt → Option EncSt
  | 0, _, _ => none
  | fuel + 1, a, st =>
    match H[a]? with
    | none => none
    | some (.prim p) => some (st.emit [.pushPrim p])
    | some (.entity c i _) =>
        some { st.emit [.pushPid ⟨c, i⟩] with
                 collected := st.collected ++ [(a, i)] }
    | some (.seq es) =>
        if a ∈ st.memo then some (st.emit [.get a])
        else
          pickler_save_items H fuel es
            { st.emit [.newSeq, .put a] with memo := st.memo ++ [a] }
termination_by fuel _ _ => (fuel, 0)

/-- Serialize the items of a container: each item followed by an
append-to-container opcode. -/
def pickler_save_items (H : List Node) : Nat → List Addr → EncSt → Option EncSt
  | _, [], st => some st
  | fuel, e :: es, st =>
    match pickler_save H fuel e st with
    | none => none
    | some st' => pickler_save_items H fuel es (st'.emit [.append1])
termination_by fuel es _ => (fuel, es.length + 1)
end

/-- `pickle_and_reduce_to_identities(obj)`: dump `obj`, returning the
byte stream and the collected `(instance, identity)` pairs.  The fuel
`H.length + 1` provably suffices for closed heaps. -/
def pickle_and_reduce_to_identities (H : List Node) (a : Addr) :
    Option (List Op × List (Addr × Ident)) :=
  (pickler_save H (H.length + 1) a ⟨[], [], []⟩).map fun st =>
    (st.ops, st.collected)

/-- Unpickler state: the (global) heap, the value stack, the memo, and
the pids a collecting pass has handed to `persistent_load`. -/
structure DecSt where
  heap : List Node
  stack : List Addr
  memo : List (Addr × Addr)
  collected : List PID
deriving Repr

/-- A `persistent_load` behaviour: what to push for a pid token (may
allocate), and whether the pid is recorded into `collected`. -/
structure PLoader where
  load : List Node → PID → Option (List Node × Addr)
  collect : Bool

/-- One opcode of `pickle.Unpickler.load`. -/
def ustep (pl : PLoader) (st : DecSt) : Op → Option DecSt
  | .pushPrim p =>
      some { st with heap := st.heap ++ [.prim p],
                     stack := st.heap.length :: st.stack }
  | .pushPid pid =>
      match pl.load st.heap pid with
      | none => none
      | some (h', b) =>
          some { st with heap := h', stack := b :: st.stack,
                         collected :=
                           st.collected ++ (if pl.collect then [pid] else []) }
  | .newSeq =>
      some { st with heap := st.heap ++ [.seq []],
                     stack := st.heap.length :: st.stack }
  | .put k =>
      match st.stack with
      | [] => none
      | b :: _ => some { st with memo := st.memo ++ [(k, b)] }
  | .get k =>
      match lookupL st.memo k with
      | none => none
      | some b => some { st with stack := b :: st.stack }
  | .append1 =>
      match st.stack with
      | v :: b :: rest =>
          match st.heap[b]? with
          | some (.seq bs) =>
              some { st with heap := st.heap.set b (.seq (bs ++ [v])),
                             stack := b :: rest }
          | _ => none
      | _ => none

/-- `Unpickler.load`: run the opcode stream. -/
def urun (pl : PLoader) (ops : List Op) (st : DecSt) : Option DecSt :=
  ops.foldlM (ustep pl) st

/-- Pass 1, `CollectingUnpickler.persistent_load`: record the pid and
  return `None` (the unpickler pushes that `None`). -/
def collecting_loader : PLoader where
  load h _ := some (h ++ [.prim .noneV], h.length)
  collect := true

/-- Pass 2, `AssociatingUnpickler.persistent_load`:
`cache._obtain_mapped(cls, *id_)` — a synchronous identity-map lookup
that substitutes the canonical instance (KeyError when absent). -/
def associating_loader (idMapF : PID → Option Addr) : PLoader where
  load h pid := (idMapF pid).map fun b => (h, b)
  collect := false

end ACV

namespace ACV

/-! ## The cache: `asynccachedview/cache/_cache.py`

`Mem` is process-global object memory: the heap, each instance's
`_cache_holder.cache` cell, the per-class asynchronous constructors
(`__obtain__`) and per-class `__qualname__` strings.  `CState` is one
`Cache` instance: its id, `id_map`, `field_map` and its sqlite handle's
contents (entity rows via `aiosqlitemydataclass` `put`/`get`, plus the
`AttrCacheRecord` keyspace).  Each `async` operation is modelled as a
state transformer; the per-key locks serialize the bodies, so the
sequential transformers are the per-holder semantics (the interleaved
machines for the stampede claims are further below). -/

/-- Exceptions the modelled operations can raise. -/
inductive Err where
  | sourceFailure
  | assertionError (what : String)
  | keyError
  | unpicklingError
deriving DecidableEq, Repr

/-- Process-global memory and static per-class data. -/
structure Mem where
  heap : List Node
  assoc : List (Addr × Nat)
  src : Nat → Ident → Option (Nat × Ident × List Prim)
  clsQual : Nat → String

/-- One `Cache` instance (RAM maps plus its database's contents). -/
structure CState where
  cid : Nat
  idMap : List (PID × Addr)
  fieldMap : List ((Nat × Ident × String) × Addr)
  store : List (PID × List Prim)
  attrStore : List ((String × String × String) × List Op)

/-- `DataClass._set_cache` (`dataclasses/_core.py`): asserts the
`_cache_holder` cell is still `None`, then sets it. -/
def set_cache (m : Mem) (a : Addr) (cid : Nat) : Except Err Mem :=
  match lookupL m.assoc a with
  | none => .ok { m with assoc := (a, cid) :: m.assoc }
  | some _ => .error (.assertionError "set_cache: cache is not None")

/-- `repr` of a primitive, for `str(_id)`. -/
def primRepr : Prim → String
  | .int n => toString n
  | .str s => "'" ++ s ++ "'"
  | .noneV => "None"

/-- `str(_id)` for an identity tuple. -/
def strId : Ident → String
  | [x] => "(" ++ primRepr x ++ ",)"
  | i => "(" ++ String.intercalate ", " (i.map primRepr) ++ ")"

/-- `Cache.cache(obj, identity=None)`: return the already-registered
canonical instance when the `id_map` has the key; otherwise `put` the
object (the row is keyed by the object's own identity fields), register
it under the requested identity, and set its cache association. -/
def cache_op (m : Mem) (s : CState) (a : Addr) (identOpt : Option Ident) :
    Mem × CState × Except Err Addr :=
  match m.heap[a]? with
  | some (.entity c i r) =>
    let ident := identOpt.getD i
    match lookupL s.idMap ⟨c, ident⟩ with
    | some a₀ => (m, s, .ok a₀)
    | none =>
      let s₁ := { s with store := (⟨c, i⟩, r) :: s.store }
      let s₂ := { s₁ with idMap := (⟨c, ident⟩, a) :: s₁.idMap }
      match set_cache m a s₂.cid with
      | .ok m' => (m', s₂, .ok a)
      | .error e => (m, s₂, .error e)
  | _ => (m, s, .error (.assertionError "cache: not an ACV dataclass"))

/-- One resolution event, for stating the tier order of `obtain`. -/
inductive Ev where
  | mem (hit : Bool)
  | storeGet (hit : Bool)
  | source
deriving DecidableEq, Repr

/-- `Cache.obtain(cls, *identity)` body (it runs under the
`(cls, *identity)` lock): in-memory `id_map`, then the database
(`RecordMissingError` is swallowed: a miss, not an error), then the
class's `__obtain__` constructor, whose result must be of the requested
class exactly and is registered via `Cache.cache` under the *requested*
identity. -/
def obtain_op (m : Mem) (s : CState) (cls : Nat) (ident : Ident) :
    Mem × CState × Except Err Addr × List Ev :=
  match lookupL s.idMap ⟨cls, ident⟩ with
  | some a => (m, s, .ok a, [.mem true])
  | none =>
    match lookupL s.store ⟨cls, ident⟩ with
    | some row =>
        let a := m.heap.length
        let m₁ := { m with heap := m.heap ++ [.entity cls ident row] }
        let s₁ := { s with idMap := (⟨cls, ident⟩, a) :: s.idMap }
        match set_cache m₁ a s₁.cid with
        | .ok m₂ => (m₂, s₁, .ok a, [.mem false, .storeGet true])
        | .error e => (m₁, s₁, .error e, [.mem false, .storeGet true])
    | none =>
        match m.src cls ident with
        | none =>
            (m, s, .error .sourceFailure, [.mem false, .storeGet false, .source])
        | some (c', i', r') =>
            let a := m.heap.length
            let m₁ := { m with heap := m.heap ++ [.entity c' i' r'] }
            if c' = cls then
              let (m₂, s₂, res) := cache_op m₁ s a (some ident)
              (m₂, s₂, res, [.mem false, .storeGet false, .source])
            else
              (m₁, s, .error (.assertionError "obtain: class mismatch"),
               [.mem false, .storeGet false, .source])

/-- The inter-pass loop of `unpickle_and_reconstruct_from_identities`:
`for n_cls, n_id in collected: await cache.obtain(n_cls, *n_id)`. -/
def obtain_each (m : Mem) (s : CState) :
    List PID → Mem × CState × Except Err Unit
  | [] => (m, s, .ok ())
  | pid :: rest =>
    match obtain_op m s pid.cls pid.ident with
    | (m₁, s₁, .ok _, _) => obtain_each m₁ s₁ rest
    | (m₁, s₁, .error e, _) => (m₁, s₁, .error e)

/-- The association loop of `cache_attribute` /
`cached_attribute_lookup`: `for c, i in collected:
await self.cache(c, identity=i)`. -/
def cache_each (m : Mem) (s : CState) :
    List (Addr × Ident) → Mem × CState × Except Err Unit
  | [] => (m, s, .ok ())
  | (a, i) :: rest =>
    match cache_op m s a (some i) with
    | (m₁, s₁, .ok _) => cache_each m₁ s₁ rest
    | (m₁, s₁, .error e) => (m₁, s₁, .error e)

/-- `unpickle_and_reconstruct_from_identities(b, cache)`: pass 1 with
the collecting unpickler, the inter-pass `obtain` loop, then pass 2
with the associating unpickler over the same bytes; returns the
reconstructed top-of-stack value. -/
def unpickle_and_reconstruct_from_identities (m : Mem) (s : CState)
    (data : List Op) : Mem × CState × Except Err Addr :=
  match urun collecting_loader data ⟨m.heap, [], [], []⟩ with
  | none => (m, s, .error .unpicklingError)
  | some d₁ =>
    let m₁ := { m with heap := d₁.heap }
    match obtain_each m₁ s d₁.collected with
    | (m₂, s₂, .error e) => (m₂, s₂, .error e)
    | (m₂, s₂, .ok ()) =>
      match urun (associating_loader (lookupL s₂.idMap)) data
          ⟨m₂.heap, [], [], []⟩ with
      | none => (m₂, s₂, .error .unpicklingError)
      | some d₂ =>
        match d₂.stack with
        | [v] => ({ m₂ with heap := d₂.heap }, s₂, .ok v)
        | _ => ({ m₂ with heap := d₂.heap }, s₂, .error .unpicklingError)

/-- Shared tail of the attribute operations: unpickle the blob and
memoize the reconstruction in `field_map`. -/
def attr_decode_register (m : Mem) (s : CState) (c : Nat) (i : Ident)
    (attrname : String) (data : List Op) : Mem × CState × Except Err Addr :=
  match unpickle_and_reconstruct_from_identities m s data with
  | (m₁, s₁, .error e) => (m₁, s₁, .error e)
  | (m₁, s₁, .ok res) =>
    (m₁, { s₁ with fieldMap := ((c, i, attrname), res) :: s₁.fieldMap },
     .ok res)

/-- `Cache.cache_attribute(cls, id, attrname, res)` (body under its
lock): pickle the value, `cache` every collected instance, store the
`AttrCacheRecord`, then unpickle the stored bytes and memoize that
reconstruction in `field_map`. -/
def cache_attribute (m : Mem) (s : CState) (cls : Nat) (ident : Ident)
    (attrname : String) (res : Addr) : Mem × CState × Except Err Unit :=
  match pickle_and_reduce_to_identities m.heap res with
  | none => (m, s, .error .unpicklingError)
  | some (data, collected) =>
    match cache_each m s collected with
    | (m₁, s₁, .error e) => (m₁, s₁, .error e)
    | (m₁, s₁, .ok ()) =>
      let s₂ := { s₁ with
                    attrStore := ((m.clsQual cls, strId ident, attrname),
                                  data) :: s₁.attrStore }
      match attr_decode_register m₁ s₂ cls ident attrname data with
      | (m₂, s₃, .error e) => (m₂, s₃, .error e)
      | (m₂, s₃, .ok _) => (m₂, s₃, .ok ())

/-- `Cache.cached_attribute_lookup(obj, attrname, coroutine_func)` body
(it runs under the `(obj, attrname, coroutine_func)` lock): in-memory
`field_map`, then the `AttrCacheRecord` keyspace (a missing record is a
miss), else run the coroutine, pickle/associate/persist its result, and
in the latter two cases unpickle the blob and memoize the
reconstruction. -/
def cached_attribute_lookup (m : Mem) (s : CState) (a : Addr)
    (attrname : String)
    (coroutine_func : Mem → CState → Mem × CState × Except Err Addr) :
    Mem × CState × Except Err Addr :=
  match m.heap[a]? with
  | some (.entity c i _) =>
    match lookupL s.fieldMap (c, i, attrname) with
    | some v => (m, s, .ok v)
    | none =>
      match lookupL s.attrStore (m.clsQual c, strId i, attrname) with
      | some data => attr_decode_register m s c i attrname data
      | none =>
        match coroutine_func m s with
        | (m₁, s₁, .error e) => (m₁, s₁, .error e)
        | (m₁, s₁, .ok res) =>
          match pickle_and_reduce_to_identities m₁.heap res with
          | none => (m₁, s₁, .error .unpicklingError)
          | some (data, collected) =>
            match cache_each m₁ s₁ collected with
            | (m₂, s₂, .error e) => (m₂, s₂, .error e)
            | (m₂, s₂, .ok ()) =>
              let s₃ := { s₂ with
                            attrStore := ((m₂.clsQual c, strId i, attrname),
                                          data) :: s₂.attrStore }
              attr_decode_register m₂ s₃ c i attrname data
  | _ => (m, s, .error (.assertionError "identity of a non-dataclass"))

/-- Opening a new `Cache` on the same database path: fresh RAM maps and
cache id, same persisted contents. -/
def reopen (s : CState) (cid' : Nat) : CState :=
  { cid := cid', idMap := [], fieldMap := [],
    store := s.store, attrStore := s.attrStore }

end ACV

namespace ACV

/-! ## Return-type restrictions:
`asynccachedview/dataclasses/_restrictions.py` -/

/-- A Python type annotation as seen through `typing.get_origin` /
`typing.get_args`. -/
inductive PyTy where
  | ellipsisTy
  | tupleOf (args : List PyTy)
  | listOf (t : PyTy)
  | intTy
  | strTy
  | dcTy (c : Nat)

/-- `inspect_return_type(coroutine)` applied to the coroutine's declared
return annotation: for a `tuple[...]` annotation, unpack
`tgt_cls, *el`; unless the tail is exactly `[Ellipsis]` raise
`TypeError(f'{coroutine} returns a fixed-size tuple')`; otherwise
report `(True, tgt_cls)`; non-tuple annotations report
`(False, annotation)`. -/
def inspect_return_type (ra : PyTy) : Except String (Bool × PyTy) :=
  match ra with
  | .tupleOf [] => .error "cannot unpack"
  | .tupleOf (tgt :: el) =>
      match el with
      | [.ellipsisTy] => .ok (true, tgt)
      | _ => .error "returns a fixed-size tuple"
  | _ => .ok (false, ra)

/-- A runtime result of an awaitable property, keeping Python's
tuple/list distinction. -/
inductive RVal where
  | primV (p : Prim)
  | entV (c : Nat) (ident : Ident)
  | tupleV (xs : List RVal)
  | listV (xs : List RVal)

/-- Modelled from the spec: the access-time shape check of awaitable
properties.  Its caller is not under `src/` (only
`_restrictions.inspect_return_type` is); per spec §4.1/§8, the declared
return annotation is inspected (a fixed-arity tuple is a definition
error) and "a derived attribute declared to return an open tuple of
entities that instead returns a resizable list fails with a type error
on every access". -/
def check_awaitable_result (ra : PyTy) (v : RVal) : Except String RVal :=
  match inspect_return_type ra with
  | .error e => .error e
  | .ok (is_open, _) =>
    match is_open, v with
    | true, .listV _ =>
        .error "type error: resizable list where an open tuple was declared"
    | _, _ => .ok v

/-- Modelled from the spec: one awaitable-property access — validate
the computed result's shape first, and only then persist and memoize
it ("fail with a type error before persisting anything"). -/
def awaitable_property_access (ra : PyTy) (v : RVal)
    (persisted : List RVal) : Except String (RVal × List RVal) :=
  match check_awaitable_result ra v with
  | .error e => .error e
  | .ok v' => .ok (v', v' :: persisted)

end ACV

namespace ACV

/-! ## Well-formedness and concrete instances -/

/-- The `__obtain__` constructors behave as contracted: a constructed
object's class and identity match the request. -/
def SrcConforming (m : Mem) : Prop :=
  ∀ c i x, m.src c i = some x → x.1 = c ∧ x.2.1 = i

/-- Well-formedness of a cache: every `id_map` entry points at a live
entity of the mapped class and identity whose row is in the database
and whose association cell names this cache; association cells only
name live objects. -/
def CacheWF (m : Mem) (s : CState) : Prop :=
  (∀ p ∈ s.idMap, ∃ r,
     m.heap[p.2]? = some (.entity p.1.cls p.1.ident r) ∧
     (lookupL s.store p.1).isSome = true ∧
     lookupL m.assoc p.2 = some s.cid) ∧
  (∀ q ∈ m.assoc, q.1 < m.heap.length)

/-- What `obtain` guarantees about its result before returning it:
registered in the in-memory identity map, present in the store, and
its cache-association cell set to this cache. -/
def ObtainPost (m' : Mem) (s' : CState) (cls : Nat) (ident : Ident)
    (a : Addr) : Prop :=
  lookupL s'.idMap ⟨cls, ident⟩ = some a ∧
  (∃ r, m'.heap[a]? = some (.entity cls ident r)) ∧
  (lookupL s'.store ⟨cls, ident⟩).isSome = true ∧
  lookupL m'.assoc a = some s'.cid

/-- A conforming example source for class `1`. -/
def srcOK : Nat → Ident → Option (Nat × Ident × List Prim) :=
  fun c i => if c = 1 then some (1, i, [.str "x"]) else none

/-- A source whose constructed object carries a wrong identity. -/
def srcBadIdent : Nat → Ident → Option (Nat × Ident × List Prim) :=
  fun c _ => if c = 1 then some (1, [.int 99], [.str "x"]) else none

/-- A source whose constructed object has a wrong class. -/
def srcBadClass : Nat → Ident → Option (Nat × Ident × List Prim) :=
  fun c i => if c = 1 then some (2, i, [.str "x"]) else none

/-- Example `__qualname__` table. -/
def qualC : Nat → String := fun c => "C" ++ toString c

/-- Fresh memory over the conforming source. -/
def memOK : Mem := ⟨[], [], srcOK, qualC⟩

/-- Fresh memory over the identity-mismatching source. -/
def memBadIdent : Mem := ⟨[], [], srcBadIdent, qualC⟩

/-- Fresh memory over the class-mismatching source. -/
def memBadClass : Mem := ⟨[], [], srcBadClass, qualC⟩

/-- A fresh cache. -/
def cstate0 : CState := ⟨0, [], [], [], []⟩

/-- Memory with an entity at address 0 associated to cache 0, plus an
unassociated duplicate of it at address 1. -/
def memAssoc : Mem :=
  ⟨[.entity 1 [.int 0] [], .entity 1 [.int 0] [.str "dup"]], [(0, 0)],
   srcOK, qualC⟩

/-- Cache A (id 0) holding the entity of `memAssoc`. -/
def sA6 : CState :=
  ⟨0, [(⟨1, [.int 0]⟩, 0)], [], [(⟨1, [.int 0]⟩, [])], []⟩

/-- Cache B (id 1), empty. -/
def sB6 : CState := ⟨1, [], [], [], []⟩

/-- Memory for the attribute-pipeline examples: an unassociated entity
and a container holding the entity and itself. -/
def memPipe : Mem :=
  ⟨[.entity 1 [.int 0] [], .seq [0, 1]], [], srcOK, qualC⟩

end ACV

namespace ACV

/-! ## Interleaved executions of concurrent `obtain` calls

`Cache.obtain` runs its body under `self._locks[(cls, *identity)]`
(`WeakLockDict` hands out one `asyncio.Lock` per live key).  The
machine below interleaves N cooperative tasks, all calling
`obtain(cls, *ident)` on one shared cache: each task suspends at the
lock, at the database read (`self.get`), at the constructor
(`__obtain__`) and at the database write inside `Cache.cache`
(`self.put`) — the awaits of the source — and the segments between
suspension points run atomically.  `nStoreGet`/`nSource`/`nStorePut`
count the database reads, constructor invocations and database writes
issued for the key. -/

/-- Program counter of one task inside `obtain`. -/
inductive OPC where
  | ready
  | memTier
  | storeTier
  | sourceTier
  | putTier (a : Addr)
  | finished (a : Addr)
  | failed
deriving DecidableEq, Repr

/-- Is the task inside the locked section? -/
def OPC.inCrit : OPC → Bool
  | .ready | .finished _ | .failed => false
  | _ => true

/-- Shared cache state plus the tasks' counters for one contended key. -/
structure OMach where
  m : Mem
  s : CState
  locked : Bool
  pcs : List OPC
  nStoreGet : Nat
  nSource : Nat
  nStorePut : Nat

/-- One scheduler step: some task advances to its next suspension
point, following the body of `Cache.obtain` line by line; every exit
from the body (return or exception) releases the lock. -/
inductive OStep (cls : Nat) (ident : Ident) : OMach → OMach → Prop where
  | acquire {M : OMach} (i : Nat)
      (h : M.pcs[i]? = some .ready) (hl : M.locked = false) :
      OStep cls ident M
        { M with locked := true, pcs := M.pcs.set i .memTier }
  | memHit {M : OMach} (i : Nat) (a : Addr)
      (h : M.pcs[i]? = some .memTier)
      (ha : lookupL M.s.idMap ⟨cls, ident⟩ = some a) :
      OStep cls ident M
        { M with locked := false, pcs := M.pcs.set i (.finished a) }
  | memMiss {M : OMach} (i : Nat)
      (h : M.pcs[i]? = some .memTier)
      (ha : lookupL M.s.idMap ⟨cls, ident⟩ = none) :
      OStep cls ident M
        { M with pcs := M.pcs.set i .storeTier,
                 nStoreGet := M.nStoreGet + 1 }
  | storeHit {M : OMach} (i : Nat) (row : List Prim)
      (h : M.pcs[i]? = some .storeTier)
      (hrow : lookupL M.s.store ⟨cls, ident⟩ = some row)
      (hfresh : lookupL M.m.assoc M.m.heap.length = none) :
      OStep cls ident M
        { M with
            m := { M.m with
                     heap := M.m.heap ++ [.entity cls ident row],
                     assoc := (M.m.heap.length, M.s.cid) :: M.m.assoc },
            s := { M.s with
                     idMap := (⟨cls, ident⟩, M.m.heap.length) ::
                       M.s.idMap },
            locked := false,
            pcs := M.pcs.set i (.finished M.m.heap.length) }
  | storeMiss {M : OMach} (i : Nat)
      (h : M.pcs[i]? = some .storeTier)
      (hrow : lookupL M.s.store ⟨cls, ident⟩ = none) :
      OStep cls ident M
        { M with pcs := M.pcs.set i .sourceTier,
                 nSource := M.nSource + 1 }
  | sourceFail {M : OMach} (i : Nat)
      (h : M.pcs[i]? = some .sourceTier)
      (hs : M.m.src cls ident = none) :
      OStep cls ident M
        { M with locked := false, pcs := M.pcs.set i .failed }
  | sourceClassMismatch {M : OMach} (i : Nat) (c' : Nat) (i' : Ident)
      (r' : List Prim)
      (h : M.pcs[i]? = some .sourceTier)
      (hs : M.m.src cls ident = some (c', i', r')) (hne : c' ≠ cls) :
      OStep cls ident M
        { M with
            m := { M.m with heap := M.m.heap ++ [.entity c' i' r'] },
            locked := false, pcs := M.pcs.set i .failed }
  | sourceDoneHit {M : OMach} (i : Nat) (i' : Ident) (r' : List Prim)
      (a₀ : Addr)
      (h : M.pcs[i]? = some .sourceTier)
      (hs : M.m.src cls ident = some (cls, i', r'))
      (hhit : lookupL M.s.idMap ⟨cls, ident⟩ = some a₀) :
      OStep cls ident M
        { M with
            m := { M.m with heap := M.m.heap ++ [.entity cls i' r'] },
            locked := false, pcs := M.pcs.set i (.finished a₀) }
  | sourceDoneMiss {M : OMach} (i : Nat) (i' : Ident) (r' : List Prim)
      (h : M.pcs[i]? = some .sourceTier)
      (hs : M.m.src cls ident = some (cls, i', r'))
      (hmiss : lookupL M.s.idMap ⟨cls, ident⟩ = none) :
      OStep cls ident M
        { M with
            m := { M.m with heap := M.m.heap ++ [.entity cls i' r'] },
            pcs := M.pcs.set i (.putTier M.m.heap.length),
            nStorePut := M.nStorePut + 1 }
  | putDone {M : OMach} (i : Nat) (a : Addr) (i' : Ident)
      (r' : List Prim)
      (h : M.pcs[i]? = some (.putTier a))
      (hnode : M.m.heap[a]? = some (.entity cls i' r'))
      (hfresh : lookupL M.m.assoc a = none) :
      OStep cls ident M
        { M with
            m := { M.m with assoc := (a, M.s.cid) :: M.m.assoc },
            s := { M.s with
                     store := (⟨cls, i'⟩, r') :: M.s.store,
                     idMap := (⟨cls, ident⟩, a) :: M.s.idMap },
            locked := false,
            pcs := M.pcs.set i (.finished a) }

/-- N tasks about to call `obtain(cls, *ident)` concurrently. -/
def OInit (m : Mem) (s : CState) (n : Nat) : OMach :=
  ⟨m, s, false, List.replicate n .ready, 0, 0, 0⟩

/-- Reachability of the obtain machine. -/
def OReach (cls : Nat) (ident : Ident) : OMach → OMach → Prop :=
  Relation.ReflTransGen (OStep cls ident)

/-- The inductive invariant of the obtain machine, for a source that
constructs `(cls, ident, rest₀)` for the contended key. -/
structure OInv (cls : Nat) (ident : Ident) (rest₀ : List Prim)
    (M : OMach) : Prop where
  src_is : M.m.src cls ident = some (cls, ident, rest₀)
  lock_free : M.locked = false → ∀ (j : Nat) (pc : OPC),
      M.pcs[j]? = some pc → pc.inCrit = false
  crit_unique : ∀ (i j : Nat) (pci pcj : OPC), M.pcs[i]? = some pci →
      M.pcs[j]? = some pcj → pci.inCrit = true → pcj.inCrit = true →
      i = j
  tier_miss : ∀ (i : Nat) (pc : OPC), M.pcs[i]? = some pc →
      (pc = OPC.storeTier ∨ pc = OPC.sourceTier ∨
       ∃ a, pc = OPC.putTier a) →
      lookupL M.s.idMap ⟨cls, ident⟩ = none
  fin_reg : ∀ (i : Nat) (a : Addr), M.pcs[i]? = some (OPC.finished a) →
      lookupL M.s.idMap ⟨cls, ident⟩ = some a
  sg_le : M.nStoreGet ≤ 1
  sc_le : M.nSource ≤ 1
  sp_le : M.nStorePut ≤ 1
  sg_acct : M.nStoreGet = 1 →
      (lookupL M.s.idMap ⟨cls, ident⟩).isSome = true ∨
      ∃ (i : Nat) (pc : OPC), M.pcs[i]? = some pc ∧
        (pc = OPC.storeTier ∨ pc = OPC.sourceTier ∨
         ∃ a, pc = OPC.putTier a)
  sc_acct : M.nSource = 1 →
      (lookupL M.s.idMap ⟨cls, ident⟩).isSome = true ∨
      ∃ (i : Nat) (pc : OPC), M.pcs[i]? = some pc ∧
        (pc = OPC.sourceTier ∨ ∃ a, pc = OPC.putTier a)
  sp_acct : M.nStorePut = 1 →
      (lookupL M.s.idMap ⟨cls, ident⟩).isSome = true ∨
      ∃ (i : Nat) (a : Addr), M.pcs[i]? = some (OPC.putTier a)

/-! Interleaved executions of concurrent `cached_attribute_lookup`
calls for one `(entity, attribute)` key.  The body runs under
`self._locks[(obj, attrname, coroutine_func)]`; the computing and
decoding phases contain further awaits (the coroutine itself, `put`,
and the inter-pass `obtain` loop of the unpickler), during which the
shared state may change arbitrarily except that nobody else can touch
this key's `field_map` entry (its writer holds the key's lock). -/

/-- Program counter of one task inside `cached_attribute_lookup`. -/
inductive APC where
  | ready
  | fmemTier
  | dbTier
  | computing
  | decoding
  | finished (v : Addr)
deriving DecidableEq, Repr

/-- Is the task inside the locked section? -/
def APC.inCrit : APC → Bool
  | .ready | .finished _ => false
  | _ => true

/-- Shared cache state plus the tasks for one contended attribute key. -/
structure AMach where
  m : Mem
  s : CState
  locked : Bool
  pcs : List APC
  nCompute : Nat

/-- One scheduler step of the attribute machine. -/
inductive AStep (cls : Nat) (ident : Ident) (attrname : String) :
    AMach → AMach → Prop where
  | acquire {M : AMach} (i : Nat)
      (h : M.pcs[i]? = some .ready) (hl : M.locked = false) :
      AStep cls ident attrname M
        { M with locked := true, pcs := M.pcs.set i .fmemTier }
  | fmemHit {M : AMach} (i : Nat) (v : Addr)
      (h : M.pcs[i]? = some .fmemTier)
      (hv : lookupL M.s.fieldMap (cls, ident, attrname) = some v) :
      AStep cls ident attrname M
        { M with locked := false, pcs := M.pcs.set i (.finished v) }
  | fmemMiss {M : AMach} (i : Nat)
      (h : M.pcs[i]? = some .fmemTier)
      (hv : lookupL M.s.fieldMap (cls, ident, attrname) = none) :
      AStep cls ident attrname M
        { M with pcs := M.pcs.set i .dbTier }
  | dbHit {M : AMach} (i : Nat) (data : List Op)
      (h : M.pcs[i]? = some .dbTier)
      (hd : lookupL M.s.attrStore
          (M.m.clsQual cls, strId ident, attrname) = some data) :
      AStep cls ident attrname M
        { M with pcs := M.pcs.set i .decoding }
  | dbMiss {M : AMach} (i : Nat)
      (h : M.pcs[i]? = some .dbTier)
      (hd : lookupL M.s.attrStore
          (M.m.clsQual cls, strId ident, attrname) = none) :
      AStep cls ident attrname M
        { M with pcs := M.pcs.set i .computing,
                 nCompute := M.nCompute + 1 }
  | computeStep {M : AMach} (i : Nat) (m' : Mem) (s' : CState)
      (h : M.pcs[i]? = some .computing)
      (hk : lookupL s'.fieldMap (cls, ident, attrname) =
            lookupL M.s.fieldMap (cls, ident, attrname)) :
      AStep cls ident attrname M { M with m := m', s := s' }
  | computeDone {M : AMach} (i : Nat)
      (h : M.pcs[i]? = some .computing) :
      AStep cls ident attrname M { M with pcs := M.pcs.set i .decoding }
  | decStep {M : AMach} (i : Nat) (m' : Mem) (s' : CState)
      (h : M.pcs[i]? = some .decoding)
      (hk : lookupL s'.fieldMap (cls, ident, attrname) =
            lookupL M.s.fieldMap (cls, ident, attrname)) :
      AStep cls ident attrname M { M with m := m', s := s' }
  | decDone {M : AMach} (i : Nat) (v : Addr)
      (h : M.pcs[i]? = some .decoding) :
      AStep cls ident attrname M
        { M with
            s := { M.s with
                     fieldMap := ((cls, ident, attrname), v) ::
                       M.s.fieldMap },
            locked := false,
            pcs := M.pcs.set i (.finished v) }

/-- N tasks about to read the same attribute concurrently. -/
def AInit (m : Mem) (s : CState) (n : Nat) : AMach :=
  ⟨m, s, false, List.replicate n .ready, 0⟩

/-- Reachability of the attribute machine. -/
def AReach (cls : Nat) (ident : Ident) (attrname : String) :
    AMach → AMach → Prop :=
  Relation.ReflTransGen (AStep cls ident attrname)

/-- The inductive invariant of the attribute machine. -/
structure AInv (cls : Nat) (ident : Ident) (attrname : String)
    (M : AMach) : Prop where
  lock_free : M.locked = false → ∀ (j : Nat) (pc : APC),
      M.pcs[j]? = some pc → pc.inCrit = false
  crit_unique : ∀ (i j : Nat) (pci pcj : APC), M.pcs[i]? = some pci →
      M.pcs[j]? = some pcj → pci.inCrit = true → pcj.inCrit = true →
      i = j
  tier_miss : ∀ (i : Nat) (pc : APC), M.pcs[i]? = some pc →
      (pc = APC.dbTier ∨ pc = APC.computing ∨ pc = APC.decoding) →
      lookupL M.s.fieldMap (cls, ident, attrname) = none
  fin_reg : ∀ (i : Nat) (v : Addr), M.pcs[i]? = some (APC.finished v) →
      lookupL M.s.fieldMap (cls, ident, attrname) = some v
  nc_le : M.nCompute ≤ 1
  nc_acct : M.nCompute = 1 →
      (lookupL M.s.fieldMap (cls, ident, attrname)).isSome = true ∨
      ∃ (i : Nat) (pc : APC), M.pcs[i]? = some pc ∧
        (pc = APC.computing ∨ pc = APC.decoding)

end ACV

namespace ACV

/-- Terminal state of a concrete two-task run of the obtain machine:
task 0 resolved through the source, task 1 then hit the memory tier. -/
def OWit : OMach :=
  ⟨{ memOK with heap := [.entity 1 [.int 5] [.str "x"]],
                assoc := [(0, 0)] },
   { cstate0 with idMap := [(⟨1, [.int 5]⟩, 0)],
                  store := [(⟨1, [.int 5]⟩, [.str "x"])] },
   false, [.finished 0, .finished 0], 1, 1, 1⟩

/-- Terminal state of a concrete two-task run of the attribute machine:
task 0 computed and registered the value, task 1 read it from memory. -/
def AWit : AMach :=
  ⟨memOK, { cstate0 with fieldMap := [((1, [.int 5], "p"), 7)] },
   false, [.finished 7, .finished 7], 1⟩

end ACV

namespace ACV

/-! ## Correspondence between a pickled graph and its reconstruction -/

/-- The persistent-id tokens of a byte stream, in order. -/
def opsPids (ops : List Op) : List PID :=
  ops.filterMap fun op =>
    match op with
    | .pushPid pid => some pid
    | _ => none

/-- The addresses of the container nodes of a heap. -/
def seqAddrs (H : List Node) : List Addr :=
  (List.range H.length).filter fun a =>
    match H[a]? with
    | some (.seq _) => true
    | _ => false

/-- How many containers the pickler has not memoized yet: its
recursion descends only into these, which bounds the recursion
depth. -/
def unmemoCount (H : List Node) (memo : List Addr) : Nat :=
  ((seqAddrs H).filter fun a => !(memo.contains a)).length

/-- Value correspondence between an address of the pickled heap and an
address of the unpickler's heap: primitives reconstruct equal
primitives, entity tokens resolve through `entOK` (the
`persistent_load` behaviour), containers are related by the memo
table. -/
def corrVal (H D : List Node) (entOK : Nat → Ident → Addr → Prop)
    (dm : List (Addr × Addr)) (a b : Addr) : Prop :=
  match H[a]? with
  | some (.prim p) => D[b]? = some (.prim p)
  | some (.entity c i _) => entOK c i b
  | some (.seq _) => lookupL dm a = some b
  | none => False

/-- Coupling invariant between the pickler state and the unpickler
state: the encoder memo and decoder memo have the same domain, memo
values are fresh (≥ `N₀`), live and mutually distinct addresses of
decoder containers, and every memoized container corresponds — fully
when closed, elementwise on a prefix while still being filled (its
address in `P`). -/
structure SimInv (H : List Node) (entOK : Nat → Ident → Addr → Prop)
    (N₀ : Nat) (em : List Addr) (d : DecSt) (P : List Addr) : Prop where
  hN : N₀ ≤ d.heap.length
  dom_iff : ∀ a, a ∈ em ↔ (lookupL d.memo a).isSome = true
  vals_fresh : ∀ q ∈ d.memo, N₀ ≤ q.2 ∧ q.2 < d.heap.length
  vals_inj : ∀ q q', q ∈ d.memo → q' ∈ d.memo → q.2 = q'.2 → q.1 = q'.1
  pending_sub : ∀ a ∈ P, a ∈ em
  seq_corr : ∀ a b, lookupL d.memo a = some b →
      ∃ es bs, H[a]? = some (.seq es) ∧ d.heap[b]? = some (.seq bs) ∧
        (if a ∈ P then
           ∃ k, k ≤ es.length ∧
             List.Forall₂ (corrVal H d.heap entOK d.memo) (es.take k) bs
         else
           List.Forall₂ (corrVal H d.heap entOK d.memo) es bs)

/-- Structural relatedness of two nodes under a candidate relation:
equal primitives, entities of the same class and identity, containers
related elementwise. -/
def nodeRel (R : Addr → Addr → Prop) : Node → Node → Prop
  | .prim p, .prim q => p = q
  | .entity c i _, .entity c' i' _ => c = c' ∧ i = i'
  | .seq es, .seq fs => List.Forall₂ R es fs
  | _, _ => False

/-- `R` is a bisimulation between the graphs of two heaps. -/
def IsBisim (H₁ H₂ : List Node) (R : Addr → Addr → Prop) : Prop :=
  ∀ a b, R a b → ∃ n₁ n₂, H₁[a]? = some n₁ ∧ H₂[b]? = some n₂ ∧
    nodeRel R n₁ n₂

/-- Structural equality of two heap values (preserving sharing and
cycle topology): some bisimulation relates them. -/
def ValEquiv (H₁ : List Node) (a : Addr) (H₂ : List Node) (b : Addr) :
    Prop :=
  ∃ R, R a b ∧ IsBisim H₁ H₂ R

end ACV

namespace ACV

/-- How one pickling call extends the pickler state: opcodes, memo and
collected only grow, every collected pair is an entity instance paired
with its own identity, and every appended pid token has a matching
collected instance. -/
def EncExt (H : List Node) (e e' : EncSt) : Prop :=
  ∃ δ μ γ, e'.ops = e.ops ++ δ ∧ e'.memo = e.memo ++ μ ∧
    e'.collected = e.collected ++ γ ∧
    (∀ q ∈ γ, ∃ c r, H[q.1]? = some (.entity c q.2 r)) ∧
    (∀ pid ∈ opsPids δ, ∃ x r, (x, pid.ident) ∈ γ ∧
      H[x]? = some (.entity pid.cls pid.ident r))

/-- Totality of a `persistent_load` behaviour on the pid tokens of an
opcode stream: each call succeeds, may only extend the heap it is
given, returns a live address, and its answer satisfies `entOK`. -/
def LoaderTotal (pl : PLoader) (entOK : Nat → Ident → Addr → Prop)
    (N₀ : Nat) (ops : List Op) : Prop :=
  ∀ (D : List Node) (pid : PID), Op.pushPid pid ∈ ops →
    N₀ ≤ D.length →
    ∃ D' b, pl.load D pid = some (D', b) ∧
      D.length ≤ D'.length ∧ b < D'.length ∧
      (∀ j, j < D.length → D'[j]? = D[j]?) ∧
      entOK pid.cls pid.ident b

/-- The `id_map` invariant threaded through the codec pipeline: every
entry maps its key to a live entity of the key's class and identity
whose row is in the store. -/
def IdMapWF (m : Mem) (s : CState) : Prop :=
  ∀ p ∈ s.idMap, p.2 < m.heap.length ∧
    (lookupL s.store p.1).isSome = true ∧
    ∃ r, m.heap[p.2]? = some (.entity p.1.cls p.1.ident r)

end ACV

namespace ACV

/-! ## Lemmas about assoc-list lookup -/

theorem lookupL_nil {α β : Type} [DecidableEq α] (k : α) :
    lookupL ([] : List (α × β)) k = none := rfl

theorem lookupL_cons {α β : Type} [DecidableEq α] (k k' : α) (v : β)
    (t : List (α × β)) :
    lookupL ((k, v) :: t) k' = if k' = k then some v else lookupL t k' := rfl

/-- A successful lookup comes from some entry of the list. -/
theorem lookupL_mem {α β : Type} [DecidableEq α] :
    ∀ {l : List (α × β)} {k : α} {v : β},
      lookupL l k = some v → (k, v) ∈ l := by
  intro l
  induction l with
  | nil => intro k v h; simp [lookupL] at h
  | cons hd t ih =>
    intro k v h
    obtain ⟨k₀, v₀⟩ := hd
    rw [lookupL_cons] at h
    by_cases hk : k = k₀
    · simp [hk] at h
      exact h ▸ (hk ▸ List.mem_cons_self _ _)
    · simp [hk] at h
      exact List.mem_cons_of_mem _ (ih h)

/-- Prepending an entry with a different key does not change a lookup. -/
theorem lookupL_cons_ne {α β : Type} [DecidableEq α] {k k' : α} (v : β)
    (t : List (α × β)) (h : k' ≠ k) :
    lookupL ((k, v) :: t) k' = lookupL t k' := by
  simp [lookupL_cons, h]

/-- Prepending an entry makes its key's lookup hit it
(Python `d[k] = v`: newest wins). -/
theorem lookupL_cons_self {α β : Type} [DecidableEq α] (k : α) (v : β)
    (t : List (α × β)) :
    lookupL ((k, v) :: t) k = some v := by
  simp [lookupL_cons]

/-- Appending entries at the tail never disturbs an already-successful
lookup. -/
theorem lookupL_append_of_some {α β : Type} [DecidableEq α] :
    ∀ {l : List (α × β)} (l' : List (α × β)) {k : α} {v : β},
      lookupL l k = some v → lookupL (l ++ l') k = some v := by
  intro l
  induction l with
  | nil => intro l' k v h; simp [lookupL] at h
  | cons hd t ih =>
    intro l' k v h
    obtain ⟨k₀, v₀⟩ := hd
    rw [lookupL_cons] at h
    rw [List.cons_append, lookupL_cons]
    by_cases hk : k = k₀
    · simpa [hk] using h
    · simp [hk] at h ⊢; exact ih _ h

/-- If a key is absent, appending entries for other keys keeps other
lookups unchanged; general form: lookup in an append first tries
the front list. -/
theorem lookupL_append {α β : Type} [DecidableEq α] :
    ∀ (l l' : List (α × β)) (k : α),
      lookupL (l ++ l') k =
        (lookupL l k).or (lookupL l' k) := by
  intro l
  induction l with
  | nil => intro l' k; simp [lookupL]
  | cons hd t ih =>
    intro l' k
    obtain ⟨k₀, v₀⟩ := hd
    rw [List.cons_append, lookupL_cons, lookupL_cons]
    by_cases hk : k = k₀
    · simp [hk]
    · simp [hk, ih]

end ACV

namespace ACV

/-! ## Claim C8: schema-on-demand retry policy of `Database.store` -/

/-- C8: a `no such table` failure of the upsert makes `Database.store`
create the table on demand — columns from the record's fields, primary
key = the identity fields — and retry the upsert exactly once, so the
retry's outcome (including a second failure) propagates as-is; any
operational error other than the missing-table message propagates
without any retry or table creation; the created table has the derived
schema. -/
theorem db_store_retry_policy (db : DBState) (f₂ : Option String)
    (obj : RowObj) (msg : String) :
    (¬ (db.tables.map Table.name).contains (tablename obj.dc) = true →
       db_store db none f₂ obj =
         db_upsert (db_create_table db obj.dc) f₂ obj) ∧
    (msg ≠ "no such table: " ++ tablename obj.dc →
       db_store db (some msg) f₂ obj = .error (.operational msg)) ∧
    ((db_create_table db obj.dc).tables =
       { name := tablename obj.dc, columns := obj.dc.all_field_names,
         pkey := obj.dc.identity_field_names } :: db.tables) := by
  refine ⟨fun habs => ?_, fun hmsg => ?_, rfl⟩
  · simp only [db_store, db_upsert, habs, if_false]
    simp
  · simp only [db_store, db_upsert]
    have : DBError.operational msg ≠
        DBError.operational ("no such table: " ++ tablename obj.dc) := by
      simpa using hmsg
    simp [this]

/-- Witness for C8 at a concrete database and record: both retry-policy
hypotheses are dischargeable and the conclusions evaluate. -/
theorem db_store_retry_policy_witness :
    (¬ ((DBState.mk [] []).tables.map Table.name).contains
        (tablename (RowObj.mk ⟨"A.B", ["id", "x"], ["id"]⟩ [.int 1]
          [.int 1, .str "v"]).dc) = true) ∧
    ("database is locked" ≠ "no such table: " ++
        tablename (RowObj.mk ⟨"A.B", ["id", "x"], ["id"]⟩ [.int 1]
          [.int 1, .str "v"]).dc) ∧
    (db_store (DBState.mk [] []) none none
        (RowObj.mk ⟨"A.B", ["id", "x"], ["id"]⟩ [.int 1]
          [.int 1, .str "v"]) =
      db_upsert
        (db_create_table (DBState.mk [] [])
          (RowObj.mk ⟨"A.B", ["id", "x"], ["id"]⟩ [.int 1]
            [.int 1, .str "v"]).dc) none
        (RowObj.mk ⟨"A.B", ["id", "x"], ["id"]⟩ [.int 1]
          [.int 1, .str "v"])) ∧
    (db_store (DBState.mk [] []) (some "database is locked") none
        (RowObj.mk ⟨"A.B", ["id", "x"], ["id"]⟩ [.int 1]
          [.int 1, .str "v"]) =
      .error (.operational "database is locked")) := by
  have h := db_store_retry_policy (DBState.mk [] []) none
    (RowObj.mk ⟨"A.B", ["id", "x"], ["id"]⟩ [.int 1] [.int 1, .str "v"])
    "database is locked"
  refine ⟨by decide, by decide, h.1 (by decide), h.2.1 (by decide)⟩

end ACV

namespace ACV

/-! ## Claim C9: shape restrictions on awaitable-property results -/

/-- C9: a declared fixed-arity tuple return annotation — any
`tuple[...]` whose argument tail is not exactly `[Ellipsis]` — is
rejected by `inspect_return_type` with the `fixed-size tuple` type
error (a definition error at registration/first inspection); and an
awaitable property declared to return an open tuple whose computation
returns a resizable list fails with a type error on every access,
whatever is already cached, with nothing persisted (the error is
raised before the persist step); a proper tuple result passes and only
then is persisted. -/
theorem awaitable_shape_enforcement :
    (∀ tgt el, el ≠ [PyTy.ellipsisTy] →
       inspect_return_type (.tupleOf (tgt :: el)) =
         .error "returns a fixed-size tuple") ∧
    (∀ t xs persisted,
       awaitable_property_access (.tupleOf [t, .ellipsisTy]) (.listV xs)
           persisted =
         .error "type error: resizable list where an open tuple was declared") ∧
    (∀ t xs persisted,
       awaitable_property_access (.tupleOf [t, .ellipsisTy]) (.tupleV xs)
           persisted =
         .ok (.tupleV xs, .tupleV xs :: persisted)) := by
  refine ⟨fun tgt el h => ?_, fun t xs persisted => rfl,
          fun t xs persisted => rfl⟩
  cases el with
  | nil => rfl
  | cons x xs =>
    cases x <;> cases xs <;> first | rfl | simp_all [inspect_return_type]

/-- Witness for C9 at concrete annotations and values:
`tuple[int, int]` is rejected as a definition error, and a list where
`tuple[int, ...]` was declared raises a type error on access with the
already-persisted state untouched. -/
theorem awaitable_shape_enforcement_witness :
    ([PyTy.intTy] ≠ [PyTy.ellipsisTy]) ∧
    (inspect_return_type (.tupleOf [.intTy, .intTy]) =
       .error "returns a fixed-size tuple") ∧
    (awaitable_property_access (.tupleOf [.intTy, .ellipsisTy])
         (.listV [.primV (.int 0)]) [] =
       .error "type error: resizable list where an open tuple was declared") ∧
    (awaitable_property_access (.tupleOf [.intTy, .ellipsisTy])
         (.tupleV [.primV (.int 0)]) [] =
       .ok (.tupleV [.primV (.int 0)], [.tupleV [.primV (.int 0)]])) := by
  have h := awaitable_shape_enforcement
  exact ⟨by simp, h.1 PyTy.intTy [PyTy.intTy] (by simp),
         h.2.1 PyTy.intTy [.primV (.int 0)] [],
         h.2.2 PyTy.intTy [.primV (.int 0)] []⟩

end ACV

namespace ACV

/-! ## Claim C6: the cache-association cell is set at most once -/

/-- C6: `_set_cache` is a compare-and-set that succeeds only from the
unassociated state, so the cell transitions at most once (any further
set, to any cache, fails loudly with the assertion); associating an
entity already associated with cache A with a different cache B fails
loudly through `Cache.cache`; while `Cache.cache` on a key already in
the identity map is idempotent — it returns the previously registered
canonical instance unchanged-state and discards the passed object
(whether it is the canonical one or a fresh duplicate). -/
theorem cache_association_once (m : Mem) (sA sB : CState)
    (a b anew a₀ : Addr) (c : Nat) (i inew ident : Ident)
    (r rnew : List Prim) :
    (lookupL m.assoc b = none → ∀ cid,
       set_cache m b cid = .ok { m with assoc := (b, cid) :: m.assoc }) ∧
    (∀ cid₀ cid', lookupL m.assoc a = some cid₀ →
       set_cache m a cid' =
         .error (.assertionError "set_cache: cache is not None")) ∧
    (sA.cid ≠ sB.cid →
     m.heap[a]? = some (.entity c i r) →
     lookupL m.assoc a = some sA.cid →
     lookupL sB.idMap ⟨c, ident⟩ = none →
       (cache_op m sB a (some ident)).2.2 =
         .error (.assertionError "set_cache: cache is not None")) ∧
    (m.heap[anew]? = some (.entity c inew rnew) →
     lookupL sA.idMap ⟨c, ident⟩ = some a₀ →
       cache_op m sA anew (some ident) = (m, sA, .ok a₀)) := by
  refine ⟨fun hb cid => ?_, fun cid₀ cid' ha => ?_,
          fun _ hheap ha hmiss => ?_, fun hheap hhit => ?_⟩
  · simp [set_cache, hb]
  · simp [set_cache, ha]
  · simp [cache_op, hheap, hmiss, set_cache, ha]
  · simp [cache_op, hheap, hhit]

/-- Witness for C6 on `memAssoc`/`sA6`/`sB6`: address 1 is a fresh
duplicate (cell settable once), address 0 is associated with cache 0
(second set and association with cache 1 fail loudly), and re-passing
the duplicate to cache A returns the canonical address 0 with no state
change. -/
theorem cache_association_once_witness :
    set_cache memAssoc 1 5 =
      .ok { memAssoc with assoc := (1, 5) :: memAssoc.assoc } ∧
    set_cache memAssoc 0 7 =
      .error (.assertionError "set_cache: cache is not None") ∧
    (cache_op memAssoc sB6 0 (some [.int 0])).2.2 =
      .error (.assertionError "set_cache: cache is not None") ∧
    cache_op memAssoc sA6 1 (some [.int 0]) = (memAssoc, sA6, .ok 0) := by
  have h := cache_association_once memAssoc sA6 sB6 0 1 1 0 1
    [.int 0] [.int 0] [.int 0] [] [.str "dup"]
  exact ⟨h.1 (by decide) 5, h.2.1 0 7 (by decide),
         h.2.2.1 (by decide) (by decide) (by decide) (by decide),
         h.2.2.2 (by decide) (by decide)⟩

end ACV

namespace ACV

/-! ## Claim C7: source-result validation in `obtain` -/

/-- C7 (amended): when `obtain` falls through to the constructor, a
result of the wrong class trips `assert obj.__class__ ==
desired_dataclass` — a fatal assertion, no retry, nothing registered in
the identity map; but the constructed identity is *not* validated: a
result of the requested class whose identity differs from the request
is registered under the requested identity and returned without
error. -/
theorem obtain_source_mismatch (m : Mem) (s : CState) (cls : Nat)
    (ident : Ident) (c' : Nat) (i' : Ident) (r' : List Prim)
    (hmem : lookupL s.idMap ⟨cls, ident⟩ = none)
    (hstore : lookupL s.store ⟨cls, ident⟩ = none)
    (hsrc : m.src cls ident = some (c', i', r')) :
    (c' ≠ cls →
       (obtain_op m s cls ident).2.1 = s ∧
       (obtain_op m s cls ident).2.2.1 =
         .error (.assertionError "obtain: class mismatch")) ∧
    (c' = cls → lookupL m.assoc m.heap.length = none →
       (obtain_op m s cls ident).2.2.1 = .ok m.heap.length ∧
       lookupL (obtain_op m s cls ident).2.1.idMap ⟨cls, ident⟩ =
         some m.heap.length ∧
       (obtain_op m s cls ident).1.heap[m.heap.length]? =
         some (.entity c' i' r')) := by
  constructor
  · intro hne
    simp [obtain_op, hmem, hstore, hsrc, hne]
  · intro hc hfresh
    subst hc
    simp [obtain_op, hmem, hstore, hsrc, cache_op, set_cache, hfresh,
          List.getElem?_concat_length, lookupL_cons_self]

/-- Witness for C7's amendment, on both mismatch kinds: the
class-mismatching source aborts with the assertion and registers
nothing; the identity-mismatching source (requested identity `(5,)`,
constructed identity `(99,)`) succeeds and registers the object under
the *requested* key. -/
theorem obtain_source_mismatch_witness :
    ((obtain_op memBadClass cstate0 1 [.int 5]).2.1 = cstate0 ∧
     (obtain_op memBadClass cstate0 1 [.int 5]).2.2.1 =
       .error (.assertionError "obtain: class mismatch")) ∧
    ((obtain_op memBadIdent cstate0 1 [.int 5]).2.2.1 = .ok 0 ∧
     lookupL (obtain_op memBadIdent cstate0 1 [.int 5]).2.1.idMap
       ⟨1, [.int 5]⟩ = some 0 ∧
     (obtain_op memBadIdent cstate0 1 [.int 5]).1.heap[(0 : Nat)]? =
       some (.entity 1 [.int 99] [.str "x"])) := by
  have h₁ := obtain_source_mismatch memBadClass cstate0 1 [.int 5]
    2 [.int 5] [.str "x"] (by decide) (by decide) rfl
  have h₂ := obtain_source_mismatch memBadIdent cstate0 1 [.int 5]
    1 [.int 99] [.str "x"] (by decide) (by decide) rfl
  exact ⟨h₁.1 (by decide), h₂.2 rfl (by decide)⟩

/-- C7 counterexample to the claim as stated: an identity-mismatching
construction (requested `(5,)`, constructed `(99,)`) does **not** make
`obtain` fail — it returns successfully and registers the mismatched
object under the requested key. -/
theorem obtain_ident_mismatch_counterexample :
    memBadIdent.src 1 [.int 5] = some (1, [.int 99], [.str "x"]) ∧
    ([Prim.int 99] ≠ [Prim.int 5]) ∧
    (obtain_op memBadIdent cstate0 1 [.int 5]).2.2.1 = .ok 0 ∧
    lookupL (obtain_op memBadIdent cstate0 1 [.int 5]).2.1.idMap
      ⟨1, [.int 5]⟩ = some 0 := by
  exact ⟨rfl, by decide, rfl, rfl⟩

end ACV

namespace ACV

/-- A key whose entries all lie below `n` is not bound at `n`. -/
theorem lookupL_eq_none_of_lt {β : Type} (l : List (Nat × β)) (n : Nat)
    (h : ∀ q ∈ l, q.1 < n) : lookupL l n = none := by
  cases hl : lookupL l n with
  | none => rfl
  | some v => exact absurd (h _ (lookupL_mem hl)) (by simp)

/-- `srcOK` satisfies the constructor contract. -/
theorem src_conforming_memOK : SrcConforming memOK := by
  intro c i x h
  by_cases hc : c = 1
  · subst hc
    simp [memOK, srcOK] at h
    simp [← h]
  · simp [memOK, srcOK, hc] at h

/-! ## Claim C2: three-tier resolution order of `obtain` -/

/-- C2: `obtain` resolves in the order in-memory identity map, then
database (a `RecordMissingError` is swallowed and treated as a miss),
then the class's asynchronous constructor — the event trace records
exactly the tiers touched — and on every successful path the returned
instance is registered in the identity map, its row is in the store,
and its cache-association cell names this cache, in the state in which
it is returned. -/
theorem obtain_three_tier (m : Mem) (s : CState) (cls : Nat)
    (ident : Ident) (hwf : CacheWF m s) (hconf : SrcConforming m) :
    (∀ a, lookupL s.idMap ⟨cls, ident⟩ = some a →
       obtain_op m s cls ident = (m, s, .ok a, [.mem true]) ∧
       ObtainPost m s cls ident a) ∧
    (lookupL s.idMap ⟨cls, ident⟩ = none →
     ∀ row, lookupL s.store ⟨cls, ident⟩ = some row →
       obtain_op m s cls ident =
           ({ m with heap := m.heap ++ [.entity cls ident row],
                     assoc := (m.heap.length, s.cid) :: m.assoc },
            { s with idMap := (⟨cls, ident⟩, m.heap.length) :: s.idMap },
            .ok m.heap.length, [.mem false, .storeGet true]) ∧
       ObtainPost
         { m with heap := m.heap ++ [.entity cls ident row],
                  assoc := (m.heap.length, s.cid) :: m.assoc }
         { s with idMap := (⟨cls, ident⟩, m.heap.length) :: s.idMap }
         cls ident m.heap.length) ∧
    (lookupL s.idMap ⟨cls, ident⟩ = none →
     lookupL s.store ⟨cls, ident⟩ = none →
       (m.src cls ident = none →
          obtain_op m s cls ident =
            (m, s, .error .sourceFailure,
             [.mem false, .storeGet false, .source])) ∧
       (∀ c' i' r', m.src cls ident = some (c', i', r') →
          obtain_op m s cls ident =
              ({ m with heap := m.heap ++ [.entity cls ident r'],
                        assoc := (m.heap.length, s.cid) :: m.assoc },
               { s with
                   idMap := (⟨cls, ident⟩, m.heap.length) :: s.idMap,
                   store := (⟨cls, ident⟩, r') :: s.store },
               .ok m.heap.length,
               [.mem false, .storeGet false, .source]) ∧
            ObtainPost
              { m with heap := m.heap ++ [.entity cls ident r'],
                       assoc := (m.heap.length, s.cid) :: m.assoc }
              { s with
                  idMap := (⟨cls, ident⟩, m.heap.length) :: s.idMap,
                  store := (⟨cls, ident⟩, r') :: s.store }
              cls ident m.heap.length)) := by
  have hfresh : lookupL m.assoc m.heap.length = none :=
    lookupL_eq_none_of_lt _ _ hwf.2
  refine ⟨fun a ha => ?_, fun hmem row hrow => ?_,
          fun hmem hstore => ⟨fun hnone => ?_, fun c' i' r' hsrc => ?_⟩⟩
  · obtain ⟨r, hheap, hst, hassoc⟩ := hwf.1 _ (lookupL_mem ha)
    exact ⟨by simp [obtain_op, ha],
           ha, ⟨r, hheap⟩, hst, hassoc⟩
  · constructor
    · simp [obtain_op, hmem, hrow, set_cache, hfresh]
    · exact ⟨lookupL_cons_self _ _ _,
             ⟨row, by simp [List.getElem?_concat_length]⟩,
             by simp [hrow], lookupL_cons_self _ _ _⟩
  · simp [obtain_op, hmem, hstore, hnone]
  · obtain ⟨hc, hi⟩ := hconf _ _ _ hsrc
    simp only at hc hi
    subst hc hi
    constructor
    · simp [obtain_op, hmem, hstore, hsrc, cache_op, set_cache, hfresh,
            List.getElem?_concat_length]
    · exact ⟨lookupL_cons_self _ _ _,
             ⟨r', by simp [List.getElem?_concat_length]⟩,
             by simp [lookupL_cons_self], lookupL_cons_self _ _ _⟩

/-- Witness for C2 on a fresh cache over the conforming source: the
source path fires and the returned instance is registered, stored and
associated. -/
theorem obtain_three_tier_witness :
    obtain_op memOK cstate0 1 [.int 5] =
        ({ memOK with heap := [.entity 1 [.int 5] [.str "x"]],
                      assoc := [(0, 0)] },
         { cstate0 with idMap := [(⟨1, [.int 5]⟩, 0)],
                        store := [(⟨1, [.int 5]⟩, [.str "x"])] },
         .ok 0, [.mem false, .storeGet false, .source]) ∧
    ObtainPost
      { memOK with heap := [.entity 1 [.int 5] [.str "x"]],
                   assoc := [(0, 0)] }
      { cstate0 with idMap := [(⟨1, [.int 5]⟩, 0)],
                     store := [(⟨1, [.int 5]⟩, [.str "x"])] }
      1 [.int 5] 0 := by
  have h := obtain_three_tier memOK cstate0 1 [.int 5]
    (by constructor <;> simp [CacheWF, memOK, cstate0])
    src_conforming_memOK
  exact h.2.2 (by decide) (by decide) |>.2 1 [.int 5] [.str "x"] rfl

end ACV

namespace ACV

/-- Reading an updated list: either the updated slot or an untouched
one. -/
theorem getElem?_set_cases {α : Type} {l : List α} {i j : Nat} {a b : α}
    (h : (l.set i a)[j]? = some b) :
    (i = j ∧ b = a) ∨ (i ≠ j ∧ l[j]? = some b) := by
  by_cases hij : i = j
  · subst hij
    refine Or.inl ⟨rfl, ?_⟩
    have hlt : i < l.length := by
      by_contra hge
      rw [List.getElem?_eq_none (by simpa using Nat.le_of_not_lt hge)] at h
      exact Option.noConfusion h
    rw [List.getElem?_set_eq_of_lt a hlt] at h
    exact (Option.some_inj.mp h).symm
  · exact Or.inr ⟨hij, by rwa [List.getElem?_set_ne hij] at h⟩

/-- Setting an occupied slot makes its read return the new value. -/
theorem getElem?_set_self_of_some {α : Type} {l : List α} {i : Nat}
    {a b : α} (h : l[i]? = some b) : (l.set i a)[i]? = some a := by
  have hlt : i < l.length := by
    by_contra hge
    rw [List.getElem?_eq_none (Nat.le_of_not_lt hge)] at h
    exact Option.noConfusion h
  exact List.getElem?_set_eq_of_lt a hlt

/-- A `dict` write never turns a present key absent. -/
theorem lookupL_cons_isSome {α β : Type} [DecidableEq α]
    {l : List (α × β)} {k : α} (e : α × β)
    (h : (lookupL l k).isSome = true) :
    (lookupL (e :: l) k).isSome = true := by
  obtain ⟨k', v'⟩ := e
  rw [lookupL_cons]
  by_cases hk : k = k' <;> simp [hk, h]

end ACV

namespace ACV

/-- The store/source/put tiers are inside the locked section. -/
theorem OPC.tier3_inCrit {pc : OPC}
    (h : pc = OPC.storeTier ∨ pc = OPC.sourceTier ∨
         ∃ a, pc = OPC.putTier a) : pc.inCrit = true := by
  rcases h with rfl | rfl | ⟨a, rfl⟩ <;> rfl

/-- The source/put tiers are inside the locked section. -/
theorem OPC.tier2_inCrit {pc : OPC}
    (h : pc = OPC.sourceTier ∨ ∃ a, pc = OPC.putTier a) :
    pc.inCrit = true := by
  rcases h with rfl | ⟨a, rfl⟩ <;> rfl

/-- Every step of the obtain machine preserves the invariant. -/
theorem OInv_step {cls : Nat} {ident : Ident} {rest₀ : List Prim}
    {M M' : OMach} (hstep : OStep cls ident M M')
    (hinv : OInv cls ident rest₀ M) : OInv cls ident rest₀ M' := by
  obtain ⟨hsrc, hlf, hcu, htm, hfr, hsg, hsc, hsp, hsga, hsca, hspa⟩ := hinv
  cases hstep with
  | acquire i h hl =>
    refine ⟨hsrc, ?_, ?_, ?_, ?_, hsg, hsc, hsp, ?_, ?_, ?_⟩
    · intro hfalse; simp at hfalse
    · intro j k pcj pck hj hk hcj hck
      rcases getElem?_set_cases hj with ⟨hij, rfl⟩ | ⟨hij, hj'⟩ <;>
        rcases getElem?_set_cases hk with ⟨hik, rfl⟩ | ⟨hik, hk'⟩
      · omega
      · exact absurd hck (by simp [hlf hl k pck hk'])
      · exact absurd hcj (by simp [hlf hl j pcj hj'])
      · exact absurd hcj (by simp [hlf hl j pcj hj'])
    · intro j pc hj htier
      rcases getElem?_set_cases hj with ⟨hij, rfl⟩ | ⟨hij, hj'⟩
      · rcases htier with h1 | h1 | ⟨a, h1⟩ <;> simp at h1
      · exact htm j pc hj' htier
    · intro j a hj
      rcases getElem?_set_cases hj with ⟨hij, hpc⟩ | ⟨hij, hj'⟩
      · simp at hpc
      · exact hfr j a hj'
    · intro h1
      rcases hsga h1 with hsome | ⟨j, pc, hj, ht⟩
      · exact Or.inl hsome
      · by_cases hij : i = j
        · subst hij; rw [h] at hj; injection hj with hpc; subst hpc
          rcases ht with h1' | h1' | ⟨a, h1'⟩ <;> simp at h1'
        · exact Or.inr ⟨j, pc, by rwa [List.getElem?_set_ne hij], ht⟩
    · intro h1
      rcases hsca h1 with hsome | ⟨j, pc, hj, ht⟩
      · exact Or.inl hsome
      · by_cases hij : i = j
        · subst hij; rw [h] at hj; injection hj with hpc; subst hpc
          rcases ht with h1' | ⟨a, h1'⟩ <;> simp at h1'
        · exact Or.inr ⟨j, pc, by rwa [List.getElem?_set_ne hij], ht⟩
    · intro h1
      rcases hspa h1 with hsome | ⟨j, a, hj⟩
      · exact Or.inl hsome
      · by_cases hij : i = j
        · subst hij; rw [h] at hj; injection hj with hpc; simp at hpc
        · exact Or.inr ⟨j, a, by rwa [List.getElem?_set_ne hij]⟩
  | memHit i a h ha =>
    refine ⟨hsrc, ?_, ?_, ?_, ?_, hsg, hsc, hsp, ?_, ?_, ?_⟩
    · intro _ j pc hj
      rcases getElem?_set_cases hj with ⟨hij, rfl⟩ | ⟨hij, hj'⟩
      · rfl
      · by_contra hcrit
        exact hij (hcu i j _ pc h hj' rfl (by simpa using hcrit))
    · intro j k pcj pck hj hk hcj hck
      rcases getElem?_set_cases hj with ⟨hij, rfl⟩ | ⟨hij, hj'⟩ <;>
        rcases getElem?_set_cases hk with ⟨hik, rfl⟩ | ⟨hik, hk'⟩
      · omega
      · simp [OPC.inCrit] at hcj
      · simp [OPC.inCrit] at hck
      · exact hcu j k _ _ hj' hk' hcj hck
    · intro j pc hj htier
      rcases getElem?_set_cases hj with ⟨hij, rfl⟩ | ⟨hij, hj'⟩
      · rcases htier with h1 | h1 | ⟨a', h1⟩ <;> simp at h1
      · exact htm j pc hj' htier
    · intro j a' hj
      rcases getElem?_set_cases hj with ⟨hij, hpc⟩ | ⟨hij, hj'⟩
      · injection hpc with ha'; rw [ha']; exact ha
      · exact hfr j a' hj'
    · intro h1; exact Or.inl (by simp [ha])
    · intro h1; exact Or.inl (by simp [ha])
    · intro h1; exact Or.inl (by simp [ha])
  | memMiss i h ha =>
    refine ⟨hsrc, ?_, ?_, ?_, ?_, ?_, hsc, hsp, ?_, ?_, ?_⟩
    · intro hfree j pc hj
      have := hlf hfree i _ h
      simp [OPC.inCrit] at this
    · intro j k pcj pck hj hk hcj hck
      rcases getElem?_set_cases hj with ⟨hij, rfl⟩ | ⟨hij, hj'⟩ <;>
        rcases getElem?_set_cases hk with ⟨hik, rfl⟩ | ⟨hik, hk'⟩
      · omega
      · exact absurd (hcu i k _ _ h hk' rfl hck) hik
      · exact absurd (hcu i j _ _ h hj' rfl hcj) hij
      · exact hcu j k _ _ hj' hk' hcj hck
    · intro j pc hj htier
      rcases getElem?_set_cases hj with ⟨hij, rfl⟩ | ⟨hij, hj'⟩
      · exact ha
      · exact htm j pc hj' htier
    · intro j a' hj
      rcases getElem?_set_cases hj with ⟨hij, hpc⟩ | ⟨hij, hj'⟩
      · simp at hpc
      · exact hfr j a' hj'
    · show M.nStoreGet + 1 ≤ 1
      rcases Nat.lt_or_ge M.nStoreGet 1 with hlt | hge
      · omega
      · exfalso
        have h1 : M.nStoreGet = 1 := le_antisymm hsg hge
        rcases hsga h1 with hsome | ⟨j, pc, hj, ht⟩
        · rw [ha] at hsome; simp at hsome
        · have hji := hcu j i pc .memTier hj h (OPC.tier3_inCrit ht) rfl
          subst hji
          rw [h] at hj
          injection hj with hpc
          subst hpc
          rcases ht with h1' | h1' | ⟨a', h1'⟩ <;> simp at h1'
    · intro h1
      exact Or.inr ⟨i, .storeTier, getElem?_set_self_of_some h,
        Or.inl rfl⟩
    · intro h1
      rcases hsca h1 with hsome | ⟨j, pc, hj, ht⟩
      · exact Or.inl hsome
      · by_cases hij : i = j
        · subst hij; rw [h] at hj; injection hj with hpc; subst hpc
          rcases ht with h1' | ⟨a', h1'⟩ <;> simp at h1'
        · exact Or.inr ⟨j, pc, by rwa [List.getElem?_set_ne hij], ht⟩
    · intro h1
      rcases hspa h1 with hsome | ⟨j, a', hj⟩
      · exact Or.inl hsome
      · by_cases hij : i = j
        · subst hij; rw [h] at hj; injection hj with hpc; simp at hpc
        · exact Or.inr ⟨j, a', by rwa [List.getElem?_set_ne hij]⟩
  | storeHit i row h hrow hfresh =>
    refine ⟨hsrc, ?_, ?_, ?_, ?_, hsg, hsc, hsp, ?_, ?_, ?_⟩
    · intro _ j pc hj
      rcases getElem?_set_cases hj with ⟨hij, rfl⟩ | ⟨hij, hj'⟩
      · rfl
      · by_contra hcrit
        exact hij (hcu i j _ pc h hj' rfl (by simpa using hcrit))
    · intro j k pcj pck hj hk hcj hck
      rcases getElem?_set_cases hj with ⟨hij, rfl⟩ | ⟨hij, hj'⟩ <;>
        rcases getElem?_set_cases hk with ⟨hik, rfl⟩ | ⟨hik, hk'⟩
      · omega
      · simp [OPC.inCrit] at hcj
      · simp [OPC.inCrit] at hck
      · exact hcu j k _ _ hj' hk' hcj hck
    · intro j pc hj htier
      rcases getElem?_set_cases hj with ⟨hij, rfl⟩ | ⟨hij, hj'⟩
      · rcases htier with h1 | h1 | ⟨a', h1⟩ <;> simp at h1
      · exact absurd (hcu j i pc _ hj' h (OPC.tier3_inCrit htier) rfl)
          hij.symm
    · intro j a' hj
      rcases getElem?_set_cases hj with ⟨hij, hpc⟩ | ⟨hij, hj'⟩
      · injection hpc with ha'
        rw [ha']
        exact lookupL_cons_self _ _ _
      · have h1 := hfr j a' hj'
        have h2 := htm i _ h (Or.inl rfl)
        rw [h1] at h2; exact Option.noConfusion h2
    · intro h1; exact Or.inl (by simp [lookupL_cons_self])
    · intro h1; exact Or.inl (by simp [lookupL_cons_self])
    · intro h1; exact Or.inl (by simp [lookupL_cons_self])
  | storeMiss i h hrow =>
    refine ⟨hsrc, ?_, ?_, ?_, ?_, hsg, ?_, hsp, ?_, ?_, ?_⟩
    · intro hfree j pc hj
      have := hlf hfree i _ h
      simp [OPC.inCrit] at this
    · intro j k pcj pck hj hk hcj hck
      rcases getElem?_set_cases hj with ⟨hij, rfl⟩ | ⟨hij, hj'⟩ <;>
        rcases getElem?_set_cases hk with ⟨hik, rfl⟩ | ⟨hik, hk'⟩
      · omega
      · exact absurd (hcu i k _ _ h hk' rfl hck) hik
      · exact absurd (hcu i j _ _ h hj' rfl hcj) hij
      · exact hcu j k _ _ hj' hk' hcj hck
    · intro j pc hj htier
      rcases getElem?_set_cases hj with ⟨hij, rfl⟩ | ⟨hij, hj'⟩
      · exact htm i _ h (Or.inl rfl)
      · exact htm j pc hj' htier
    · intro j a' hj
      rcases getElem?_set_cases hj with ⟨hij, hpc⟩ | ⟨hij, hj'⟩
      · simp at hpc
      · exact hfr j a' hj'
    · show M.nSource + 1 ≤ 1
      rcases Nat.lt_or_ge M.nSource 1 with hlt | hge
      · omega
      · exfalso
        have h1 : M.nSource = 1 := le_antisymm hsc hge
        rcases hsca h1 with hsome | ⟨j, pc, hj, ht⟩
        · rw [htm i _ h (Or.inl rfl)] at hsome; simp at hsome
        · have hji := hcu j i pc .storeTier hj h (OPC.tier2_inCrit ht) rfl
          subst hji
          rw [h] at hj
          injection hj with hpc
          subst hpc
          rcases ht with h1' | ⟨a', h1'⟩ <;> simp at h1'
    · intro h1
      exact Or.inr ⟨i, .sourceTier, getElem?_set_self_of_some h,
        Or.inr (Or.inl rfl)⟩
    · intro h1
      exact Or.inr ⟨i, .sourceTier, getElem?_set_self_of_some h,
        Or.inl rfl⟩
    · intro h1
      rcases hspa h1 with hsome | ⟨j, a', hj⟩
      · exact Or.inl hsome
      · by_cases hij : i = j
        · subst hij; rw [h] at hj; injection hj with hpc; simp at hpc
        · exact Or.inr ⟨j, a', by rwa [List.getElem?_set_ne hij]⟩
  | sourceFail i h hs =>
    rw [hsrc] at hs
    exact Option.noConfusion hs
  | sourceClassMismatch i c' i' r' h hs hne =>
    rw [hsrc] at hs
    injection hs with hs1
    exact absurd ((congrArg Prod.fst hs1 : cls = c')).symm hne
  | sourceDoneHit i i' r' a₀ h hs hhit =>
    have := htm i _ h (Or.inr (Or.inl rfl))
    rw [this] at hhit
    exact Option.noConfusion hhit
  | sourceDoneMiss i i' r' h hs hmiss =>
    refine ⟨hsrc, ?_, ?_, ?_, ?_, hsg, hsc, ?_, ?_, ?_, ?_⟩
    · intro hfree j pc hj
      have := hlf hfree i _ h
      simp [OPC.inCrit] at this
    · intro j k pcj pck hj hk hcj hck
      rcases getElem?_set_cases hj with ⟨hij, rfl⟩ | ⟨hij, hj'⟩ <;>
        rcases getElem?_set_cases hk with ⟨hik, rfl⟩ | ⟨hik, hk'⟩
      · omega
      · exact absurd (hcu i k _ _ h hk' rfl hck) hik
      · exact absurd (hcu i j _ _ h hj' rfl hcj) hij
      · exact hcu j k _ _ hj' hk' hcj hck
    · intro j pc hj htier
      rcases getElem?_set_cases hj with ⟨hij, rfl⟩ | ⟨hij, hj'⟩
      · exact hmiss
      · exact htm j pc hj' htier
    · intro j a' hj
      rcases getElem?_set_cases hj with ⟨hij, hpc⟩ | ⟨hij, hj'⟩
      · simp at hpc
      · exact hfr j a' hj'
    · show M.nStorePut + 1 ≤ 1
      rcases Nat.lt_or_ge M.nStorePut 1 with hlt | hge
      · omega
      · exfalso
        have h1 : M.nStorePut = 1 := le_antisymm hsp hge
        rcases hspa h1 with hsome | ⟨j, a', hj⟩
        · rw [hmiss] at hsome; simp at hsome
        · have hji := hcu j i (.putTier a') .sourceTier hj h rfl rfl
          subst hji
          rw [h] at hj
          injection hj with hpc
          simp at hpc
    · intro h1
      exact Or.inr ⟨i, .putTier M.m.heap.length,
        getElem?_set_self_of_some h,
        Or.inr (Or.inr ⟨M.m.heap.length, rfl⟩)⟩
    · intro h1
      exact Or.inr ⟨i, .putTier M.m.heap.length,
        getElem?_set_self_of_some h, Or.inr ⟨M.m.heap.length, rfl⟩⟩
    · intro h1
      exact Or.inr ⟨i, M.m.heap.length, getElem?_set_self_of_some h⟩
  | putDone i a i' r' h hnode hfresh =>
    refine ⟨hsrc, ?_, ?_, ?_, ?_, hsg, hsc, hsp, ?_, ?_, ?_⟩
    · intro _ j pc hj
      rcases getElem?_set_cases hj with ⟨hij, rfl⟩ | ⟨hij, hj'⟩
      · rfl
      · by_contra hcrit
        exact hij (hcu i j _ pc h hj' rfl (by simpa using hcrit))
    · intro j k pcj pck hj hk hcj hck
      rcases getElem?_set_cases hj with ⟨hij, rfl⟩ | ⟨hij, hj'⟩ <;>
        rcases getElem?_set_cases hk with ⟨hik, rfl⟩ | ⟨hik, hk'⟩
      · omega
      · simp [OPC.inCrit] at hcj
      · simp [OPC.inCrit] at hck
      · exact hcu j k _ _ hj' hk' hcj hck
    · intro j pc hj htier
      rcases getElem?_set_cases hj with ⟨hij, rfl⟩ | ⟨hij, hj'⟩
      · rcases htier with h1 | h1 | ⟨a', h1⟩ <;> simp at h1
      · exact absurd (hcu j i pc _ hj' h (OPC.tier3_inCrit htier) rfl)
          hij.symm
    · intro j a' hj
      rcases getElem?_set_cases hj with ⟨hij, hpc⟩ | ⟨hij, hj'⟩
      · injection hpc with ha'
        rw [ha']
        exact lookupL_cons_self _ _ _
      · have h1 := hfr j a' hj'
        have h2 := htm i _ h (Or.inr (Or.inr ⟨a, rfl⟩))
        rw [h1] at h2; exact Option.noConfusion h2
    · intro h1; exact Or.inl (by simp [lookupL_cons_self])
    · intro h1; exact Or.inl (by simp [lookupL_cons_self])
    · intro h1; exact Or.inl (by simp [lookupL_cons_self])

end ACV

namespace ACV

/-- The db/compute/decode phases run inside the locked section. -/
theorem APC.tier_inCrit {pc : APC}
    (h : pc = APC.dbTier ∨ pc = APC.computing ∨ pc = APC.decoding) :
    pc.inCrit = true := by
  rcases h with rfl | rfl | rfl <;> rfl

/-- Every step of the attribute machine preserves the invariant. -/
theorem AInv_step {cls : Nat} {ident : Ident} {attrname : String}
    {M M' : AMach} (hstep : AStep cls ident attrname M M')
    (hinv : AInv cls ident attrname M) : AInv cls ident attrname M' := by
  obtain ⟨hlf, hcu, htm, hfr, hnc, hnca⟩ := hinv
  cases hstep with
  | acquire i h hl =>
    refine ⟨?_, ?_, ?_, ?_, hnc, ?_⟩
    · intro hfalse; simp at hfalse
    · intro j k pcj pck hj hk hcj hck
      rcases getElem?_set_cases hj with ⟨hij, rfl⟩ | ⟨hij, hj'⟩ <;>
        rcases getElem?_set_cases hk with ⟨hik, rfl⟩ | ⟨hik, hk'⟩
      · omega
      · exact absurd hck (by simp [hlf hl k pck hk'])
      · exact absurd hcj (by simp [hlf hl j pcj hj'])
      · exact absurd hcj (by simp [hlf hl j pcj hj'])
    · intro j pc hj htier
      rcases getElem?_set_cases hj with ⟨hij, rfl⟩ | ⟨hij, hj'⟩
      · rcases htier with h1 | h1 | h1 <;> simp at h1
      · exact htm j pc hj' htier
    · intro j v hj
      rcases getElem?_set_cases hj with ⟨hij, hpc⟩ | ⟨hij, hj'⟩
      · simp at hpc
      · exact hfr j v hj'
    · intro h1
      rcases hnca h1 with hsome | ⟨j, pc, hj, ht⟩
      · exact Or.inl hsome
      · by_cases hij : i = j
        · subst hij; rw [h] at hj; injection hj with hpc; subst hpc
          rcases ht with h1' | h1' <;> simp at h1'
        · exact Or.inr ⟨j, pc, by rwa [List.getElem?_set_ne hij], ht⟩
  | fmemHit i v h hv =>
    refine ⟨?_, ?_, ?_, ?_, hnc, ?_⟩
    · intro _ j pc hj
      rcases getElem?_set_cases hj with ⟨hij, rfl⟩ | ⟨hij, hj'⟩
      · rfl
      · by_contra hcrit
        exact hij (hcu i j _ pc h hj' rfl (by simpa using hcrit))
    · intro j k pcj pck hj hk hcj hck
      rcases getElem?_set_cases hj with ⟨hij, rfl⟩ | ⟨hij, hj'⟩ <;>
        rcases getElem?_set_cases hk with ⟨hik, rfl⟩ | ⟨hik, hk'⟩
      · omega
      · simp [APC.inCrit] at hcj
      · simp [APC.inCrit] at hck
      · exact hcu j k _ _ hj' hk' hcj hck
    · intro j pc hj htier
      rcases getElem?_set_cases hj with ⟨hij, rfl⟩ | ⟨hij, hj'⟩
      · rcases htier with h1 | h1 | h1 <;> simp at h1
      · exact htm j pc hj' htier
    · intro j v' hj
      rcases getElem?_set_cases hj with ⟨hij, hpc⟩ | ⟨hij, hj'⟩
      · injection hpc with hv'; rw [hv']; exact hv
      · exact hfr j v' hj'
    · intro h1; exact Or.inl (by simp [hv])
  | fmemMiss i h hv =>
    refine ⟨?_, ?_, ?_, ?_, hnc, ?_⟩
    · intro hfree j pc hj
      have := hlf hfree i _ h
      simp [APC.inCrit] at this
    · intro j k pcj pck hj hk hcj hck
      rcases getElem?_set_cases hj with ⟨hij, rfl⟩ | ⟨hij, hj'⟩ <;>
        rcases getElem?_set_cases hk with ⟨hik, rfl⟩ | ⟨hik, hk'⟩
      · omega
      · exact absurd (hcu i k _ _ h hk' rfl hck) hik
      · exact absurd (hcu i j _ _ h hj' rfl hcj) hij
      · exact hcu j k _ _ hj' hk' hcj hck
    · intro j pc hj htier
      rcases getElem?_set_cases hj with ⟨hij, rfl⟩ | ⟨hij, hj'⟩
      · exact hv
      · exact htm j pc hj' htier
    · intro j v' hj
      rcases getElem?_set_cases hj with ⟨hij, hpc⟩ | ⟨hij, hj'⟩
      · simp at hpc
      · exact hfr j v' hj'
    · intro h1
      rcases hnca h1 with hsome | ⟨j, pc, hj, ht⟩
      · exact Or.inl hsome
      · by_cases hij : i = j
        · subst hij; rw [h] at hj; injection hj with hpc; subst hpc
          rcases ht with h1' | h1' <;> simp at h1'
        · exact Or.inr ⟨j, pc, by rwa [List.getElem?_set_ne hij], ht⟩
  | dbHit i data h hd =>
    refine ⟨?_, ?_, ?_, ?_, hnc, ?_⟩
    · intro hfree j pc hj
      have := hlf hfree i _ h
      simp [APC.inCrit] at this
    · intro j k pcj pck hj hk hcj hck
      rcases getElem?_set_cases hj with ⟨hij, rfl⟩ | ⟨hij, hj'⟩ <;>
        rcases getElem?_set_cases hk with ⟨hik, rfl⟩ | ⟨hik, hk'⟩
      · omega
      · exact absurd (hcu i k _ _ h hk' rfl hck) hik
      · exact absurd (hcu i j _ _ h hj' rfl hcj) hij
      · exact hcu j k _ _ hj' hk' hcj hck
    · intro j pc hj htier
      rcases getElem?_set_cases hj with ⟨hij, rfl⟩ | ⟨hij, hj'⟩
      · exact htm i _ h (Or.inl rfl)
      · exact htm j pc hj' htier
    · intro j v' hj
      rcases getElem?_set_cases hj with ⟨hij, hpc⟩ | ⟨hij, hj'⟩
      · simp at hpc
      · exact hfr j v' hj'
    · intro h1
      rcases hnca h1 with hsome | ⟨j, pc, hj, ht⟩
      · exact Or.inl hsome
      · by_cases hij : i = j
        · subst hij; rw [h] at hj; injection hj with hpc; subst hpc
          rcases ht with h1' | h1' <;> simp at h1'
        · exact Or.inr ⟨j, pc, by rwa [List.getElem?_set_ne hij], ht⟩
  | dbMiss i h hd =>
    refine ⟨?_, ?_, ?_, ?_, ?_, ?_⟩
    · intro hfree j pc hj
      have := hlf hfree i _ h
      simp [APC.inCrit] at this
    · intro j k pcj pck hj hk hcj hck
      rcases getElem?_set_cases hj with ⟨hij, rfl⟩ | ⟨hij, hj'⟩ <;>
        rcases getElem?_set_cases hk with ⟨hik, rfl⟩ | ⟨hik, hk'⟩
      · omega
      · exact absurd (hcu i k _ _ h hk' rfl hck) hik
      · exact absurd (hcu i j _ _ h hj' rfl hcj) hij
      · exact hcu j k _ _ hj' hk' hcj hck
    · intro j pc hj htier
      rcases getElem?_set_cases hj with ⟨hij, rfl⟩ | ⟨hij, hj'⟩
      · exact htm i _ h (Or.inl rfl)
      · exact htm j pc hj' htier
    · intro j v' hj
      rcases getElem?_set_cases hj with ⟨hij, hpc⟩ | ⟨hij, hj'⟩
      · simp at hpc
      · exact hfr j v' hj'
    · show M.nCompute + 1 ≤ 1
      rcases Nat.lt_or_ge M.nCompute 1 with hlt | hge
      · omega
      · exfalso
        have h1 : M.nCompute = 1 := le_antisymm hnc hge
        rcases hnca h1 with hsome | ⟨j, pc, hj, ht⟩
        · rw [htm i _ h (Or.inl rfl)] at hsome; simp at hsome
        · have hji := hcu j i pc .dbTier hj h (APC.tier_inCrit
            (Or.inr ht)) rfl
          subst hji
          rw [h] at hj
          injection hj with hpc
          subst hpc
          rcases ht with h1' | h1' <;> simp at h1'
    · intro h1
      exact Or.inr ⟨i, .computing, getElem?_set_self_of_some h,
        Or.inl rfl⟩
  | computeStep i m' s' h hk =>
    refine ⟨?_, hcu, ?_, ?_, hnc, ?_⟩
    · intro hfree j pc hj
      have := hlf hfree i _ h
      simp [APC.inCrit] at this
    · intro j pc hj htier
      rw [show ({ M with m := m', s := s' } : AMach).s = s' from rfl, hk]
      exact htm j pc hj htier
    · intro j v' hj
      rw [show ({ M with m := m', s := s' } : AMach).s = s' from rfl, hk]
      exact hfr j v' hj
    · intro h1
      rcases hnca h1 with hsome | hex
      · exact Or.inl (by rw [show ({ M with m := m', s := s' } :
          AMach).s = s' from rfl, hk]; exact hsome)
      · exact Or.inr hex
  | computeDone i h =>
    refine ⟨?_, ?_, ?_, ?_, hnc, ?_⟩
    · intro hfree j pc hj
      have := hlf hfree i _ h
      simp [APC.inCrit] at this
    · intro j k pcj pck hj hk hcj hck
      rcases getElem?_set_cases hj with ⟨hij, rfl⟩ | ⟨hij, hj'⟩ <;>
        rcases getElem?_set_cases hk with ⟨hik, rfl⟩ | ⟨hik, hk'⟩
      · omega
      · exact absurd (hcu i k _ _ h hk' rfl hck) hik
      · exact absurd (hcu i j _ _ h hj' rfl hcj) hij
      · exact hcu j k _ _ hj' hk' hcj hck
    · intro j pc hj htier
      rcases getElem?_set_cases hj with ⟨hij, rfl⟩ | ⟨hij, hj'⟩
      · exact htm i _ h (Or.inr (Or.inl rfl))
      · exact htm j pc hj' htier
    · intro j v' hj
      rcases getElem?_set_cases hj with ⟨hij, hpc⟩ | ⟨hij, hj'⟩
      · simp at hpc
      · exact hfr j v' hj'
    · intro h1
      exact Or.inr ⟨i, .decoding, getElem?_set_self_of_some h,
        Or.inr rfl⟩
  | decStep i m' s' h hk =>
    refine ⟨?_, hcu, ?_, ?_, hnc, ?_⟩
    · intro hfree j pc hj
      have := hlf hfree i _ h
      simp [APC.inCrit] at this
    · intro j pc hj htier
      rw [show ({ M with m := m', s := s' } : AMach).s = s' from rfl, hk]
      exact htm j pc hj htier
    · intro j v' hj
      rw [show ({ M with m := m', s := s' } : AMach).s = s' from rfl, hk]
      exact hfr j v' hj
    · intro h1
      rcases hnca h1 with hsome | hex
      · exact Or.inl (by rw [show ({ M with m := m', s := s' } :
          AMach).s = s' from rfl, hk]; exact hsome)
      · exact Or.inr hex
  | decDone i v h =>
    refine ⟨?_, ?_, ?_, ?_, hnc, ?_⟩
    · intro _ j pc hj
      rcases getElem?_set_cases hj with ⟨hij, rfl⟩ | ⟨hij, hj'⟩
      · rfl
      · by_contra hcrit
        exact hij (hcu i j _ pc h hj' rfl (by simpa using hcrit))
    · intro j k pcj pck hj hk hcj hck
      rcases getElem?_set_cases hj with ⟨hij, rfl⟩ | ⟨hij, hj'⟩ <;>
        rcases getElem?_set_cases hk with ⟨hik, rfl⟩ | ⟨hik, hk'⟩
      · omega
      · simp [APC.inCrit] at hcj
      · simp [APC.inCrit] at hck
      · exact hcu j k _ _ hj' hk' hcj hck
    · intro j pc hj htier
      rcases getElem?_set_cases hj with ⟨hij, rfl⟩ | ⟨hij, hj'⟩
      · rcases htier with h1 | h1 | h1 <;> simp at h1
      · exact absurd (hcu j i pc _ hj' h (APC.tier_inCrit htier) rfl)
          hij.symm
    · intro j v' hj
      rcases getElem?_set_cases hj with ⟨hij, hpc⟩ | ⟨hij, hj'⟩
      · injection hpc with hv'
        rw [hv']
        exact lookupL_cons_self _ _ _
      · have h1 := hfr j v' hj'
        have h2 := htm i _ h (Or.inr (Or.inr rfl))
        rw [h1] at h2; exact Option.noConfusion h2
    · intro h1; exact Or.inl (by simp [lookupL_cons_self])

/-- The invariant holds initially (N ready tasks). -/
theorem OInv_init (m : Mem) (s : CState) (cls : Nat) (ident : Ident)
    (rest₀ : List Prim) (n : Nat)
    (hsrc : m.src cls ident = some (cls, ident, rest₀)) :
    OInv cls ident rest₀ (OInit m s n) := by
  have hpc : ∀ (j : Nat) (pc : OPC),
      (List.replicate n OPC.ready)[j]? = some pc → pc = .ready := by
    intro j pc hj
    exact List.eq_of_mem_replicate (List.getElem?_mem hj)
  refine ⟨hsrc, ?_, ?_, ?_, ?_, by simp [OInit], by simp [OInit],
          by simp [OInit], ?_, ?_, ?_⟩
  · intro _ j pc hj
    rw [hpc j pc hj]; rfl
  · intro j k pcj pck hj hk hcj hck
    rw [hpc j pcj hj] at hcj
    simp [OPC.inCrit] at hcj
  · intro j pc hj htier
    rw [hpc j pc hj] at htier
    rcases htier with h1 | h1 | ⟨a, h1⟩ <;> simp at h1
  · intro j a hj
    have := hpc j _ hj
    simp at this
  · intro h1; simp [OInit] at h1
  · intro h1; simp [OInit] at h1
  · intro h1; simp [OInit] at h1

/-- The invariant holds initially (N ready tasks). -/
theorem AInv_init (m : Mem) (s : CState) (cls : Nat) (ident : Ident)
    (attrname : String) (n : Nat) :
    AInv cls ident attrname (AInit m s n) := by
  have hpc : ∀ (j : Nat) (pc : APC),
      (List.replicate n APC.ready)[j]? = some pc → pc = .ready := by
    intro j pc hj
    exact List.eq_of_mem_replicate (List.getElem?_mem hj)
  refine ⟨?_, ?_, ?_, ?_, by simp [AInit], ?_⟩
  · intro _ j pc hj
    rw [hpc j pc hj]; rfl
  · intro j k pcj pck hj hk hcj hck
    rw [hpc j pcj hj] at hcj
    simp [APC.inCrit] at hcj
  · intro j pc hj htier
    rw [hpc j pc hj] at htier
    rcases htier with h1 | h1 | h1 <;> simp at h1
  · intro j v hj
    have := hpc j _ hj
    simp at this
  · intro h1; simp [AInit] at h1

/-- The invariant holds at every reachable state. -/
theorem OInv_reach {cls : Nat} {ident : Ident} {rest₀ : List Prim}
    {M₀ M : OMach} (hr : OReach cls ident M₀ M)
    (h0 : OInv cls ident rest₀ M₀) : OInv cls ident rest₀ M := by
  induction hr with
  | refl => exact h0
  | tail _ hstep ih => exact OInv_step hstep ih

/-- The invariant holds at every reachable state. -/
theorem AInv_reach {cls : Nat} {ident : Ident} {attrname : String}
    {M₀ M : AMach} (hr : AReach cls ident attrname M₀ M)
    (h0 : AInv cls ident attrname M₀) : AInv cls ident attrname M := by
  induction hr with
  | refl => exact h0
  | tail _ hstep ih => exact AInv_step hstep ih

end ACV

namespace ACV

/-! ## Claim C1: single-flight stampede protection -/

/-- C1: in any interleaved execution of N concurrent
`obtain(cls, *ident)` calls on one cache, every call that has returned
returned the one canonical instance registered for the key (so all N
results are the identical reference), and at most one database read,
one constructor invocation and one database write were issued for the
key — the first lock holder resolves, everyone else reads the
populated in-memory entry.  The same single-flight guarantee holds per
(entity, attribute) key for `cached_attribute_lookup`: all results are
the registered `field_map` entry and the compute coroutine runs at
most once. -/
theorem single_flight_stampede_protection :
    (∀ (m : Mem) (s : CState) (cls : Nat) (ident : Ident)
       (rest₀ : List Prim) (n : Nat) (M : OMach),
       m.src cls ident = some (cls, ident, rest₀) →
       OReach cls ident (OInit m s n) M →
       (∀ (i j : Nat) (a b : Addr), M.pcs[i]? = some (OPC.finished a) →
          M.pcs[j]? = some (OPC.finished b) → a = b) ∧
       (∀ (i : Nat) (a : Addr), M.pcs[i]? = some (OPC.finished a) →
          lookupL M.s.idMap ⟨cls, ident⟩ = some a) ∧
       M.nStoreGet ≤ 1 ∧ M.nSource ≤ 1 ∧ M.nStorePut ≤ 1) ∧
    (∀ (m : Mem) (s : CState) (cls : Nat) (ident : Ident)
       (attrname : String) (n : Nat) (M : AMach),
       AReach cls ident attrname (AInit m s n) M →
       (∀ (i j : Nat) (v w : Addr), M.pcs[i]? = some (APC.finished v) →
          M.pcs[j]? = some (APC.finished w) → v = w) ∧
       (∀ (i : Nat) (v : Addr), M.pcs[i]? = some (APC.finished v) →
          lookupL M.s.fieldMap (cls, ident, attrname) = some v) ∧
       M.nCompute ≤ 1) := by
  constructor
  · intro m s cls ident rest₀ n M hsrc hreach
    have hinv := OInv_reach hreach (OInv_init m s cls ident rest₀ n hsrc)
    refine ⟨?_, hinv.fin_reg, hinv.sg_le, hinv.sc_le, hinv.sp_le⟩
    intro i j a b hi hj
    have h1 := hinv.fin_reg i a hi
    have h2 := hinv.fin_reg j b hj
    rw [h1] at h2
    exact Option.some_inj.mp h2
  · intro m s cls ident attrname n M hreach
    have hinv := AInv_reach hreach (AInv_init m s cls ident attrname n)
    refine ⟨?_, hinv.fin_reg, hinv.nc_le⟩
    intro i j v w hi hj
    have h1 := hinv.fin_reg i v hi
    have h2 := hinv.fin_reg j w hj
    rw [h1] at h2
    exact Option.some_inj.mp h2

/-- Witness for C1: two explicit interleaved two-task runs — obtain
through the source tier then a memory hit, and attribute computation
then a field-map hit — reaching `OWit`/`AWit`, where both tasks hold
the identical result and each counter is 1. -/
theorem single_flight_stampede_protection_witness :
    lookupL OWit.s.idMap ⟨1, [.int 5]⟩ = some 0 ∧
    OWit.nStoreGet ≤ 1 ∧ OWit.nSource ≤ 1 ∧ OWit.nStorePut ≤ 1 ∧
    lookupL AWit.s.fieldMap (1, [.int 5], "p") = some 7 ∧
    AWit.nCompute ≤ 1 := by
  have hreach1 : OReach 1 [.int 5] (OInit memOK cstate0 2) OWit :=
    .head (.acquire 0 rfl rfl)
      (.head (.memMiss 0 rfl rfl)
        (.head (.storeMiss 0 rfl rfl)
          (.head (.sourceDoneMiss 0 [.int 5] [.str "x"] rfl rfl rfl)
            (.head (.putDone 0 0 [.int 5] [.str "x"] rfl rfl rfl)
              (.head (.acquire 1 rfl rfl)
                (.single (.memHit 1 0 rfl rfl)))))))
  have hreach2 : AReach 1 [.int 5] "p" (AInit memOK cstate0 2) AWit :=
    .head (.acquire 0 rfl rfl)
      (.head (.fmemMiss 0 rfl rfl)
        (.head (.dbMiss 0 rfl rfl)
          (.head (.computeDone 0 rfl)
            (.head (.decDone 0 7 rfl)
              (.head (.acquire 1 rfl rfl)
                (.single (.fmemHit 1 7 rfl rfl)))))))
  have h := single_flight_stampede_protection
  have h1 := h.1 memOK cstate0 1 [.int 5] [.str "x"] 2 OWit rfl hreach1
  have h2 := h.2 memOK cstate0 1 [.int 5] "p" 2 AWit hreach2
  exact ⟨h1.2.1 0 0 rfl, h1.2.2.1, h1.2.2.2.1, h1.2.2.2.2,
         h2.2.1 0 7 rfl, h2.2.2⟩

end ACV

namespace ACV

/-- A successful indexed read is in range. -/
theorem lt_length_of_getElem? {α : Type} {l : List α} {n : Nat} {x : α}
    (h : l[n]? = some x) : n < l.length := by
  by_contra hge
  rw [List.getElem?_eq_none (Nat.le_of_not_lt hge)] at h
  exact Option.noConfusion h

theorem corrVal_prim {H D : List Node}
    {entOK : Nat → Ident → Addr → Prop} {dm : List (Addr × Addr)}
    {a b : Addr} {p : Prim} (hnode : H[a]? = some (.prim p)) :
    corrVal H D entOK dm a b ↔ D[b]? = some (.prim p) := by
  unfold corrVal
  rw [hnode]

theorem corrVal_entity {H D : List Node}
    {entOK : Nat → Ident → Addr → Prop} {dm : List (Addr × Addr)}
    {a b : Addr} {c : Nat} {i : Ident} {r : List Prim}
    (hnode : H[a]? = some (.entity c i r)) :
    corrVal H D entOK dm a b ↔ entOK c i b := by
  unfold corrVal
  rw [hnode]

theorem corrVal_seq {H D : List Node}
    {entOK : Nat → Ident → Addr → Prop} {dm : List (Addr × Addr)}
    {a b : Addr} {es : List Addr} (hnode : H[a]? = some (.seq es)) :
    corrVal H D entOK dm a b ↔ lookupL dm a = some b := by
  unfold corrVal
  rw [hnode]

/-- Correspondence survives decoder-heap growth (existing entries
preserved) and memo growth (existing bindings preserved). -/
theorem corrVal_mono {H D D' : List Node}
    {entOK : Nat → Ident → Addr → Prop} {dm dm' : List (Addr × Addr)}
    (hD : ∀ j, j < D.length → D'[j]? = D[j]?)
    (hdm : ∀ a b, lookupL dm a = some b → lookupL dm' a = some b)
    {a b : Addr} (h : corrVal H D entOK dm a b) :
    corrVal H D' entOK dm' a b := by
  cases hnode : H[a]? with
  | none => unfold corrVal at h; rw [hnode] at h; exact h.elim
  | some nd =>
    cases nd with
    | prim p =>
      rw [corrVal_prim hnode] at h ⊢
      rw [hD b (lt_length_of_getElem? h)]
      exact h
    | entity c i r =>
      rw [corrVal_entity hnode] at h ⊢
      exact h
    | seq es =>
      rw [corrVal_seq hnode] at h ⊢
      exact hdm _ _ h

/-- Correspondence survives in-place mutation of a container slot of
the decoder heap. -/
theorem corrVal_set_seq {H D : List Node}
    {entOK : Nat → Ident → Addr → Prop} {dm : List (Addr × Addr)}
    {b₀ : Addr} {x y : List Addr} (hb₀ : D[b₀]? = some (.seq y))
    {a b : Addr} (h : corrVal H D entOK dm a b) :
    corrVal H (D.set b₀ (.seq x)) entOK dm a b := by
  cases hnode : H[a]? with
  | none => unfold corrVal at h; rw [hnode] at h; exact h.elim
  | some nd =>
    cases nd with
    | prim p =>
      rw [corrVal_prim hnode] at h ⊢
      have hb : b ≠ b₀ := by
        intro heq
        rw [heq, hb₀] at h
        simp at h
      rw [List.getElem?_set_ne (Ne.symm hb)]
      exact h
    | entity c i r =>
      rw [corrVal_entity hnode] at h ⊢
      exact h
    | seq es =>
      rw [corrVal_seq hnode] at h ⊢
      exact h

theorem urun_nil (pl : PLoader) (d : DecSt) : urun pl [] d = some d := rfl

theorem urun_cons (pl : PLoader) (op : Op) (ops : List Op) (d : DecSt) :
    urun pl (op :: ops) d = (ustep pl d op).bind (urun pl ops) := by
  unfold urun
  rw [List.foldlM_cons]
  rfl

theorem urun_append (pl : PLoader) (ops₁ ops₂ : List Op) (d : DecSt) :
    urun pl (ops₁ ++ ops₂) d = (urun pl ops₁ d).bind (urun pl ops₂) := by
  induction ops₁ generalizing d with
  | nil => simp [urun_nil]
  | cons op t ih =>
    rw [List.cons_append, urun_cons, urun_cons]
    cases ustep pl d op with
    | none => rfl
    | some d₁ => simp [ih]

/-- Each opcode hands at most its own pid to `persistent_load`. -/
theorem ustep_collected {pl : PLoader} {d d' : DecSt} {op : Op}
    (h : ustep pl d op = some d') :
    d'.collected = d.collected ++
      (if pl.collect then opsPids [op] else []) := by
  cases op <;> simp only [ustep] at h <;>
    (try split at h) <;> (try split at h) <;>
    first
      | exact Option.noConfusion h
      | (cases h; simp_all [opsPids])

/-- A successful unpickling run hands exactly the stream's pid tokens
to `persistent_load`, in order. -/
theorem urun_collected (pl : PLoader) :
    ∀ (ops : List Op) (d d' : DecSt), urun pl ops d = some d' →
      d'.collected = d.collected ++
        (if pl.collect then opsPids ops else []) := by
  intro ops
  induction ops with
  | nil =>
    intro d d' h
    rw [urun_nil] at h
    cases h
    simp [opsPids]
  | cons op t ih =>
    intro d d' h
    rw [urun_cons] at h
    cases hstep : ustep pl d op with
    | none => rw [hstep] at h; exact Option.noConfusion h
    | some d₁ =>
      rw [hstep] at h
      have h1 := ustep_collected hstep
      have h2 := ih d₁ d' h
      rw [h2, h1]
      have h3 : opsPids (op :: t) = opsPids [op] ++ opsPids t := by
        unfold opsPids
        rw [show op :: t = [op] ++ t from rfl, List.filterMap_append]
      rw [h3]
      by_cases hc : pl.collect = true <;> simp [hc]

end ACV

namespace ACV

/-- Containers of a closed heap reference only live addresses. -/
theorem heapClosed_elems {H : List Node} (hH : HeapClosed H) {a : Addr}
    {es : List Addr} (h : H[a]? = some (.seq es)) :
    ∀ x ∈ es, x < H.length := by
  intro x hx
  have hmem : Node.seq es ∈ H := List.getElem?_mem h
  have h2 := hH _ hmem
  simp [nodeClosedB] at h2
  exact h2 x hx

/-- Membership in the container-address list. -/
theorem mem_seqAddrs {H : List Node} {a : Addr} :
    a ∈ seqAddrs H ↔ a < H.length ∧ ∃ es, H[a]? = some (.seq es) := by
  unfold seqAddrs
  rw [List.mem_filter, List.mem_range]
  constructor
  · rintro ⟨h1, h2⟩
    refine ⟨h1, ?_⟩
    cases hnode : H[a]? with
    | none => rw [hnode] at h2; simp at h2
    | some nd =>
      cases nd <;> rw [hnode] at h2 <;> simp at h2
      exact ⟨_, rfl⟩
  · rintro ⟨h1, es, h2⟩
    exact ⟨h1, by rw [h2]⟩

/-- The boolean non-membership test, as a proposition. -/
theorem not_contains_iff {l : List Addr} {x : Addr} :
    (!(l.contains x)) = true ↔ x ∉ l := by
  rw [Bool.not_eq_true', ← Bool.not_eq_true]
  rw [show (l.contains x = true) ↔ x ∈ l from List.elem_iff]

/-- Memoizing more containers never increases the unmemoized count. -/
theorem unmemoCount_append_le (H : List Node) (memo μ : List Addr) :
    unmemoCount H (memo ++ μ) ≤ unmemoCount H memo := by
  unfold unmemoCount
  refine List.Sublist.length_le (List.monotone_filter_right _ ?_)
  intro x hx
  rw [not_contains_iff] at hx ⊢
  intro hmem
  exact hx (List.mem_append_left _ hmem)

/-- Memoizing an unmemoized container strictly decreases the count. -/
theorem unmemoCount_append_lt {H : List Node} {memo : List Addr}
    {a : Addr} (ha : a ∈ seqAddrs H) (hnm : a ∉ memo) :
    unmemoCount H (memo ++ [a]) < unmemoCount H memo := by
  unfold unmemoCount
  have hsub : List.Sublist
      ((seqAddrs H).filter fun x => !((memo ++ [a]).contains x))
      ((seqAddrs H).filter fun x => !(memo.contains x)) := by
    refine List.monotone_filter_right _ ?_
    intro x hx
    rw [not_contains_iff] at hx ⊢
    intro hmem
    exact hx (List.mem_append_left _ hmem)
  rcases Nat.lt_or_ge
      (((seqAddrs H).filter fun x => !((memo ++ [a]).contains x)).length)
      (((seqAddrs H).filter fun x => !(memo.contains x)).length)
    with hlt | hge
  · exact hlt
  · exfalso
    have heq := List.Sublist.eq_of_length_le hsub hge
    have hin : a ∈ (seqAddrs H).filter fun x => !(memo.contains x) := by
      rw [List.mem_filter]
      exact ⟨ha, not_contains_iff.mpr hnm⟩
    rw [← heq, List.mem_filter] at hin
    have h2 := not_contains_iff.mp hin.2
    exact h2 (List.mem_append_right _ (List.mem_singleton_self a))

end ACV

namespace ACV

/-- Pickling only appends to the state, with the collected/pid
bookkeeping of `EncExt`. -/
theorem pickler_save_mono (H : List Node) (fuel : Nat) :
    (∀ (a : Addr) (e e' : EncSt),
      pickler_save H fuel a e = some e' → EncExt H e e') ∧
    (∀ (es : List Addr) (e e' : EncSt),
      pickler_save_items H fuel es e = some e' → EncExt H e e') := by
  induction fuel with
  | zero =>
    constructor
    · intro a e e' h
      simp [pickler_save] at h
    · intro es e e' h
      cases es with
      | nil =>
        rw [pickler_save_items] at h
        cases h
        exact ⟨[], [], [], by simp, by simp, by simp, by simp,
               by simp [opsPids]⟩
      | cons c rest =>
        rw [pickler_save_items] at h
        simp [pickler_save] at h
  | succ fuel ih =>
    have Psucc : ∀ (a : Addr) (e e' : EncSt),
        pickler_save H (fuel + 1) a e = some e' → EncExt H e e' := by
      intro a e e' h
      rw [pickler_save] at h
      split at h
      · exact Option.noConfusion h
      · next p heq =>
        cases h
        exact ⟨[.pushPrim p], [], [], rfl, by simp [EncSt.emit],
               by simp [EncSt.emit], by simp, by simp [opsPids]⟩
      · next c i r heq =>
        cases h
        refine ⟨[.pushPid ⟨c, i⟩], [], [(a, i)], rfl,
                by simp [EncSt.emit], rfl, ?_, ?_⟩
        · intro q hq
          rw [List.mem_singleton] at hq
          subst hq
          exact ⟨c, r, heq⟩
        · intro pid hpid
          simp [opsPids] at hpid
          subst hpid
          exact ⟨a, r, List.mem_singleton_self _, heq⟩
      · next es heq =>
        split at h
        · next hmem =>
          cases h
          exact ⟨[.get a], [], [], rfl, by simp [EncSt.emit],
                 by simp [EncSt.emit], by simp, by simp [opsPids]⟩
        · next hmem =>
          obtain ⟨δ, μ, γ, h1, h2, h3, h4, h5⟩ := ih.2 es _ e' h
          refine ⟨[.newSeq, .put a] ++ δ, [a] ++ μ, γ, ?_, ?_, ?_,
                  h4, ?_⟩
          · rw [h1]; simp [EncSt.emit]
          · rw [h2]; simp [EncSt.emit]
          · rw [h3]; rfl
          · intro pid hpid
            refine h5 pid ?_
            unfold opsPids at hpid ⊢
            rw [List.filterMap_append] at hpid
            simpa using hpid
    have Qsucc : ∀ (es : List Addr) (e e' : EncSt),
        pickler_save_items H (fuel + 1) es e = some e' →
        EncExt H e e' := by
      intro es
      induction es with
      | nil =>
        intro e e' h
        rw [pickler_save_items] at h
        cases h
        exact ⟨[], [], [], by simp, by simp, by simp, by simp,
               by simp [opsPids]⟩
      | cons c rest ihr =>
        intro e e' h
        rw [pickler_save_items] at h
        cases hsave : pickler_save H (fuel + 1) c e with
        | none => rw [hsave] at h; exact Option.noConfusion h
        | some e₁ =>
          rw [hsave] at h
          obtain ⟨δ₁, μ₁, γ₁, h1, h2, h3, h4, h5⟩ := Psucc c e e₁ hsave
          obtain ⟨δ₂, μ₂, γ₂, g1, g2, g3, g4, g5⟩ := ihr _ e' h
          refine ⟨δ₁ ++ [.append1] ++ δ₂, μ₁ ++ μ₂, γ₁ ++ γ₂,
                  ?_, ?_, ?_, ?_, ?_⟩
          · rw [g1, show (e₁.emit [.append1]).ops =
                e₁.ops ++ [.append1] from rfl, h1]
            simp
          · rw [g2, show (e₁.emit [.append1]).memo = e₁.memo from rfl,
                h2]
            simp
          · rw [g3, show (e₁.emit [.append1]).collected = e₁.collected
                from rfl, h3]
            simp
          · intro q hq
            rcases List.mem_append.mp hq with hq1 | hq2
            · exact h4 q hq1
            · exact g4 q hq2
          · intro pid hpid
            unfold opsPids at hpid
            rw [List.filterMap_append, List.filterMap_append] at hpid
            rcases List.mem_append.mp hpid with hp1 | hp2
            · rcases List.mem_append.mp hp1 with hp3 | hp4
              · obtain ⟨x, r, hx, hn⟩ := h5 pid hp3
                exact ⟨x, r, List.mem_append_left _ hx, hn⟩
              · simp at hp4
            · obtain ⟨x, r, hx, hn⟩ := g5 pid hp2
              exact ⟨x, r, List.mem_append_right _ hx, hn⟩
    exact ⟨Psucc, Qsucc⟩

end ACV

namespace ACV

/-- Fuel sufficiency: with more fuel than unmemoized containers, the
pickler cannot run out — the DFS memoizes a container before
descending, so the recursion depth is bounded. -/
theorem pickler_save_total (H : List Node) (hH : HeapClosed H) :
    ∀ (fuel : Nat),
      (∀ (a : Addr) (e : EncSt), a < H.length →
        unmemoCount H e.memo < fuel →
        (pickler_save H fuel a e).isSome = true) ∧
      (∀ (es : List Addr) (e : EncSt), (∀ x ∈ es, x < H.length) →
        unmemoCount H e.memo < fuel →
        (pickler_save_items H fuel es e).isSome = true) := by
  intro fuel
  induction fuel with
  | zero =>
    exact ⟨fun a e _ hc => absurd hc (by omega),
           fun es e _ hc => absurd hc (by omega)⟩
  | succ fuel ih =>
    have Psucc : ∀ (a : Addr) (e : EncSt), a < H.length →
        unmemoCount H e.memo < fuel + 1 →
        (pickler_save H (fuel + 1) a e).isSome = true := by
      intro a e ha hc
      rw [pickler_save]
      cases hnode : H[a]? with
      | none =>
        rw [List.getElem?_eq_getElem ha] at hnode
        exact Option.noConfusion hnode
      | some nd =>
        simp only [hnode]
        cases nd with
        | prim p => simp
        | entity c i r => simp
        | seq es =>
          by_cases hmem : a ∈ e.memo
          · simp [hmem]
          · simp only [hmem, if_false]
            refine ih.2 es _ (heapClosed_elems hH hnode) ?_
            have h1 : unmemoCount H (e.memo ++ [a]) <
                unmemoCount H e.memo :=
              unmemoCount_append_lt
                (mem_seqAddrs.mpr ⟨ha, es, hnode⟩) hmem
            show unmemoCount H (e.memo ++ [a]) < fuel
            omega
    have Qsucc : ∀ (es : List Addr) (e : EncSt),
        (∀ x ∈ es, x < H.length) →
        unmemoCount H e.memo < fuel + 1 →
        (pickler_save_items H (fuel + 1) es e).isSome = true := by
      intro es
      induction es with
      | nil =>
        intro e _ _
        rw [pickler_save_items]
        simp
      | cons c rest ihr =>
        intro e he hc
        rw [pickler_save_items]
        have h1 := Psucc c e (he c (List.mem_cons_self _ _)) hc
        cases hsave : pickler_save H (fuel + 1) c e with
        | none => rw [hsave] at h1; simp at h1
        | some e₁ =>
          simp only [hsave]
          refine ihr _ (fun x hx => he x (List.mem_cons_of_mem _ hx)) ?_
          obtain ⟨δ, μ, γ, _, h2, _⟩ :=
            (pickler_save_mono H (fuel + 1)).1 c e e₁ hsave
          rw [show (e₁.emit [.append1]).memo = e₁.memo from rfl, h2]
          have h3 := unmemoCount_append_le H e.memo μ
          omega
    exact ⟨Psucc, Qsucc⟩

/-- `pickle_and_reduce_to_identities` always succeeds on a live value
of a closed heap. -/
theorem pickle_isSome {H : List Node} (hH : HeapClosed H) {v : Addr}
    (hv : v < H.length) :
    (pickle_and_reduce_to_identities H v).isSome = true := by
  unfold pickle_and_reduce_to_identities
  have h1 := (pickler_save_total H hH (H.length + 1)).1 v ⟨[], [], []⟩
    hv ?_
  · cases hs : pickler_save H (H.length + 1) v ⟨[], [], []⟩ with
    | none => simp [hs] at h1
    | some e' => simp [hs]
  · show unmemoCount H [] < H.length + 1
    unfold unmemoCount
    have h2 : ((seqAddrs H).filter fun a => !(([] : List Addr).contains a)).length ≤ (seqAddrs H).length :=
      List.length_filter_le _ _
    have h3 : (seqAddrs H).length ≤ H.length := by
      unfold seqAddrs
      calc ((List.range H.length).filter _).length
          ≤ (List.range H.length).length := List.length_filter_le _ _
        _ = H.length := List.length_range _
    omega

end ACV

namespace ACV

/-- The coupling invariant only reads the unpickler's heap and memo,
and survives heap growth that preserves existing entries. -/
theorem SimInv_grow {H : List Node} {entOK : Nat → Ident → Addr → Prop}
    {N₀ : Nat} {em : List Addr} {d d' : DecSt} {P : List Addr}
    (hinv : SimInv H entOK N₀ em d P)
    (hmemo : d'.memo = d.memo)
    (hle : d.heap.length ≤ d'.heap.length)
    (hpre : ∀ j, j < d.heap.length → d'.heap[j]? = d.heap[j]?) :
    SimInv H entOK N₀ em d' P := by
  obtain ⟨hN, hdom, hvf, hvi, hps, hsc⟩ := hinv
  refine ⟨by omega, ?_, ?_, ?_, hps, ?_⟩
  · intro x; rw [hmemo]; exact hdom x
  · intro q hq
    rw [hmemo] at hq
    exact ⟨(hvf q hq).1, lt_of_lt_of_le (hvf q hq).2 hle⟩
  · intro q q' hq hq'
    rw [hmemo] at hq hq'
    exact hvi q q' hq hq'
  · intro x b hx
    rw [hmemo] at hx
    obtain ⟨es, bs, hes, hbs, hcorr⟩ := hsc x b hx
    have hblt : b < d.heap.length := (hvf _ (lookupL_mem hx)).2
    refine ⟨es, bs, hes, by rw [hpre b hblt]; exact hbs, ?_⟩
    by_cases hxP : x ∈ P
    · simp only [if_pos hxP] at hcorr ⊢
      obtain ⟨k, hk, hf⟩ := hcorr
      exact ⟨k, hk, hf.imp fun ha hb hc =>
        (by rw [hmemo]; exact corrVal_mono hpre (fun _ _ h => h) hc)⟩
    · simp only [if_neg hxP] at hcorr ⊢
      exact hcorr.imp fun ha hb hc =>
        (by rw [hmemo]; exact corrVal_mono hpre (fun _ _ h => h) hc)

/-- Once a pending container is fully rebuilt, it can leave the
pending set. -/
theorem SimInv_close_pending {H : List Node}
    {entOK : Nat → Ident → Addr → Prop} {N₀ : Nat} {em : List Addr}
    {d : DecSt} {P : List Addr} {a : Addr}
    (hinv : SimInv H entOK N₀ em d (a :: P))
    (hfull : ∀ b, lookupL d.memo a = some b →
       ∃ es bs, H[a]? = some (.seq es) ∧ d.heap[b]? = some (.seq bs) ∧
         List.Forall₂ (corrVal H d.heap entOK d.memo) es bs) :
    SimInv H entOK N₀ em d P := by
  obtain ⟨hN, hdom, hvf, hvi, hps, hsc⟩ := hinv
  refine ⟨hN, hdom, hvf, hvi, ?_, ?_⟩
  · intro x hx
    exact hps x (List.mem_cons_of_mem _ hx)
  · intro x b hx
    by_cases hxa : x = a
    · subst hxa
      obtain ⟨es, bs, hes, hbs, hf⟩ := hfull b hx
      refine ⟨es, bs, hes, hbs, ?_⟩
      by_cases hxP : x ∈ P
      · simp only [if_pos hxP]
        exact ⟨es.length, le_refl _, by simpa using hf⟩
      · simp only [if_neg hxP]
        exact hf
    · obtain ⟨es, bs, hes, hbs, hcorr⟩ := hsc x b hx
      refine ⟨es, bs, hes, hbs, ?_⟩
      have : (x ∈ a :: P) ↔ (x ∈ P) := by
        simp [List.mem_cons, hxa]
      by_cases hxP : x ∈ P
      · simp only [if_pos hxP]
        rw [if_pos (this.mpr hxP)] at hcorr
        exact hcorr
      · simp only [if_neg hxP]
        rw [if_neg (fun hc => hxP (this.mp hc))] at hcorr
        exact hcorr

end ACV

namespace ACV

/-- Loader totality is antitone in the opcode stream. -/
theorem LoaderTotal_mono {pl : PLoader}
    {entOK : Nat → Ident → Addr → Prop} {N₀ : Nat}
    {ops ops' : List Op}
    (hsub : ∀ pid, Op.pushPid pid ∈ ops → Op.pushPid pid ∈ ops')
    (h : LoaderTotal pl entOK N₀ ops') : LoaderTotal pl entOK N₀ ops :=
  fun D pid hmem hN => h D pid (hsub pid hmem) hN

/-- Elementwise correspondence is closed under appending. -/
theorem forall2_append {α β : Type} {R : α → β → Prop} :
    ∀ {l₁ : List α} {l₂ : List β} {l₃ : List α} {l₄ : List β},
      List.Forall₂ R l₁ l₂ → List.Forall₂ R l₃ l₄ →
      List.Forall₂ R (l₁ ++ l₃) (l₂ ++ l₄) := by
  intro l₁ l₂ l₃ l₄ h1 h2
  induction h1 with
  | nil => simpa using h2
  | cons h t ih => exact List.Forall₂.cons h ih

/-- Simulation between the pickler and the unpickler: running the
opcodes a `save` call appends, from any decoder state coupled to the
pickler's memo, succeeds, pushes one value corresponding to the saved
address, only extends the decoder's heap and memo, and re-establishes
the coupling (first component); the second component threads the
partially-rebuilt parent container through an item loop. -/
theorem pickler_sim (H : List Node) (pl : PLoader)
    (entOK : Nat → Ident → Addr → Prop) (N₀ : Nat) : ∀ fuel : Nat,
    (∀ (a : Addr) (e e' : EncSt) (d : DecSt) (P : List Addr)
       (δ : List Op),
      pickler_save H fuel a e = some e' →
      e'.ops = e.ops ++ δ →
      LoaderTotal pl entOK N₀ e'.ops →
      SimInv H entOK N₀ e.memo d P →
      ∃ (d' : DecSt) (v : Addr),
        urun pl δ d = some d' ∧
        d'.stack = v :: d.stack ∧
        d.heap.length ≤ d'.heap.length ∧
        (∀ j, j < d.heap.length → d'.heap[j]? = d.heap[j]?) ∧
        (∃ ν, d'.memo = d.memo ++ ν) ∧
        v < d'.heap.length ∧
        SimInv H entOK N₀ e'.memo d' P ∧
        corrVal H d'.heap entOK d'.memo a v) ∧
    (∀ (es es₀pre : List Addr) (a₀ b₀ : Addr) (σ : List Addr)
       (e e' : EncSt) (d : DecSt) (P : List Addr) (δ : List Op)
       (bs : List Addr),
      pickler_save_items H fuel es e = some e' →
      e'.ops = e.ops ++ δ →
      LoaderTotal pl entOK N₀ e'.ops →
      SimInv H entOK N₀ e.memo d P →
      a₀ ∈ P →
      lookupL d.memo a₀ = some b₀ →
      H[a₀]? = some (.seq (es₀pre ++ es)) →
      d.stack = b₀ :: σ →
      d.heap[b₀]? = some (.seq bs) →
      List.Forall₂ (corrVal H d.heap entOK d.memo) es₀pre bs →
      ∃ d' : DecSt,
        urun pl δ d = some d' ∧
        d'.stack = b₀ :: σ ∧
        d.heap.length ≤ d'.heap.length ∧
        (∀ j, j < d.heap.length → j ≠ b₀ → d'.heap[j]? = d.heap[j]?) ∧
        (∃ ν, d'.memo = d.memo ++ ν) ∧
        SimInv H entOK N₀ e'.memo d' P ∧
        ∃ bs', d'.heap[b₀]? = some (.seq bs') ∧
          List.Forall₂ (corrVal H d'.heap entOK d'.memo)
            (es₀pre ++ es) bs') := by
  intro fuel
  induction fuel with
  | zero =>
    constructor
    · intro a e e' d P δ hsave
      simp [pickler_save] at hsave
    · intro es es₀pre a₀ b₀ σ e e' d P δ bs hsave hδ htot hinv hP hm
        hnode hstk hbs hpre
      cases es with
      | nil =>
        rw [pickler_save_items] at hsave
        cases hsave
        have hδ' : e.ops ++ [] = e.ops ++ δ := by
          rw [List.append_nil]; exact hδ
        obtain rfl : [] = δ := List.append_cancel_left hδ'
        refine ⟨d, rfl, hstk, le_refl _, fun j _ _ => rfl,
                ⟨[], by simp⟩, hinv, bs, hbs, by simpa using hpre⟩
      | cons c rest =>
        rw [pickler_save_items] at hsave
        simp [pickler_save] at hsave
  | succ fuel ih =>
    have Psucc : ∀ (a : Addr) (e e' : EncSt) (d : DecSt) (P : List Addr)
        (δ : List Op),
        pickler_save H (fuel + 1) a e = some e' →
        e'.ops = e.ops ++ δ →
        LoaderTotal pl entOK N₀ e'.ops →
        SimInv H entOK N₀ e.memo d P →
        ∃ (d' : DecSt) (v : Addr),
          urun pl δ d = some d' ∧
          d'.stack = v :: d.stack ∧
          d.heap.length ≤ d'.heap.length ∧
          (∀ j, j < d.heap.length → d'.heap[j]? = d.heap[j]?) ∧
          (∃ ν, d'.memo = d.memo ++ ν) ∧
          v < d'.heap.length ∧
          SimInv H entOK N₀ e'.memo d' P ∧
          corrVal H d'.heap entOK d'.memo a v := by
      intro a e e' d P δ hsave hδ htot hinv
      rw [pickler_save] at hsave
      split at hsave
      · exact Option.noConfusion hsave
      · next p heq =>
        cases hsave
        obtain rfl : [Op.pushPrim p] = δ :=
          List.append_cancel_left
            (hδ : e.ops ++ [Op.pushPrim p] = e.ops ++ δ)
        refine ⟨⟨d.heap ++ [Node.prim p], d.heap.length :: d.stack,
                 d.memo, d.collected⟩, d.heap.length, rfl, rfl, by simp,
                ?_, ⟨[], by simp⟩, by simp, ?_, ?_⟩
        · intro j hj
          exact List.getElem?_append_left hj
        · exact SimInv_grow hinv rfl (by simp)
            (fun j hj => List.getElem?_append_left hj)
        · exact (corrVal_prim heq).mpr (List.getElem?_concat_length _ _)
      · next c i r heq =>
        cases hsave
        obtain rfl : [Op.pushPid ⟨c, i⟩] = δ :=
          List.append_cancel_left
            (hδ : e.ops ++ [Op.pushPid ⟨c, i⟩] = e.ops ++ δ)
        obtain ⟨D', b, hload, hle, hb, hpres, hok⟩ :=
          htot d.heap ⟨c, i⟩
            (show Op.pushPid ⟨c, i⟩ ∈ e.ops ++ [Op.pushPid ⟨c, i⟩] from
              List.mem_append_right _ (List.mem_singleton_self _))
            hinv.hN
        refine ⟨⟨D', b :: d.stack, d.memo,
                 d.collected ++ (if pl.collect then [⟨c, i⟩] else [])⟩,
                b, ?_, rfl, hle, hpres, ⟨[], by simp⟩, hb, ?_, ?_⟩
        · have hstep : ustep pl d (Op.pushPid ⟨c, i⟩) =
              some ⟨D', b :: d.stack, d.memo,
                    d.collected ++
                      (if pl.collect then [⟨c, i⟩] else [])⟩ := by
            simp only [ustep, hload]
          rw [urun_cons, hstep]
          rfl
        · exact SimInv_grow hinv rfl hle hpres
        · exact (corrVal_entity heq).mpr hok
      · next es heq =>
        split at hsave
        · next hmem =>
          cases hsave
          obtain rfl : [Op.get a] = δ :=
            List.append_cancel_left
              (hδ : e.ops ++ [Op.get a] = e.ops ++ δ)
          obtain ⟨b, hb⟩ := Option.isSome_iff_exists.mp
            ((hinv.dom_iff a).mp hmem)
          refine ⟨⟨d.heap, b :: d.stack, d.memo, d.collected⟩, b, ?_,
                  rfl, le_refl _, fun j _ => rfl, ⟨[], by simp⟩,
                  (hinv.vals_fresh (a, b) (lookupL_mem hb)).2, ?_, ?_⟩
          · have hstep : ustep pl d (Op.get a) =
                some ⟨d.heap, b :: d.stack, d.memo, d.collected⟩ := by
              simp only [ustep, hb]
            rw [urun_cons, hstep]
            rfl
          · exact SimInv_grow hinv rfl (le_refl _) (fun j _ => rfl)
          · exact (corrVal_seq heq).mpr hb
        · next hmem =>
          obtain ⟨δL, μL, γL, hops, hmemoL, -, -, -⟩ :=
            (pickler_save_mono H fuel).2 es _ e' hsave
          have hops' : e'.ops = e.ops ++ ([Op.newSeq, Op.put a] ++ δL) := by
            rw [hops]
            show (e.ops ++ [Op.newSeq, Op.put a]) ++ δL = _
            rw [List.append_assoc]
          obtain rfl : [Op.newSeq, Op.put a] ++ δL = δ :=
            List.append_cancel_left (hops'.symm.trans hδ)
          have hanotin : lookupL d.memo a = none := by
            cases hla : lookupL d.memo a with
            | none => rfl
            | some b =>
              exact absurd ((hinv.dom_iff a).mpr (by rw [hla]; rfl)) hmem
          have hrun2 : urun pl [Op.newSeq, Op.put a] d =
              some ⟨d.heap ++ [Node.seq []], d.heap.length :: d.stack,
                    d.memo ++ [(a, d.heap.length)], d.collected⟩ := rfl
          have hinv₂ : SimInv H entOK N₀ (e.memo ++ [a])
              ⟨d.heap ++ [Node.seq []], d.heap.length :: d.stack,
               d.memo ++ [(a, d.heap.length)], d.collected⟩ (a :: P) := by
            refine ⟨?_, ?_, ?_, ?_, ?_, ?_⟩
            · show N₀ ≤ (d.heap ++ [Node.seq []]).length
              have := hinv.hN
              simp only [List.length_append, List.length_cons,
                List.length_nil]
              omega
            · intro x
              show _ ↔ (lookupL (d.memo ++ [(a, d.heap.length)]) x).isSome
                = true
              rw [List.mem_append, lookupL_append]
              by_cases hx : x = a
              · subst hx
                simp [lookupL, hanotin]
              · have h2 : lookupL [(a, d.heap.length)] x = none := by
                  simp [lookupL, hx]
                rw [h2]
                simpa [hx, Option.or_none] using hinv.dom_iff x
            · intro q hq
              rcases List.mem_append.mp hq with hq1 | hq1
              · refine ⟨(hinv.vals_fresh q hq1).1, ?_⟩
                have h3 := (hinv.vals_fresh q hq1).2
                show q.2 < (d.heap ++ [Node.seq []]).length
                rw [List.length_append]
                exact Nat.lt_add_right _ h3
              · rw [List.mem_singleton] at hq1
                subst hq1
                refine ⟨hinv.hN, ?_⟩
                show d.heap.length < (d.heap ++ [Node.seq []]).length
                simp
            · intro q q' hq hq' h2
              rcases List.mem_append.mp hq with hq1 | hq1 <;>
                rcases List.mem_append.mp hq' with hq2 | hq2
              · exact hinv.vals_inj q q' hq1 hq2 h2
              · rw [List.mem_singleton] at hq2
                subst hq2
                have h3 := (hinv.vals_fresh q hq1).2
                rw [h2] at h3
                simp at h3
              · rw [List.mem_singleton] at hq1
                subst hq1
                have h3 := (hinv.vals_fresh q' hq2).2
                rw [← h2] at h3
                simp at h3
              · rw [List.mem_singleton] at hq1
                rw [List.mem_singleton] at hq2
                rw [hq1, hq2]
            · intro x hx
              rcases List.mem_cons.mp hx with hx1 | hx1
              · subst hx1
                exact List.mem_append_right _ (List.mem_singleton_self _)
              · exact List.mem_append_left _ (hinv.pending_sub x hx1)
            · intro x b hx
              rw [show (⟨d.heap ++ [Node.seq []],
                    d.heap.length :: d.stack,
                    d.memo ++ [(a, d.heap.length)], d.collected⟩ :
                    DecSt).memo = d.memo ++ [(a, d.heap.length)] from rfl,
                  lookupL_append] at hx
              cases hla : lookupL d.memo x with
              | some b₁ =>
                rw [hla] at hx
                have hb1 : b₁ = b := by
                  rw [show (some b₁).or
                      (lookupL [(a, d.heap.length)] x) = some b₁ from rfl]
                    at hx
                  exact Option.some_inj.mp hx
                subst hb1
                have hxa : x ≠ a := by
                  intro h2
                  rw [h2, hanotin] at hla
                  exact Option.noConfusion hla
                obtain ⟨es₁, bs₁, hH1, hread1, hcond1⟩ :=
                  hinv.seq_corr x b₁ hla
                have hb1lt : b₁ < d.heap.length :=
                  (hinv.vals_fresh (x, b₁) (lookupL_mem hla)).2
                refine ⟨es₁, bs₁, hH1, ?_, ?_⟩
                · show (d.heap ++ [Node.seq []])[b₁]? = _
                  rw [List.getElem?_append_left hb1lt]
                  exact hread1
                · have hmono : ∀ a' b',
                      corrVal H d.heap entOK d.memo a' b' →
                      corrVal H (d.heap ++ [Node.seq []]) entOK
                        (d.memo ++ [(a, d.heap.length)]) a' b' :=
                    fun a' b' h =>
                      corrVal_mono
                        (fun j hj => List.getElem?_append_left hj)
                        (fun a2 b2 h2 => lookupL_append_of_some _ h2) h
                  have hPiff : (x ∈ a :: P) ↔ (x ∈ P) := by
                    simp [List.mem_cons, hxa]
                  by_cases hxP : x ∈ P
                  · rw [if_pos (hPiff.mpr hxP)]
                    rw [if_pos hxP] at hcond1
                    obtain ⟨k, hk, hf⟩ := hcond1
                    exact ⟨k, hk, hf.imp hmono⟩
                  · rw [if_neg (fun hc => hxP (hPiff.mp hc))]
                    rw [if_neg hxP] at hcond1
                    exact hcond1.imp hmono
              | none =>
                rw [hla, Option.none_or] at hx
                have hxa : x = a ∧ b = d.heap.length := by
                  by_cases h2 : x = a
                  · subst h2
                    simp [lookupL] at hx
                    exact ⟨rfl, hx.symm⟩
                  · simp [lookupL, h2] at hx
                obtain ⟨hx1, hx2⟩ := hxa
                subst hx1
                subst hx2
                refine ⟨es, [], heq, ?_, ?_⟩
                · show (d.heap ++ [Node.seq []])[d.heap.length]? = _
                  exact List.getElem?_concat_length _ _
                · rw [if_pos (List.mem_cons_self x P)]
                  exact ⟨0, Nat.zero_le _,
                    by rw [List.take_zero]; exact List.Forall₂.nil⟩
          have hma : lookupL (d.memo ++ [(a, d.heap.length)]) a =
              some d.heap.length := by
            rw [lookupL_append, hanotin, Option.none_or]
            simp [lookupL]
          obtain ⟨d₃, hrun3, hstk3, hlen3, hpres3, ⟨ν, hν⟩, hinv3,
                  bs', hbs', hfor'⟩ :=
            ih.2 es [] a d.heap.length d.stack
              { e.emit [Op.newSeq, Op.put a] with memo := e.memo ++ [a] }
              e' ⟨d.heap ++ [Node.seq []], d.heap.length :: d.stack,
                  d.memo ++ [(a, d.heap.length)], d.collected⟩
              (a :: P) δL [] hsave hops htot hinv₂
              (List.mem_cons_self a P) hma
              (by rw [List.nil_append]; exact heq) rfl
              (List.getElem?_concat_length _ _) List.Forall₂.nil
          have hma3 : lookupL d₃.memo a = some d.heap.length := by
            rw [hν]
            exact lookupL_append_of_some _ hma
          have hlen2 : (d.heap ++ [Node.seq []]).length =
              d.heap.length + 1 := by simp
          have hlen3' : d.heap.length + 1 ≤ d₃.heap.length := by
            calc d.heap.length + 1
                = (d.heap ++ [Node.seq []]).length := hlen2.symm
              _ ≤ d₃.heap.length := hlen3
          refine ⟨d₃, d.heap.length, ?_, hstk3, ?_, ?_, ?_, ?_, ?_, ?_⟩
          · rw [urun_append, hrun2]
            exact hrun3
          · exact Nat.le_of_succ_le hlen3'
          · intro j hj
            have h1 : d₃.heap[j]? = (d.heap ++ [Node.seq []])[j]? :=
              hpres3 j
                (by
                  show j < (d.heap ++ [Node.seq []]).length
                  rw [hlen2]
                  exact Nat.lt_succ_of_lt hj)
                (Nat.ne_of_lt hj)
            rw [h1, List.getElem?_append_left hj]
          · refine ⟨[(a, d.heap.length)] ++ ν, ?_⟩
            rw [hν]
            show (d.memo ++ [(a, d.heap.length)]) ++ ν = _
            rw [List.append_assoc]
          · exact hlen3'
          · refine SimInv_close_pending hinv3 ?_
            intro b hb
            rw [hma3] at hb
            cases hb
            exact ⟨es, bs', heq, hbs', by simpa using hfor'⟩
          · exact (corrVal_seq heq).mpr hma3
    have Qsucc : ∀ (es es₀pre : List Addr) (a₀ b₀ : Addr)
        (σ : List Addr) (e e' : EncSt) (d : DecSt) (P : List Addr)
        (δ : List Op) (bs : List Addr),
        pickler_save_items H (fuel + 1) es e = some e' →
        e'.ops = e.ops ++ δ →
        LoaderTotal pl entOK N₀ e'.ops →
        SimInv H entOK N₀ e.memo d P →
        a₀ ∈ P →
        lookupL d.memo a₀ = some b₀ →
        H[a₀]? = some (.seq (es₀pre ++ es)) →
        d.stack = b₀ :: σ →
        d.heap[b₀]? = some (.seq bs) →
        List.Forall₂ (corrVal H d.heap entOK d.memo) es₀pre bs →
        ∃ d' : DecSt,
          urun pl δ d = some d' ∧
          d'.stack = b₀ :: σ ∧
          d.heap.length ≤ d'.heap.length ∧
          (∀ j, j < d.heap.length → j ≠ b₀ →
            d'.heap[j]? = d.heap[j]?) ∧
          (∃ ν, d'.memo = d.memo ++ ν) ∧
          SimInv H entOK N₀ e'.memo d' P ∧
          ∃ bs', d'.heap[b₀]? = some (.seq bs') ∧
            List.Forall₂ (corrVal H d'.heap entOK d'.memo)
              (es₀pre ++ es) bs' := by
      intro es
      induction es with
      | nil =>
        intro es₀pre a₀ b₀ σ e e' d P δ bs hsave hδ htot hinv hP hm
          hnode hstk hbs hpre
        rw [pickler_save_items] at hsave
        cases hsave
        have hδ' : e.ops ++ [] = e.ops ++ δ := by
          rw [List.append_nil]; exact hδ
        obtain rfl : [] = δ := List.append_cancel_left hδ'
        exact ⟨d, rfl, hstk, le_refl _, fun j _ _ => rfl, ⟨[], by simp⟩,
               hinv, bs, hbs, by simpa using hpre⟩
      | cons c rest ihL =>
        intro es₀pre a₀ b₀ σ e e' d P δ bs hsave hδ htot hinv hP hm
          hnode hstk hbs hpre
        rw [pickler_save_items] at hsave
        cases hsave1 : pickler_save H (fuel + 1) c e with
        | none => rw [hsave1] at hsave; exact Option.noConfusion hsave
        | some e₁ =>
          rw [hsave1] at hsave
          obtain ⟨δ₁, μ₁, γ₁, h1, h2, -, -, -⟩ :=
            (pickler_save_mono H (fuel + 1)).1 c e e₁ hsave1
          obtain ⟨δ₂, μ₂, γ₂, g1, g2, -, -, -⟩ :=
            (pickler_save_mono H (fuel + 1)).2 rest _ e' hsave
          have hops' : e'.ops = e.ops ++ (δ₁ ++ Op.append1 :: δ₂) := by
            rw [g1]
            show e₁.ops ++ [Op.append1] ++ δ₂ = _
            rw [h1]
            simp
          obtain rfl : δ₁ ++ Op.append1 :: δ₂ = δ :=
            List.append_cancel_left (hops'.symm.trans hδ)
          have htot₁ : LoaderTotal pl entOK N₀ e₁.ops := by
            refine LoaderTotal_mono (fun pid hmem => ?_) htot
            rw [h1] at hmem
            rw [hops']
            rcases List.mem_append.mp hmem with h3 | h3
            · exact List.mem_append_left _ h3
            · exact List.mem_append_right _ (List.mem_append_left _ h3)
          obtain ⟨d₁, v, hrunA, hstkA, hlenA, hpresA, ⟨ν₁, hν₁⟩, hvA,
                  hinvA, hcorrA⟩ :=
            Psucc c e e₁ d P δ₁ hsave1 h1 htot₁ hinv
          have hb0lt : b₀ < d.heap.length := lt_length_of_getElem? hbs
          have hb01 : d₁.heap[b₀]? = some (Node.seq bs) := by
            rw [hpresA b₀ hb0lt]
            exact hbs
          have hmA : lookupL d₁.memo a₀ = some b₀ := by
            rw [hν₁]
            exact lookupL_append_of_some _ hm
          have hstepB : ustep pl d₁ Op.append1 =
              some ⟨d₁.heap.set b₀ (Node.seq (bs ++ [v])), b₀ :: σ,
                    d₁.memo, d₁.collected⟩ := by
            rw [hstk] at hstkA
            simp only [ustep, hstkA, hb01]
          have hrunB : urun pl [Op.append1] d₁ =
              some ⟨d₁.heap.set b₀ (Node.seq (bs ++ [v])), b₀ :: σ,
                    d₁.memo, d₁.collected⟩ := by
            rw [urun_cons, hstepB]
            rfl
          have hmono₁ : ∀ a' b',
              corrVal H d.heap entOK d.memo a' b' →
              corrVal H d₁.heap entOK d₁.memo a' b' :=
            fun a' b' h => corrVal_mono hpresA
              (fun a2 b2 h2 => by
                rw [hν₁]; exact lookupL_append_of_some _ h2) h
          have hmono₂ : ∀ a' b',
              corrVal H d₁.heap entOK d₁.memo a' b' →
              corrVal H (d₁.heap.set b₀ (Node.seq (bs ++ [v]))) entOK
                d₁.memo a' b' :=
            fun a' b' h => corrVal_set_seq hb01 h
          have hinvB : SimInv H entOK N₀ e₁.memo
              ⟨d₁.heap.set b₀ (Node.seq (bs ++ [v])), b₀ :: σ, d₁.memo,
               d₁.collected⟩ P := by
            obtain ⟨hN1, hdom1, hvf1, hvi1, hps1, hsc1⟩ := hinvA
            refine ⟨?_, hdom1, ?_, hvi1, hps1, ?_⟩
            · show N₀ ≤ (d₁.heap.set b₀ (Node.seq (bs ++ [v]))).length
              simpa using hN1
            · intro q hq
              have h3 := hvf1 q hq
              refine ⟨h3.1, ?_⟩
              show q.2 < (d₁.heap.set b₀ (Node.seq (bs ++ [v]))).length
              simpa using h3.2
            · intro x b hx
              obtain ⟨es₁, bs₁, hH1, hread1, hcond1⟩ := hsc1 x b hx
              by_cases hbb : b = b₀
              · subst hbb
                have hxa : x = a₀ :=
                  hvi1 (x, b) (a₀, b) (lookupL_mem hx)
                    (lookupL_mem hmA) rfl
                subst hxa
                refine ⟨es₀pre ++ c :: rest, bs ++ [v], hnode,
                        getElem?_set_self_of_some hb01, ?_⟩
                rw [if_pos hP]
                refine ⟨es₀pre.length + 1, ?_, ?_⟩
                · simp only [List.length_append, List.length_cons]
                  omega
                · have htake : (es₀pre ++ c :: rest).take
                      (es₀pre.length + 1) = es₀pre ++ [c] := by
                    rw [show es₀pre ++ c :: rest =
                          (es₀pre ++ [c]) ++ rest by simp,
                        show es₀pre.length + 1 =
                          (es₀pre ++ [c]).length by simp,
                        List.take_left]
                  rw [htake]
                  refine forall2_append ?_ ?_
                  · exact hpre.imp
                      (fun a' b' h => hmono₂ a' b' (hmono₁ a' b' h))
                  · exact List.Forall₂.cons (hmono₂ _ _ hcorrA)
                      List.Forall₂.nil
              · refine ⟨es₁, bs₁, hH1, ?_, ?_⟩
                · show (d₁.heap.set b₀
                      (Node.seq (bs ++ [v])))[b]? = _
                  rw [List.getElem?_set_ne (fun h => hbb h.symm)]
                  exact hread1
                · by_cases hxP : x ∈ P
                  · rw [if_pos hxP] at hcond1 ⊢
                    obtain ⟨k, hk, hf⟩ := hcond1
                    exact ⟨k, hk, hf.imp
                      (fun a' b' h => hmono₂ a' b' h)⟩
                  · rw [if_neg hxP] at hcond1 ⊢
                    exact hcond1.imp (fun a' b' h => hmono₂ a' b' h)
          have hnodeC : H[a₀]? =
              some (Node.seq ((es₀pre ++ [c]) ++ rest)) := by
            simpa using hnode
          have hpreC : List.Forall₂
              (corrVal H (d₁.heap.set b₀ (Node.seq (bs ++ [v]))) entOK
                d₁.memo) (es₀pre ++ [c]) (bs ++ [v]) :=
            forall2_append
              (hpre.imp (fun a' b' h => hmono₂ a' b' (hmono₁ a' b' h)))
              (List.Forall₂.cons (hmono₂ _ _ hcorrA) List.Forall₂.nil)
          obtain ⟨d₃, hrunC, hstkC, hlenC, hpresC, ⟨ν₂, hν₂⟩, hinvC,
                  bs', hbs', hforC⟩ :=
            ihL (es₀pre ++ [c]) a₀ b₀ σ (e₁.emit [Op.append1]) e'
              ⟨d₁.heap.set b₀ (Node.seq (bs ++ [v])), b₀ :: σ, d₁.memo,
               d₁.collected⟩ P δ₂ (bs ++ [v]) hsave g1 htot hinvB hP
              hmA hnodeC rfl (getElem?_set_self_of_some hb01) hpreC
          have hlenC' : d₁.heap.length ≤ d₃.heap.length := by
            simpa using hlenC
          refine ⟨d₃, ?_, hstkC, ?_, ?_, ?_, hinvC, bs', hbs', ?_⟩
          · rw [show δ₁ ++ Op.append1 :: δ₂ =
                  δ₁ ++ ([Op.append1] ++ δ₂) from rfl,
                urun_append, hrunA]
            show urun pl ([Op.append1] ++ δ₂) d₁ = some d₃
            rw [urun_append, hrunB]
            exact hrunC
          · omega
          · intro j hj hjb
            have e1 : d₃.heap[j]? =
                (d₁.heap.set b₀ (Node.seq (bs ++ [v])))[j]? :=
              hpresC j (by simpa using lt_of_lt_of_le hj hlenA) hjb
            rw [e1, List.getElem?_set_ne (fun h => hjb h.symm),
                hpresA j hj]
          · refine ⟨ν₁ ++ ν₂, ?_⟩
            rw [hν₂]
            show d₁.memo ++ ν₂ = _
            rw [hν₁, List.append_assoc]
          · simpa using hforC
    exact ⟨Psucc, Qsucc⟩

end ACV

namespace ACV

/-- The coupling invariant at the start of an unpickling run. -/
theorem SimInv_init (H D₀ : List Node)
    (entOK : Nat → Ident → Addr → Prop) :
    SimInv H entOK D₀.length [] ⟨D₀, [], [], []⟩ [] := by
  refine ⟨le_refl _, ?_, ?_, ?_, ?_, ?_⟩
  · intro x
    simp [lookupL]
  · intro q hq
    simp at hq
  · intro q q' hq
    simp at hq
  · intro x hx
    simp at hx
  · intro x b hx
    simp [lookupL] at hx

/-- Running any total `persistent_load` behaviour over a freshly
pickled stream succeeds, preserves the pre-existing decoder heap,
allocates containers only at fresh addresses, and leaves exactly one
value on the stack — one corresponding to the pickled address. -/
theorem pickle_run_spec (H : List Node) (a : Addr) (data : List Op)
    (col : List (Addr × Ident)) (pl : PLoader)
    (entOK : Nat → Ident → Addr → Prop) (D₀ : List Node)
    (hpk : pickle_and_reduce_to_identities H a = some (data, col))
    (htot : LoaderTotal pl entOK D₀.length data) :
    ∃ d' v, urun pl data ⟨D₀, [], [], []⟩ = some d' ∧
      d'.stack = [v] ∧
      D₀.length ≤ d'.heap.length ∧
      (∀ j, j < D₀.length → d'.heap[j]? = D₀[j]?) ∧
      v < d'.heap.length ∧
      (∀ q ∈ d'.memo, D₀.length ≤ q.2 ∧ q.2 < d'.heap.length) ∧
      corrVal H d'.heap entOK d'.memo a v ∧
      (∀ x b, lookupL d'.memo x = some b →
        ∃ es bs, H[x]? = some (.seq es) ∧
          d'.heap[b]? = some (.seq bs) ∧
          List.Forall₂ (corrVal H d'.heap entOK d'.memo) es bs) := by
  unfold pickle_and_reduce_to_identities at hpk
  cases hsv : pickler_save H (H.length + 1) a ⟨[], [], []⟩ with
  | none => rw [hsv] at hpk; exact Option.noConfusion hpk
  | some e' =>
    rw [hsv] at hpk
    simp only [Option.map_some'] at hpk
    injection hpk with hp
    injection hp with hd hc
    subst hd
    subst hc
    obtain ⟨d', v, hrun, hstk, hlen, hpre, ⟨ν, hν⟩, hv, hinv', hcorr⟩ :=
      (pickler_sim H pl entOK D₀.length (H.length + 1)).1 a ⟨[], [], []⟩
        e' ⟨D₀, [], [], []⟩ [] e'.ops hsv (List.nil_append _).symm
        htot (SimInv_init H D₀ entOK)
    refine ⟨d', v, hrun, hstk, hlen, hpre, hv, hinv'.vals_fresh,
            hcorr, ?_⟩
    intro x b hx
    obtain ⟨es, bs, h1, h2, h3⟩ := hinv'.seq_corr x b hx
    rw [if_neg (List.not_mem_nil x)] at h3
    exact ⟨es, bs, h1, h2, h3⟩

/-- The final correspondence is a bisimulation whenever entity
resolution lands on entity nodes of the same class and identity. -/
theorem corr_bisim (H D : List Node)
    (entOK : Nat → Ident → Addr → Prop) (dm : List (Addr × Addr))
    (hseq : ∀ x b, lookupL dm x = some b →
      ∃ es bs, H[x]? = some (.seq es) ∧ D[b]? = some (.seq bs) ∧
        List.Forall₂ (corrVal H D entOK dm) es bs)
    (hent : ∀ c i b, entOK c i b →
      ∃ r', D[b]? = some (.entity c i r')) :
    IsBisim H D (corrVal H D entOK dm) := by
  intro x y hxy
  cases hH : H[x]? with
  | none => unfold corrVal at hxy; rw [hH] at hxy; exact hxy.elim
  | some nd =>
    cases nd with
    | prim p =>
      rw [corrVal_prim hH] at hxy
      exact ⟨.prim p, .prim p, rfl, hxy, rfl⟩
    | entity c i r =>
      rw [corrVal_entity hH] at hxy
      obtain ⟨r', hr⟩ := hent c i y hxy
      exact ⟨.entity c i r, .entity c i r', rfl, hr, rfl, rfl⟩
    | seq es =>
      rw [corrVal_seq hH] at hxy
      obtain ⟨es₁, bs, h1, h2, h3⟩ := hseq x y hxy
      rw [hH] at h1
      have h4 := Node.seq.inj (Option.some_inj.mp h1)
      subst h4
      exact ⟨.seq es, .seq bs, rfl, h2, h3⟩

/-- Pass 1's `persistent_load` always succeeds: it pushes a fresh
`None` placeholder. -/
theorem collecting_loader_total (N₀ : Nat) (ops : List Op) :
    LoaderTotal collecting_loader (fun _ _ _ => True) N₀ ops := by
  intro D pid _ _
  refine ⟨D ++ [Node.prim Prim.noneV], D.length, rfl, by simp, by simp,
          ?_, trivial⟩
  intro j hj
  exact List.getElem?_append_left hj

/-- `obtain` on an in-memory hit returns the canonical instance and
leaves everything unchanged. -/
theorem obtain_op_mem_hit {m : Mem} {s : CState} {cls : Nat}
    {ident : Ident} {a : Addr}
    (h : lookupL s.idMap ⟨cls, ident⟩ = some a) :
    obtain_op m s cls ident = (m, s, .ok a, [.mem true]) := by
  unfold obtain_op
  rw [h]

end ACV

namespace ACV

/-- `Cache.cache` never touches the heap, the source table, the
qualname table, the cache id, the attribute store or the field map;
its `id_map`/store writes are pure prepends (present keys stay present
with their values, bounds are preserved), and a successful call
returns an address the entity's key now maps to — the fresh object or
the previously registered canonical one. -/
theorem cache_op_basic {m : Mem} {s : CState} {a : Addr}
    {io : Option Ident} {m' : Mem} {s' : CState} {r : Except Err Addr}
    (h : cache_op m s a io = (m', s', r)) :
    m'.heap = m.heap ∧ m'.src = m.src ∧ m'.clsQual = m.clsQual ∧
    s'.cid = s.cid ∧ s'.attrStore = s.attrStore ∧
    s'.fieldMap = s.fieldMap ∧
    (∀ pid v, lookupL s.idMap pid = some v →
      lookupL s'.idMap pid = some v) ∧
    (∀ pid, (lookupL s.store pid).isSome = true →
      (lookupL s'.store pid).isSome = true) ∧
    (∀ L, a < L → (∀ q ∈ s.idMap, q.2 < L) →
      ∀ q ∈ s'.idMap, q.2 < L) ∧
    (∀ y, y ≠ a → lookupL m'.assoc y = lookupL m.assoc y) ∧
    (∀ q ∈ m'.assoc, q ∈ m.assoc ∨ q.1 = a) ∧
    (∀ v, r = .ok v → ∀ c2 i2 rr2,
      m.heap[a]? = some (.entity c2 i2 rr2) →
      lookupL s'.idMap ⟨c2, io.getD i2⟩ = some v ∧
      (v = a ∨ lookupL s.idMap ⟨c2, io.getD i2⟩ = some v)) := by
  unfold cache_op at h
  split at h
  · next c i rr heq =>
    dsimp only at h
    split at h
    · next a₀ hhit =>
      cases h
      refine ⟨rfl, rfl, rfl, rfl, rfl, rfl, fun _ _ hv => hv,
              fun _ hv => hv, fun _ _ hq => hq, fun _ _ => rfl,
              fun q hq => Or.inl hq, ?_⟩
      intro v hv c2 i2 rr2 hn2
      cases hv
      rw [heq] at hn2
      obtain ⟨hc2, hi2, -⟩ := Node.entity.inj (Option.some_inj.mp hn2)
      subst hc2
      subst hi2
      exact ⟨hhit, Or.inr hhit⟩
    · next hmiss =>
      split at h
      · next m₂ hsc =>
        cases h
        unfold set_cache at hsc
        split at hsc
        · cases hsc
          refine ⟨rfl, rfl, rfl, rfl, rfl, rfl, ?_, ?_, ?_, ?_, ?_,
                  ?_⟩
          · intro pid v hv
            show lookupL ((⟨c, io.getD i⟩, a) :: s.idMap) pid = some v
            by_cases hp : pid = ⟨c, io.getD i⟩
            · rw [hp, hmiss] at hv
              exact Option.noConfusion hv
            · rw [lookupL_cons_ne _ _ hp]
              exact hv
          · intro pid hv
            exact lookupL_cons_isSome _ hv
          · intro L haL hq q hmem
            rcases List.mem_cons.mp hmem with h1 | h1
            · subst h1
              exact haL
            · exact hq q h1
          · intro y hy
            show lookupL ((a, s.cid) :: m.assoc) y = lookupL m.assoc y
            exact lookupL_cons_ne _ _ hy
          · intro q hq
            rcases List.mem_cons.mp hq with h1 | h1
            · subst h1
              exact Or.inr rfl
            · exact Or.inl h1
          · intro v hv c2 i2 rr2 hn2
            cases hv
            rw [heq] at hn2
            obtain ⟨hc2, hi2, -⟩ :=
              Node.entity.inj (Option.some_inj.mp hn2)
            subst hc2
            subst hi2
            exact ⟨lookupL_cons_self _ _ _, Or.inl rfl⟩
        · exact Except.noConfusion hsc
      · next e hsc =>
        cases h
        refine ⟨rfl, rfl, rfl, rfl, rfl, rfl, ?_, ?_, ?_, ?_, ?_,
                ?_⟩
        · intro pid v hv
          show lookupL ((⟨c, io.getD i⟩, a) :: s.idMap) pid = some v
          by_cases hp : pid = ⟨c, io.getD i⟩
          · rw [hp, hmiss] at hv
            exact Option.noConfusion hv
          · rw [lookupL_cons_ne _ _ hp]
            exact hv
        · intro pid hv
          exact lookupL_cons_isSome _ hv
        · intro L haL hq q hmem
          rcases List.mem_cons.mp hmem with h1 | h1
          · subst h1
            exact haL
          · exact hq q h1
        · intro y hy
          rfl
        · intro q hq
          exact Or.inl hq
        · intro v hv
          exact absurd hv (by simp)
  · next hne =>
    cases h
    refine ⟨rfl, rfl, rfl, rfl, rfl, rfl, fun _ _ hv => hv,
            fun _ hv => hv, fun _ _ hq => hq, fun _ _ => rfl,
            fun q hq => Or.inl hq, ?_⟩
    intro v hv
    exact absurd hv (by simp)

/-- A successful conforming `Cache.cache` call (the object registered
under its own identity): the key maps to the returned canonical
address, the row is stored, the `id_map` invariant is preserved, and
the result is a live entity of the same class and identity. -/
theorem cache_op_ok_post {m : Mem} {s : CState} {a : Addr} {c : Nat}
    {i : Ident} {rr : List Prim} {m' : Mem} {s' : CState} {v : Addr}
    (hnode : m.heap[a]? = some (.entity c i rr))
    (hWF : IdMapWF m s)
    (h : cache_op m s a (some i) = (m', s', .ok v)) :
    lookupL s'.idMap ⟨c, i⟩ = some v ∧
    (lookupL s'.store ⟨c, i⟩).isSome = true ∧
    IdMapWF m' s' ∧ v < m.heap.length ∧
    (∃ r', m.heap[v]? = some (.entity c i r')) := by
  have ha : a < m.heap.length := lt_length_of_getElem? hnode
  unfold cache_op at h
  rw [hnode] at h
  dsimp only [Option.getD_some] at h
  split at h
  · next a₀ hhit =>
    cases h
    obtain ⟨hb, hst, r', hrd⟩ := hWF _ (lookupL_mem hhit)
    exact ⟨hhit, hst, hWF, hb, r', hrd⟩
  · next hmiss =>
    split at h
    · next m₂ hsc =>
      cases h
      unfold set_cache at hsc
      split at hsc
      · cases hsc
        refine ⟨lookupL_cons_self _ _ _, ?_, ?_, ha, rr, hnode⟩
        · show (lookupL ((⟨c, i⟩, rr) :: s.store) ⟨c, i⟩).isSome = true
          rw [lookupL_cons_self]
          rfl
        · intro p hp
          rcases List.mem_cons.mp hp with hp1 | hp1
          · subst hp1
            refine ⟨ha, ?_, rr, hnode⟩
            show (lookupL ((⟨c, i⟩, rr) :: s.store) ⟨c, i⟩).isSome = true
            rw [lookupL_cons_self]
            rfl
          · obtain ⟨hb, hst, r', hrd⟩ := hWF p hp1
            exact ⟨hb, lookupL_cons_isSome _ hst, r', hrd⟩
      · exact Except.noConfusion hsc
    · next e hsc =>
      exact absurd (congrArg (fun t => t.2.2) h) (by simp)

/-- `Cache.obtain` only grows the heap, keeps `id_map` values live,
never drops a present key, and on success registers the requested
key at a live address. -/
theorem obtain_op_post {m : Mem} {s : CState} {cls : Nat}
    {ident : Ident} {m' : Mem} {s' : CState} {r : Except Err Addr}
    {evs : List Ev}
    (h : obtain_op m s cls ident = (m', s', r, evs))
    (hb : ∀ q ∈ s.idMap, q.2 < m.heap.length) :
    m.heap.length ≤ m'.heap.length ∧
    (∀ q ∈ s'.idMap, q.2 < m'.heap.length) ∧
    (∀ pid, (lookupL s.idMap pid).isSome = true →
      (lookupL s'.idMap pid).isSome = true) ∧
    (∀ a, r = .ok a →
      (lookupL s'.idMap ⟨cls, ident⟩).isSome = true ∧
      a < m'.heap.length) := by
  unfold obtain_op at h
  dsimp only at h
  split at h
  · next a₀ hhit =>
    cases h
    refine ⟨le_refl _, hb, fun _ hv => hv, ?_⟩
    intro a ha
    cases ha
    exact ⟨by rw [hhit]; rfl, hb _ (lookupL_mem hhit)⟩
  · next hmiss =>
    split at h
    · next row hrow =>
      have hlen : m.heap.length <
          (m.heap ++ [Node.entity cls ident row]).length := by simp
      split at h
      · next m₂ hsc =>
        cases h
        unfold set_cache at hsc
        split at hsc
        · cases hsc
          refine ⟨Nat.le_of_lt hlen, ?_, ?_, ?_⟩
          · intro q hq
            rcases List.mem_cons.mp hq with hq1 | hq1
            · subst hq1
              exact hlen
            · exact lt_trans (hb q hq1) hlen
          · intro pid hv
            exact lookupL_cons_isSome _ hv
          · intro a ha
            cases ha
            exact ⟨by rw [lookupL_cons_self]; rfl, hlen⟩
        · exact Except.noConfusion hsc
      · next e hsc =>
        cases h
        refine ⟨Nat.le_of_lt hlen, ?_, ?_, ?_⟩
        · intro q hq
          rcases List.mem_cons.mp hq with hq1 | hq1
          · subst hq1
            exact hlen
          · exact lt_trans (hb q hq1) hlen
        · intro pid hv
          exact lookupL_cons_isSome _ hv
        · intro a ha
          exact absurd ha (by simp)
    · next hnorow =>
      split at h
      · next hsrc =>
        cases h
        refine ⟨le_refl _, hb, fun _ hv => hv, ?_⟩
        intro a ha
        exact absurd ha (by simp)
      · next c' i' r' hsrc =>
        split at h
        · next hcls =>
          subst hcls
          have hlen : m.heap.length <
              (m.heap ++ [Node.entity c' i' r']).length := by simp
          have hnode : (m.heap ++
              [Node.entity c' i' r'])[m.heap.length]? =
              some (.entity c' i' r') :=
            List.getElem?_concat_length _ _
          cases hco : cache_op
              { heap := m.heap ++ [Node.entity c' i' r'],
                assoc := m.assoc, src := m.src, clsQual := m.clsQual }
              s m.heap.length (some ident) with
          | mk mc t =>
            obtain ⟨sc, rc⟩ := t
            rw [hco] at h
            dsimp only at h
            cases h
            obtain ⟨hh, -, -, -, -, -, hidv, -, hbnd, -, -, hok⟩ :=
              cache_op_basic hco
            have hble : ∀ q ∈ s.idMap,
                q.2 < (m.heap ++ [Node.entity c' i' r']).length :=
              fun q hq => lt_trans (hb q hq) hlen
            refine ⟨?_, ?_, ?_, ?_⟩
            · rw [hh]
              exact Nat.le_of_lt hlen
            · intro q hq
              rw [hh]
              exact hbnd _ hlen hble q hq
            · intro pid hv
              obtain ⟨w, hw⟩ := Option.isSome_iff_exists.mp hv
              rw [hidv pid w hw]
              rfl
            · intro a ha
              subst ha
              obtain ⟨hkey, hdis⟩ := hok a rfl c' i' r' hnode
              simp only [Option.getD_some] at hkey hdis
              refine ⟨by rw [hkey]; rfl, ?_⟩
              rw [hh]
              rcases hdis with h1 | h1
              · subst h1
                exact hlen
              · exact lt_trans (hb _ (lookupL_mem h1)) hlen
        · next hcls =>
          cases h
          refine ⟨by simp, ?_, fun _ hv => hv, ?_⟩
          · intro q hq
            have h1 := hb q hq
            calc q.2 < m.heap.length := h1
              _ ≤ (m.heap ++ [Node.entity c' i' r']).length := by simp
          · intro a ha
            exact absurd ha (by simp)

end ACV

namespace ACV

/-- The inter-pass `obtain` loop, when it completes, has every listed
`(class, identity)` pair present in the in-memory identity map, keeps
all map values live, and never loses a present key. -/
theorem obtain_each_post : ∀ (pids : List PID) {m : Mem} {s : CState}
    {m' : Mem} {s' : CState},
    obtain_each m s pids = (m', s', .ok ()) →
    (∀ q ∈ s.idMap, q.2 < m.heap.length) →
    m.heap.length ≤ m'.heap.length ∧
    (∀ q ∈ s'.idMap, q.2 < m'.heap.length) ∧
    (∀ pid, (lookupL s.idMap pid).isSome = true →
      (lookupL s'.idMap pid).isSome = true) ∧
    (∀ pid ∈ pids, (lookupL s'.idMap pid).isSome = true) := by
  intro pids
  induction pids with
  | nil =>
    intro m s m' s' h hb
    rw [obtain_each] at h
    cases h
    exact ⟨le_refl _, hb, fun _ hv => hv, fun pid hp => absurd hp
      (List.not_mem_nil pid)⟩
  | cons pid rest ih =>
    intro m s m' s' h hb
    rw [obtain_each] at h
    split at h
    · next m₁ s₁ a evs heq =>
      obtain ⟨h1, h2, h3, h4⟩ := obtain_op_post heq hb
      obtain ⟨g1, g2, g3, g4⟩ := ih h h2
      refine ⟨le_trans h1 g1, g2, fun p hv => g3 p (h3 p hv), ?_⟩
      intro p hp
      rcases List.mem_cons.mp hp with hp1 | hp1
      · subst hp1
        exact g3 p (h4 a rfl).1
      · exact g4 p hp1
    · next m₁ s₁ e evs heq =>
      exact Except.noConfusion (congrArg (fun t => t.2.2) h)

/-- When every listed pair is already registered, the inter-pass loop
is a no-op. -/
theorem obtain_each_all_hits : ∀ (pids : List PID) {m : Mem}
    {s : CState},
    (∀ pid ∈ pids, (lookupL s.idMap pid).isSome = true) →
    obtain_each m s pids = (m, s, .ok ()) := by
  intro pids
  induction pids with
  | nil =>
    intro m s _
    rw [obtain_each]
  | cons pid rest ih =>
    intro m s hall
    obtain ⟨a, ha⟩ := Option.isSome_iff_exists.mp
      (hall pid (List.mem_cons_self _ _))
    rw [obtain_each, obtain_op_mem_hit (by exact ha)]
    exact ih (fun p hp => hall p (List.mem_cons_of_mem _ hp))

/-- A pid token of the stream is collected by `opsPids`. -/
theorem mem_opsPids {ops : List Op} {pid : PID}
    (h : Op.pushPid pid ∈ ops) : pid ∈ opsPids ops := by
  unfold opsPids
  rw [List.mem_filterMap]
  exact ⟨Op.pushPid pid, h, rfl⟩

end ACV

namespace ACV

/-- C5: in the decoder's second pass, every `(class, identity)` pointer
token resolves.  Pass 1 hands exactly the stream's pointer tokens to
the inter-pass resolution loop; once that loop completes, every one of
them is present in the in-memory identity map; and the pass-2 run —
whose `persistent_load` is the synchronous `Cache._obtain_mapped`
lookup — never reaches its KeyError branch: it runs to completion with
one reconstructed value on the stack. -/
theorem pass2_lookup_never_fails
    (H : List Node) (root : Addr) (data : List Op)
    (col : List (Addr × Ident)) (m : Mem) (s : CState) (d₁ : DecSt)
    (m₂ : Mem) (s₂ : CState)
    (hpk : pickle_and_reduce_to_identities H root = some (data, col))
    (hp1 : urun collecting_loader data ⟨m.heap, [], [], []⟩ = some d₁)
    (hloop : obtain_each { m with heap := d₁.heap } s d₁.collected =
      (m₂, s₂, .ok ()))
    (hbound : ∀ q ∈ s.idMap, q.2 < m.heap.length) :
    d₁.collected = opsPids data ∧
    (∀ pid ∈ opsPids data, (lookupL s₂.idMap pid).isSome = true) ∧
    ∃ d₂ v, urun (associating_loader (lookupL s₂.idMap)) data
        ⟨m₂.heap, [], [], []⟩ = some d₂ ∧ d₂.stack = [v] := by
  have hcol : d₁.collected = opsPids data := by
    have h0 := urun_collected collecting_loader data _ _ hp1
    simpa using h0
  obtain ⟨dc, v₀, hrun₀, -, hlen₀, -, -, -, -, -⟩ :=
    pickle_run_spec H root data col collecting_loader
      (fun _ _ _ => True) m.heap hpk
      (collecting_loader_total m.heap.length data)
  have hdc : dc = d₁ := by
    rw [hrun₀] at hp1
    exact Option.some_inj.mp hp1
  subst hdc
  have hb₁ : ∀ q ∈ s.idMap, q.2 < dc.heap.length := fun q hq =>
    lt_of_lt_of_le (hbound q hq) hlen₀
  obtain ⟨hg1, hg2, hg3, hg4⟩ := obtain_each_post dc.collected hloop hb₁
  have hcov : ∀ pid ∈ opsPids data,
      (lookupL s₂.idMap pid).isSome = true := by
    intro pid hp
    refine hg4 pid ?_
    rw [hcol]
    exact hp
  have htot2 : LoaderTotal (associating_loader (lookupL s₂.idMap))
      (fun _ _ _ => True) m₂.heap.length data := by
    intro D pid hmem hN
    obtain ⟨b, hbv⟩ := Option.isSome_iff_exists.mp
      (hcov pid (mem_opsPids hmem))
    refine ⟨D, b, ?_, le_refl _, ?_, fun j _ => rfl, trivial⟩
    · show (lookupL s₂.idMap pid).map (fun b => (D, b)) = some (D, b)
      rw [hbv]
      rfl
    · exact lt_of_lt_of_le (hg2 _ (lookupL_mem hbv)) hN
  obtain ⟨d₂, v, hrun₂, hstk₂, -, -, -, -, -, -⟩ :=
    pickle_run_spec H root data col _ _ m₂.heap hpk htot2
  exact ⟨hcol, hcov, d₂, v, hrun₂, hstk₂⟩

end ACV

namespace ACV

/-- Witness for C5: a cyclic two-node value (a container holding an
entity reference and itself) pickled and resolved through a fresh
cache over the conforming source. -/
theorem pass2_lookup_never_fails_witness :
    (⟨[Node.seq [1, 0], Node.prim Prim.noneV], [0], [(1, 0)],
      [⟨1, [Prim.int 0]⟩]⟩ : DecSt).collected =
      opsPids [Op.newSeq, Op.put 1, Op.pushPid ⟨1, [Prim.int 0]⟩,
               Op.append1, Op.get 1, Op.append1] ∧
    (∀ pid ∈ opsPids [Op.newSeq, Op.put 1,
        Op.pushPid ⟨1, [Prim.int 0]⟩, Op.append1, Op.get 1,
        Op.append1],
      (lookupL (⟨0, [(⟨1, [Prim.int 0]⟩, 2)], [],
        [(⟨1, [Prim.int 0]⟩, [Prim.str "x"])], []⟩ : CState).idMap
        pid).isSome = true) ∧
    ∃ d₂ v, urun (associating_loader (lookupL (⟨0,
        [(⟨1, [Prim.int 0]⟩, 2)], [],
        [(⟨1, [Prim.int 0]⟩, [Prim.str "x"])], []⟩ : CState).idMap))
        [Op.newSeq, Op.put 1, Op.pushPid ⟨1, [Prim.int 0]⟩,
         Op.append1, Op.get 1, Op.append1]
        ⟨(⟨[Node.seq [1, 0], Node.prim Prim.noneV,
            Node.entity 1 [Prim.int 0] [Prim.str "x"]], [(2, 0)],
           srcOK, qualC⟩ : Mem).heap, [], [], []⟩ = some d₂ ∧
      d₂.stack = [v] :=
  pass2_lookup_never_fails
    [Node.entity 1 [Prim.int 0] [], Node.seq [0, 1]] 1
    [Op.newSeq, Op.put 1, Op.pushPid ⟨1, [Prim.int 0]⟩, Op.append1,
     Op.get 1, Op.append1]
    [(0, [Prim.int 0])] memOK cstate0
    ⟨[Node.seq [1, 0], Node.prim Prim.noneV], [0], [(1, 0)],
     [⟨1, [Prim.int 0]⟩]⟩
    ⟨[Node.seq [1, 0], Node.prim Prim.noneV,
      Node.entity 1 [Prim.int 0] [Prim.str "x"]], [(2, 0)], srcOK,
     qualC⟩
    ⟨0, [(⟨1, [Prim.int 0]⟩, 2)], [],
     [(⟨1, [Prim.int 0]⟩, [Prim.str "x"])], []⟩
    (by simp [pickle_and_reduce_to_identities, pickler_save,
          pickler_save_items, EncSt.emit])
    (by rfl) (by rfl) (by simp [cstate0])

end ACV

namespace ACV

/-- Every collected pair of a pickling is an instance with its own
identity, and every pointer token of the stream has a matching
collected instance. -/
theorem pickle_pids_are_entities {H : List Node} {a : Addr}
    {data : List Op} {col : List (Addr × Ident)}
    (hpk : pickle_and_reduce_to_identities H a = some (data, col)) :
    (∀ q ∈ col, ∃ c r, H[q.1]? = some (.entity c q.2 r)) ∧
    (∀ pid ∈ opsPids data, ∃ x r, (x, pid.ident) ∈ col ∧
      H[x]? = some (.entity pid.cls pid.ident r)) := by
  unfold pickle_and_reduce_to_identities at hpk
  cases hsv : pickler_save H (H.length + 1) a ⟨[], [], []⟩ with
  | none => rw [hsv] at hpk; exact Option.noConfusion hpk
  | some e' =>
    rw [hsv] at hpk
    simp only [Option.map_some'] at hpk
    injection hpk with hp
    injection hp with hd hc
    subst hd
    subst hc
    obtain ⟨δ, μ, γ, h1, h2, h3, h4, h5⟩ :=
      (pickler_save_mono H (H.length + 1)).1 a ⟨[], [], []⟩ e' hsv
    have hδ : δ = e'.ops := by
      rw [h1]
      exact (List.nil_append _).symm
    have hγ : γ = e'.collected := by
      rw [h3]
      exact (List.nil_append _).symm
    subst hδ
    subst hγ
    exact ⟨h4, h5⟩

/-- C3: the graph codec round-trips.  Pickling any live value of a
closed heap succeeds; running the second pass with any resolver that
maps each referenced `(class, identity)` pair to a matching entity of
the decoder heap terminates, preserves the decoder heap's existing
objects, and reconstructs a value structurally equal to the source —
sharing and reference cycles included (`ValEquiv` is bisimilarity of
the two object graphs); and when the pickled root is itself a cached
entity, the reconstruction is the resolver's canonical object for its
identity: decode(encode(e)) is e. -/
theorem codec_roundtrip (H D₀ : List Node) (a : Addr)
    (f : PID → Option Addr)
    (hH : HeapClosed H) (ha : a < H.length)
    (hres : ∀ (c : Nat) (i : Ident) (x : Addr) (r : List Prim),
      H[x]? = some (.entity c i r) →
      ∃ b r', f ⟨c, i⟩ = some b ∧ b < D₀.length ∧
        D₀[b]? = some (.entity c i r')) :
    ∃ data col d' v,
      pickle_and_reduce_to_identities H a = some (data, col) ∧
      urun (associating_loader f) data ⟨D₀, [], [], []⟩ = some d' ∧
      d'.stack = [v] ∧
      (∀ j, j < D₀.length → d'.heap[j]? = D₀[j]?) ∧
      ValEquiv H a d'.heap v ∧
      (∀ c i r, H[a]? = some (.entity c i r) → f ⟨c, i⟩ = some v) := by
  obtain ⟨p, hpk⟩ := Option.isSome_iff_exists.mp (pickle_isSome hH ha)
  obtain ⟨data, col⟩ := p
  obtain ⟨-, hpids⟩ := pickle_pids_are_entities hpk
  have htot : LoaderTotal (associating_loader f)
      (fun c i b => f ⟨c, i⟩ = some b ∧ b < D₀.length ∧
        ∃ r', D₀[b]? = some (.entity c i r'))
      D₀.length data := by
    intro D pid hmem hN
    obtain ⟨x, r, -, hx⟩ := hpids pid (mem_opsPids hmem)
    obtain ⟨b, r', hfb, hblt, hrd⟩ := hres pid.cls pid.ident x r hx
    refine ⟨D, b, ?_, le_refl _, lt_of_lt_of_le hblt hN,
            fun j _ => rfl, ?_, hblt, r', hrd⟩
    · show (f pid).map (fun b => (D, b)) = some (D, b)
      have hpid : (⟨pid.cls, pid.ident⟩ : PID) = pid := rfl
      rw [hpid] at hfb
      rw [hfb]
      rfl
    · show f ⟨pid.cls, pid.ident⟩ = some b
      exact hfb
  obtain ⟨d', v, hrun, hstk, hlen, hpre, hv, hfresh, hcorr, hflat⟩ :=
    pickle_run_spec H a data col _ _ D₀ hpk htot
  refine ⟨data, col, d', v, hpk, hrun, hstk, hpre, ?_, ?_⟩
  · refine ⟨corrVal H d'.heap _ d'.memo, hcorr, ?_⟩
    refine corr_bisim H d'.heap _ d'.memo hflat ?_
    intro c i b hent
    obtain ⟨-, hblt, r', hrd⟩ := hent
    exact ⟨r', by rw [hpre b hblt]; exact hrd⟩
  · intro c i r hroot
    have h1 := (corrVal_entity hroot).mp hcorr
    exact h1.1

end ACV

namespace ACV

/-- Witness for C3: a container holding an entity reference and
itself (a reference cycle), decoded against a one-entity decoder
heap. -/
theorem codec_roundtrip_witness :
    HeapClosed [Node.entity 1 [Prim.int 0] [], Node.seq [0, 1]] ∧
    ∃ data col d' v,
      pickle_and_reduce_to_identities
        [Node.entity 1 [Prim.int 0] [], Node.seq [0, 1]] 1 =
        some (data, col) ∧
      urun (associating_loader
          (fun pid => if pid = ⟨1, [Prim.int 0]⟩ then some 0 else none))
        data ⟨[Node.entity 1 [Prim.int 0] [Prim.str "x"]], [], [], []⟩ =
        some d' ∧
      d'.stack = [v] ∧
      (∀ j, j < ([Node.entity 1 [Prim.int 0] [Prim.str "x"]] :
          List Node).length →
        d'.heap[j]? =
          ([Node.entity 1 [Prim.int 0] [Prim.str "x"]] :
            List Node)[j]?) ∧
      ValEquiv [Node.entity 1 [Prim.int 0] [], Node.seq [0, 1]] 1
        d'.heap v ∧
      (∀ c i r,
        ([Node.entity 1 [Prim.int 0] [], Node.seq [0, 1]] :
          List Node)[1]? = some (.entity c i r) →
        (if (⟨c, i⟩ : PID) = ⟨1, [Prim.int 0]⟩ then some 0 else none)
          = some v) := by
  have hH : HeapClosed [Node.entity 1 [Prim.int 0] [], Node.seq [0, 1]]
      := by
    unfold HeapClosed
    decide
  refine ⟨hH, ?_⟩
  exact codec_roundtrip
    [Node.entity 1 [Prim.int 0] [], Node.seq [0, 1]]
    [Node.entity 1 [Prim.int 0] [Prim.str "x"]] 1
    (fun pid => if pid = ⟨1, [Prim.int 0]⟩ then some 0 else none)
    hH (by decide)
    (by
      intro c i x r h
      match x with
      | 0 =>
        simp only [List.getElem?_cons_zero, Option.some_inj] at h
        obtain ⟨hc, hi, -⟩ := Node.entity.inj h.symm
        subst hc
        subst hi
        exact ⟨0, [Prim.str "x"], rfl, by decide, rfl⟩
      | 1 => simp at h
      | n + 2 => simp at h)

end ACV

namespace ACV

/-- The association loop (`for c, i in collected:
await self.cache(c, identity=i)`) succeeds whenever every listed
instance is either already registered or not yet associated, and
afterwards every listed instance's `(class, identity)` key is in the
identity map; the heap and the attribute keyspaces are untouched. -/
theorem cache_each_spec : ∀ (col : List (Addr × Ident)) {m : Mem}
    {s : CState},
    IdMapWF m s →
    (∀ q ∈ col, ∃ c r, m.heap[q.1]? = some (.entity c q.2 r)) →
    (∀ x c i r, m.heap[x]? = some (.entity c i r) →
      (lookupL s.idMap ⟨c, i⟩).isSome = true ∨
      lookupL m.assoc x = none) →
    ∃ m' s', cache_each m s col = (m', s', .ok ()) ∧
      m'.heap = m.heap ∧ m'.src = m.src ∧ m'.clsQual = m.clsQual ∧
      s'.cid = s.cid ∧ s'.attrStore = s.attrStore ∧
      s'.fieldMap = s.fieldMap ∧
      IdMapWF m' s' ∧
      (∀ pid v, lookupL s.idMap pid = some v →
        lookupL s'.idMap pid = some v) ∧
      (∀ q ∈ col, ∀ c r, m.heap[q.1]? = some (.entity c q.2 r) →
        (lookupL s'.idMap ⟨c, q.2⟩).isSome = true) ∧
      (∀ q ∈ m'.assoc, q ∈ m.assoc ∨ q.1 < m.heap.length) := by
  intro col
  induction col with
  | nil =>
    intro m s hWF hents hfree
    exact ⟨m, s, rfl, rfl, rfl, rfl, rfl, rfl, rfl, hWF,
           fun _ _ hv => hv,
           fun q hq => absurd hq (List.not_mem_nil q),
           fun q hq => Or.inl hq⟩
  | cons q rest ih =>
    intro m s hWF hents hfree
    obtain ⟨x, i⟩ := q
    obtain ⟨c, r, hnode⟩ := hents (x, i) (List.mem_cons_self _ _)
    have hok : ∃ mc sc v, cache_op m s x (some i) = (mc, sc, .ok v) := by
      unfold cache_op
      rw [hnode]
      dsimp only [Option.getD_some]
      cases hla : lookupL s.idMap ⟨c, i⟩ with
      | some a₀ => exact ⟨m, _, a₀, rfl⟩
      | none =>
        rcases hfree x c i r hnode with h1 | h1
        · rw [hla] at h1
          exact absurd h1 (by simp)
        · unfold set_cache
          rw [h1]
          exact ⟨_, _, x, rfl⟩
    obtain ⟨mc, sc, v, hco⟩ := hok
    obtain ⟨hkey, hst, hWFc, hvlt, r', hrd⟩ :=
      cache_op_ok_post hnode hWF hco
    obtain ⟨hh, hsrc, hqual, hcid, hattr, hfld, hidv, hstv, -, hassoc,
            hamem, hokk⟩ := cache_op_basic hco
    have hents' : ∀ p ∈ rest, ∃ c2 r2,
        mc.heap[p.1]? = some (.entity c2 p.2 r2) := by
      intro p hp
      rw [hh]
      exact hents p (List.mem_cons_of_mem _ hp)
    have hfree' : ∀ y c2 i2 r2,
        mc.heap[y]? = some (.entity c2 i2 r2) →
        (lookupL sc.idMap ⟨c2, i2⟩).isSome = true ∨
        lookupL mc.assoc y = none := by
      intro y c2 i2 r2 hy
      rw [hh] at hy
      by_cases hyx : y = x
      · subst hyx
        rw [hnode] at hy
        obtain ⟨hc2, hi2, -⟩ := Node.entity.inj (Option.some_inj.mp hy)
        subst hc2
        subst hi2
        left
        rw [hkey]
        rfl
      · rcases hfree y c2 i2 r2 hy with h1 | h1
        · left
          obtain ⟨w, hw⟩ := Option.isSome_iff_exists.mp h1
          rw [hidv _ _ hw]
          rfl
        · right
          rw [hassoc y hyx]
          exact h1
    obtain ⟨m', s', hrest, g1, g2, g3, g4, g5, g6, g7, g8, g9, g10⟩ :=
      ih hWFc hents' hfree'
    refine ⟨m', s', ?_, by rw [g1, hh], by rw [g2, hsrc],
            by rw [g3, hqual], by rw [g4, hcid], by rw [g5, hattr],
            by rw [g6, hfld], g7, ?_, ?_, ?_⟩
    · rw [cache_each, hco]
      exact hrest
    · intro pid w hw
      exact g8 pid w (hidv pid w hw)
    · intro p hp c2 r2 hp2
      rcases List.mem_cons.mp hp with h1 | h1
      · subst h1
        have hp2' : m.heap[x]? = some (.entity c2 i r2) := hp2
        rw [hnode] at hp2'
        obtain ⟨hc2, -, -⟩ :=
          Node.entity.inj (Option.some_inj.mp hp2')
        subst hc2
        have hks : (lookupL sc.idMap ⟨c, i⟩).isSome = true := by
          rw [hkey]
          rfl
        obtain ⟨w, hw⟩ := Option.isSome_iff_exists.mp hks
        show (lookupL s'.idMap ⟨c, i⟩).isSome = true
        rw [g8 _ _ hw]
        rfl
      · refine g9 p h1 c2 r2 ?_
        rw [hh]
        exact hp2
    · intro q hq
      rcases g10 q hq with h1 | h1
      · rcases hamem q h1 with h2 | h2
        · exact Or.inl h2
        · refine Or.inr ?_
          rw [h2]
          exact lt_length_of_getElem? hnode
      · refine Or.inr ?_
        rw [hh] at h1
        exact h1

end ACV

namespace ACV

/-- `unpickle_and_reconstruct_from_identities` on a freshly pickled
blob whose pointer tokens are all registered: both passes and the
inter-pass loop succeed, the cache state is returned unchanged, the
pre-existing heap objects are untouched, and the reconstruction is
structurally equal to the pickled value — with a root entity resolved
to the cache's canonical instance and a root container rebuilt at a
fresh address. -/
theorem unpickle_spec {m : Mem} {s : CState} {data : List Op}
    {col : List (Addr × Ident)} {res : Addr}
    (hpk : pickle_and_reduce_to_identities m.heap res =
      some (data, col))
    (hWF : IdMapWF m s)
    (hcov : ∀ pid ∈ opsPids data,
      (lookupL s.idMap pid).isSome = true) :
    ∃ m' v,
      unpickle_and_reconstruct_from_identities m s data =
        (m', s, .ok v) ∧
      m'.assoc = m.assoc ∧ m'.src = m.src ∧ m'.clsQual = m.clsQual ∧
      m.heap.length ≤ m'.heap.length ∧
      (∀ j, j < m.heap.length → m'.heap[j]? = m.heap[j]?) ∧
      v < m'.heap.length ∧
      ValEquiv m.heap res m'.heap v ∧
      (∀ c i r, m.heap[res]? = some (.entity c i r) →
        lookupL s.idMap ⟨c, i⟩ = some v) ∧
      (∀ es, m.heap[res]? = some (.seq es) → m.heap.length ≤ v) := by
  obtain ⟨d₁, v₁, hrun₁, hstk₁, hlen₁, hpre₁, -, -, -, -⟩ :=
    pickle_run_spec m.heap res data col collecting_loader
      (fun _ _ _ => True) m.heap hpk
      (collecting_loader_total m.heap.length data)
  have hcol : d₁.collected = opsPids data := by
    have h0 := urun_collected collecting_loader data _ _ hrun₁
    simpa using h0
  have hloop : obtain_each { m with heap := d₁.heap } s d₁.collected =
      ({ m with heap := d₁.heap }, s, .ok ()) :=
    obtain_each_all_hits d₁.collected (by
      intro pid hp
      exact hcov pid (by rwa [hcol] at hp))
  have htot2 : LoaderTotal (associating_loader (lookupL s.idMap))
      (fun c i b => lookupL s.idMap ⟨c, i⟩ = some b ∧
        b < m.heap.length ∧
        ∃ r', m.heap[b]? = some (.entity c i r'))
      d₁.heap.length data := by
    intro D pid hmem hN
    obtain ⟨b, hbv⟩ := Option.isSome_iff_exists.mp
      (hcov pid (mem_opsPids hmem))
    obtain ⟨hblt, -, r', hrd⟩ := hWF _ (lookupL_mem hbv)
    refine ⟨D, b, ?_, le_refl _, ?_, fun j _ => rfl, ?_, hblt, r',
            hrd⟩
    · show (lookupL s.idMap pid).map (fun b => (D, b)) = some (D, b)
      rw [hbv]
      rfl
    · exact lt_of_lt_of_le (lt_of_lt_of_le hblt hlen₁) hN
    · show lookupL s.idMap ⟨pid.cls, pid.ident⟩ = some b
      exact hbv
  obtain ⟨d₂, v, hrun₂, hstk₂, hlen₂, hpre₂, hv₂, hfresh₂, hcorr₂,
          hflat₂⟩ :=
    pickle_run_spec m.heap res data col _ _ d₁.heap hpk htot2
  have hpre : ∀ j, j < m.heap.length → d₂.heap[j]? = m.heap[j]? := by
    intro j hj
    rw [hpre₂ j (lt_of_lt_of_le hj hlen₁)]
    exact hpre₁ j hj
  refine ⟨{ m with heap := d₂.heap }, v, ?_, rfl, rfl, rfl,
          le_trans hlen₁ hlen₂, hpre, hv₂, ?_, ?_, ?_⟩
  · unfold unpickle_and_reconstruct_from_identities
    rw [hrun₁]
    simp only []
    rw [hloop]
    simp only []
    rw [hrun₂]
    simp only []
    rw [hstk₂]
  · refine ⟨corrVal m.heap d₂.heap _ d₂.memo, hcorr₂, ?_⟩
    refine corr_bisim m.heap d₂.heap _ d₂.memo hflat₂ ?_
    intro c i b hent
    obtain ⟨-, hblt, r', hrd⟩ := hent
    refine ⟨r', ?_⟩
    rw [hpre b hblt]
    exact hrd
  · intro c i r hroot
    exact ((corrVal_entity hroot).mp hcorr₂).1
  · intro es hroot
    have h1 := (corrVal_seq hroot).mp hcorr₂
    have h2 := (hfresh₂ _ (lookupL_mem h1)).1
    exact le_trans hlen₁ h2

end ACV

namespace ACV

/-- The shared tail of `cache_attribute` and the compute path of
`cached_attribute_lookup`: pickle the result, associate every
collected instance, persist the blob under the attribute key, then
unpickle the persisted bytes and memoize that reconstruction. -/
theorem attr_pipeline_core (m : Mem) (s : CState) (ckey : Nat)
    (ikey : Ident) (attrname : String) (res : Addr)
    (hH : HeapClosed m.heap) (hres : res < m.heap.length)
    (hWF : IdMapWF m s)
    (hfree : ∀ x c i r, m.heap[x]? = some (.entity c i r) →
      (lookupL s.idMap ⟨c, i⟩).isSome = true ∨
      lookupL m.assoc x = none) :
    ∃ data col m₁ s₁ m' sfin v,
      pickle_and_reduce_to_identities m.heap res = some (data, col) ∧
      cache_each m s col = (m₁, s₁, .ok ()) ∧
      m₁.heap = m.heap ∧ m₁.clsQual = m.clsQual ∧
      s₁.attrStore = s.attrStore ∧ s₁.fieldMap = s.fieldMap ∧
      attr_decode_register m₁
        { s₁ with attrStore :=
            ((m.clsQual ckey, strId ikey, attrname), data) ::
              s₁.attrStore } ckey ikey attrname data =
        (m', sfin, .ok v) ∧
      sfin.fieldMap = ((ckey, ikey, attrname), v) :: s.fieldMap ∧
      sfin.attrStore = ((m.clsQual ckey, strId ikey, attrname),
                        data) :: s.attrStore ∧
      sfin.idMap = s₁.idMap ∧
      m.heap.length ≤ m'.heap.length ∧
      (∀ j, j < m.heap.length → m'.heap[j]? = m.heap[j]?) ∧
      ValEquiv m.heap res m'.heap v ∧
      (∀ c i r, m.heap[res]? = some (.entity c i r) →
        lookupL s₁.idMap ⟨c, i⟩ = some v) ∧
      (∀ es, m.heap[res]? = some (.seq es) →
        m.heap.length ≤ v ∧ v ≠ res) ∧
      (∀ pid ∈ opsPids data, (lookupL sfin.store pid).isSome = true) ∧
      (∀ q ∈ m'.assoc, q ∈ m.assoc ∨ q.1 < m.heap.length) ∧
      m'.clsQual = m.clsQual := by
  obtain ⟨p, hpk⟩ := Option.isSome_iff_exists.mp (pickle_isSome hH hres)
  obtain ⟨data, col⟩ := p
  obtain ⟨hcolent, hpids⟩ := pickle_pids_are_entities hpk
  obtain ⟨m₁, s₁, hce, g1, g2, g3, g4, g5, g6, g7, g8, g9, g10⟩ :=
    cache_each_spec col hWF hcolent hfree
  have hcov : ∀ pid ∈ opsPids data,
      (lookupL s₁.idMap pid).isSome = true := by
    intro pid hp
    obtain ⟨x, r, hxcol, hx⟩ := hpids pid hp
    have := g9 (x, pid.ident) hxcol pid.cls r hx
    exact this
  have hpk₁ : pickle_and_reduce_to_identities m₁.heap res =
      some (data, col) := by
    rw [g1]
    exact hpk
  have hWF₂ : IdMapWF m₁
      ({ s₁ with attrStore :=
          ((m.clsQual ckey, strId ikey, attrname), data) ::
            s₁.attrStore }) := g7
  have hcov₂ : ∀ pid ∈ opsPids data,
      (lookupL ({ s₁ with attrStore :=
          ((m.clsQual ckey, strId ikey, attrname), data) ::
            s₁.attrStore } : CState).idMap pid).isSome = true := hcov
  obtain ⟨m', v, hup, hassoc', hsrc', hqual', hlen', hpre', hv',
          hveq, hroot_ent, hroot_seq⟩ := unpickle_spec hpk₁ hWF₂ hcov₂
  have hadr : attr_decode_register m₁
      { s₁ with attrStore := ((m.clsQual ckey, strId ikey, attrname),
          data) :: s₁.attrStore } ckey ikey attrname data =
      (m', { s₁ with
               attrStore := ((m.clsQual ckey, strId ikey, attrname),
                 data) :: s₁.attrStore,
               fieldMap := ((ckey, ikey, attrname), v) ::
                 s₁.fieldMap }, .ok v) := by
    unfold attr_decode_register
    rw [hup]
  refine ⟨data, col, m₁, s₁, m',
          { s₁ with
              attrStore := ((m.clsQual ckey, strId ikey, attrname),
                data) :: s₁.attrStore,
              fieldMap := ((ckey, ikey, attrname), v) ::
                s₁.fieldMap },
          v, hpk, hce, g1, g3, g5, g6, hadr,
          ?_, ?_, rfl, ?_, ?_, ?_, ?_, ?_, ?_, ?_, ?_⟩
  · show ((ckey, ikey, attrname), v) :: s₁.fieldMap = _
    rw [g6]
  · show ((m.clsQual ckey, strId ikey, attrname), data) ::
      s₁.attrStore = _
    rw [g5]
  · rw [← g1]
    exact hlen'
  · intro j hj
    rw [← g1] at hj ⊢
    exact hpre' j hj
  · rw [← g1]
    exact hveq
  · intro c i r hroot
    refine hroot_ent c i r ?_
    rw [g1]
    exact hroot
  · intro es hroot
    have h1 := hroot_seq es (by rw [g1]; exact hroot)
    rw [g1] at h1
    refine ⟨h1, ?_⟩
    intro hcon
    rw [hcon] at h1
    exact absurd hres (Nat.not_lt_of_le h1)
  · intro pid hp
    obtain ⟨b, hb⟩ := Option.isSome_iff_exists.mp (hcov pid hp)
    exact (g7 _ (lookupL_mem hb)).2.1
  · intro q hq
    rw [hassoc'] at hq
    exact g10 q hq
  · rw [hqual']
    exact g3

end ACV

namespace ACV

/-- C10: every cache-backed attribute write — a `cache_attribute` call
and the compute path of `cached_attribute_lookup` alike — memoizes in
the in-memory attribute map, and hands back, the decoded
reconstruction of the persisted blob rather than the value the
computation produced: the result is structurally equal to it
(`ValEquiv`), a root entity reference resolves to the cache's
canonical instance from the identity map, and a root container is a
newly allocated object distinct from the original. -/
theorem attr_write_memoizes_reconstruction
    (m : Mem) (s : CState) (cls : Nat) (ident : Ident)
    (attrname : String) (res : Addr)
    (hH : HeapClosed m.heap) (hres : res < m.heap.length)
    (hWF : IdMapWF m s)
    (hfree : ∀ x c i r, m.heap[x]? = some (.entity c i r) →
      (lookupL s.idMap ⟨c, i⟩).isSome = true ∨
      lookupL m.assoc x = none) :
    (∃ m' s' data col v,
      cache_attribute m s cls ident attrname res = (m', s', .ok ()) ∧
      pickle_and_reduce_to_identities m.heap res = some (data, col) ∧
      lookupL s'.attrStore (m.clsQual cls, strId ident, attrname) =
        some data ∧
      lookupL s'.fieldMap (cls, ident, attrname) = some v ∧
      m.heap.length ≤ m'.heap.length ∧
      (∀ j, j < m.heap.length → m'.heap[j]? = m.heap[j]?) ∧
      ValEquiv m.heap res m'.heap v ∧
      (∀ c i r, m.heap[res]? = some (.entity c i r) →
        lookupL s'.idMap ⟨c, i⟩ = some v) ∧
      (∀ es, m.heap[res]? = some (.seq es) →
        m.heap.length ≤ v ∧ v ≠ res)) ∧
    (∀ a c0 i0 r0 (F : Mem → CState → Mem × CState × Except Err Addr),
      m.heap[a]? = some (.entity c0 i0 r0) →
      lookupL s.fieldMap (c0, i0, attrname) = none →
      lookupL s.attrStore (m.clsQual c0, strId i0, attrname) = none →
      F m s = (m, s, .ok res) →
      ∃ m' s' data col v,
        cached_attribute_lookup m s a attrname F = (m', s', .ok v) ∧
        pickle_and_reduce_to_identities m.heap res =
          some (data, col) ∧
        lookupL s'.attrStore (m.clsQual c0, strId i0, attrname) =
          some data ∧
        lookupL s'.fieldMap (c0, i0, attrname) = some v ∧
        m.heap.length ≤ m'.heap.length ∧
        (∀ j, j < m.heap.length → m'.heap[j]? = m.heap[j]?) ∧
        ValEquiv m.heap res m'.heap v ∧
        (∀ c i r, m.heap[res]? = some (.entity c i r) →
          lookupL s'.idMap ⟨c, i⟩ = some v) ∧
        (∀ es, m.heap[res]? = some (.seq es) →
          m.heap.length ≤ v ∧ v ≠ res)) := by
  constructor
  · obtain ⟨data, col, m₁, s₁, m', sfin, v, hpk, hce, g1, gq, g5, g6,
            hadr, hfm, hat, hid, hlen, hpre, hveq, hrent, hrseq, -,
            -⟩ :=
      attr_pipeline_core m s cls ident attrname res hH hres hWF hfree
    refine ⟨m', sfin, data, col, v, ?_, hpk, ?_, ?_, hlen, hpre, hveq,
            ?_, hrseq⟩
    · unfold cache_attribute
      rw [hpk]
      simp only []
      rw [hce]
      simp only []
      rw [hadr]
    · rw [hat]
      exact lookupL_cons_self _ _ _
    · rw [hfm]
      exact lookupL_cons_self _ _ _
    · intro c i r hroot
      rw [hid]
      exact hrent c i r hroot
  · intro a c0 i0 r0 F hnode0 hfm0 hat0 hF
    obtain ⟨data, col, m₁, s₁, m', sfin, v, hpk, hce, g1, gq, g5, g6,
            hadr, hfm, hat, hid, hlen, hpre, hveq, hrent, hrseq, -,
            -⟩ :=
      attr_pipeline_core m s c0 i0 attrname res hH hres hWF hfree
    refine ⟨m', sfin, data, col, v, ?_, hpk, ?_, ?_, hlen, hpre, hveq,
            ?_, hrseq⟩
    · unfold cached_attribute_lookup
      rw [hnode0]
      simp only []
      rw [hfm0]
      simp only []
      rw [hat0]
      simp only []
      rw [hF]
      simp only []
      rw [hpk]
      simp only []
      rw [hce]
      simp only []
      rw [gq]
      rw [hadr]
    · rw [hat]
      exact lookupL_cons_self _ _ _
    · rw [hfm]
      exact lookupL_cons_self _ _ _
    · intro c i r hroot
      rw [hid]
      exact hrent c i r hroot

end ACV

namespace ACV

/-- Witness for C10: caching a cyclic container attribute on a fresh
cache, both through `cache_attribute` and through the compute path of
`cached_attribute_lookup`. -/
theorem attr_write_memoizes_reconstruction_witness :
    (∃ m' s' data col v,
      cache_attribute memPipe cstate0 1 [Prim.int 0] "f" 1 =
        (m', s', .ok ()) ∧
      pickle_and_reduce_to_identities memPipe.heap 1 =
        some (data, col) ∧
      lookupL s'.attrStore
        (memPipe.clsQual 1, strId [Prim.int 0], "f") = some data ∧
      lookupL s'.fieldMap (1, [Prim.int 0], "f") = some v ∧
      memPipe.heap.length ≤ m'.heap.length ∧
      (∀ j, j < memPipe.heap.length →
        m'.heap[j]? = memPipe.heap[j]?) ∧
      ValEquiv memPipe.heap 1 m'.heap v ∧
      (∀ c i r, memPipe.heap[1]? = some (.entity c i r) →
        lookupL s'.idMap ⟨c, i⟩ = some v) ∧
      (∀ es, memPipe.heap[1]? = some (.seq es) →
        memPipe.heap.length ≤ v ∧ v ≠ 1)) ∧
    (∀ a c0 i0 r0
       (F : Mem → CState → Mem × CState × Except Err Addr),
      memPipe.heap[a]? = some (.entity c0 i0 r0) →
      lookupL cstate0.fieldMap (c0, i0, "f") = none →
      lookupL cstate0.attrStore
        (memPipe.clsQual c0, strId i0, "f") = none →
      F memPipe cstate0 = (memPipe, cstate0, .ok 1) →
      ∃ m' s' data col v,
        cached_attribute_lookup memPipe cstate0 a "f" F =
          (m', s', .ok v) ∧
        pickle_and_reduce_to_identities memPipe.heap 1 =
          some (data, col) ∧
        lookupL s'.attrStore
          (memPipe.clsQual c0, strId i0, "f") = some data ∧
        lookupL s'.fieldMap (c0, i0, "f") = some v ∧
        memPipe.heap.length ≤ m'.heap.length ∧
        (∀ j, j < memPipe.heap.length →
          m'.heap[j]? = memPipe.heap[j]?) ∧
        ValEquiv memPipe.heap 1 m'.heap v ∧
        (∀ c i r, memPipe.heap[1]? = some (.entity c i r) →
          lookupL s'.idMap ⟨c, i⟩ = some v) ∧
        (∀ es, memPipe.heap[1]? = some (.seq es) →
          memPipe.heap.length ≤ v ∧ v ≠ 1)) :=
  attr_write_memoizes_reconstruction memPipe cstate0 1 [Prim.int 0]
    "f" 1
    (by unfold HeapClosed memPipe; decide) (by decide)
    (fun p hp => absurd hp (List.not_mem_nil p))
    (fun x c i r _ => Or.inr rfl)

end ACV

namespace ACV

/-- The inter-pass `obtain` loop over a reopened cache: every listed
key resolves in memory or from the durable store (tier 2), the loop
completes, every listed key ends up in the identity map pointing at a
live entity of the key's class and identity, and the pre-existing heap
is untouched. -/
theorem obtain_each_store_tier : ∀ (pids : List PID) {m : Mem}
    {s : CState},
    (∀ pid ∈ pids, (lookupL s.store pid).isSome = true) →
    (∀ q ∈ m.assoc, q.1 < m.heap.length) →
    (∀ p ∈ s.idMap, p.2 < m.heap.length ∧
      ∃ r, m.heap[p.2]? = some (.entity p.1.cls p.1.ident r)) →
    ∃ m' s', obtain_each m s pids = (m', s', .ok ()) ∧
      m.heap.length ≤ m'.heap.length ∧
      (∀ j, j < m.heap.length → m'.heap[j]? = m.heap[j]?) ∧
      s'.store = s.store ∧ s'.attrStore = s.attrStore ∧
      s'.fieldMap = s.fieldMap ∧ s'.cid = s.cid ∧
      (∀ p ∈ s'.idMap, p.2 < m'.heap.length ∧
        ∃ r, m'.heap[p.2]? = some (.entity p.1.cls p.1.ident r)) ∧
      (∀ pid ∈ pids, (lookupL s'.idMap pid).isSome = true) ∧
      (∀ q ∈ m'.assoc, q.1 < m'.heap.length) ∧
      (∀ pid v, lookupL s.idMap pid = some v →
        lookupL s'.idMap pid = some v) := by
  intro pids
  induction pids with
  | nil =>
    intro m s hst hassoc hident
    exact ⟨m, s, by rw [obtain_each], le_refl _, fun j _ => rfl, rfl,
           rfl, rfl, rfl, hident,
           fun p hp => absurd hp (List.not_mem_nil p), hassoc,
           fun _ _ hv => hv⟩
  | cons pid rest ih =>
    intro m s hst hassoc hident
    cases hla : lookupL s.idMap ⟨pid.cls, pid.ident⟩ with
    | some b =>
      obtain ⟨m', s', hrest, h2, h3, h4, h5, h6, h7, h8, h9, h10,
              h11⟩ :=
        ih (fun p hp => hst p (List.mem_cons_of_mem _ hp)) hassoc
          hident
      refine ⟨m', s', ?_, h2, h3, h4, h5, h6, h7, h8, ?_, h10, h11⟩
      · rw [obtain_each, obtain_op_mem_hit hla]
        exact hrest
      · intro p hp
        rcases List.mem_cons.mp hp with h1 | h1
        · subst h1
          rw [h11 _ _ hla]
          rfl
        · exact h9 p h1
    | none =>
      obtain ⟨row, hrow⟩ := Option.isSome_iff_exists.mp
        (hst pid (List.mem_cons_self _ _))
      have hrow' : lookupL s.store ⟨pid.cls, pid.ident⟩ = some row :=
        hrow
      have hsc : lookupL m.assoc m.heap.length = none :=
        lookupL_eq_none_of_lt _ _ hassoc
      have hstep : obtain_op m s pid.cls pid.ident =
          ({ m with
               heap := m.heap ++ [.entity pid.cls pid.ident row],
               assoc := (m.heap.length, s.cid) :: m.assoc },
           { s with idMap :=
               (⟨pid.cls, pid.ident⟩, m.heap.length) :: s.idMap },
           .ok m.heap.length, [.mem false, .storeGet true]) := by
        unfold obtain_op
        rw [hla]
        dsimp only
        rw [hrow']
        dsimp only
        unfold set_cache
        rw [show ({ m with heap := m.heap ++
              [Node.entity pid.cls pid.ident row] } : Mem).assoc =
            m.assoc from rfl, hsc]
      have hlen : m.heap.length <
          (m.heap ++ [Node.entity pid.cls pid.ident row]).length := by
        simp
      obtain ⟨m', s', hrest, h2, h3, h4, h5, h6, h7, h8, h9, h10,
              h11⟩ :=
        ih (s := { s with idMap :=
              (⟨pid.cls, pid.ident⟩, m.heap.length) :: s.idMap })
          (m := { m with
              heap := m.heap ++ [.entity pid.cls pid.ident row],
              assoc := (m.heap.length, s.cid) :: m.assoc })
          (fun p hp => hst p (List.mem_cons_of_mem _ hp))
          (by
            intro q hq
            rcases List.mem_cons.mp hq with h1 | h1
            · subst h1
              exact hlen
            · exact lt_trans (hassoc q h1) hlen)
          (by
            intro p hp
            rcases List.mem_cons.mp hp with h1 | h1
            · subst h1
              exact ⟨hlen, row, List.getElem?_concat_length _ _⟩
            · obtain ⟨hlt, r, hrd⟩ := hident p h1
              refine ⟨lt_trans hlt hlen, r, ?_⟩
              show (m.heap ++
                [Node.entity pid.cls pid.ident row])[p.2]? = _
              rw [List.getElem?_append_left hlt]
              exact hrd)
      refine ⟨m', s', ?_, le_trans (Nat.le_of_lt hlen) h2, ?_, h4, h5,
              h6, h7, h8, ?_, h10, ?_⟩
      · rw [obtain_each, hstep]
        exact hrest
      · intro j hj
        rw [h3 j (lt_trans hj hlen)]
        exact List.getElem?_append_left hj
      · intro p hp
        rcases List.mem_cons.mp hp with h1 | h1
        · subst h1
          rw [h11 _ m.heap.length (lookupL_cons_self _ _ _)]
          rfl
        · exact h9 p h1
      · intro p v hv
        refine h11 p v ?_
        show lookupL ((⟨pid.cls, pid.ident⟩, m.heap.length) ::
          s.idMap) p = some v
        by_cases hp : p = ⟨pid.cls, pid.ident⟩
        · rw [hp] at hv
          rw [hla] at hv
          exact Option.noConfusion hv
        · rw [lookupL_cons_ne _ _ hp]
          exact hv

end ACV

namespace ACV

/-- Elementwise correspondence flips. -/
theorem forall2_flip {α β : Type} {R : α → β → Prop} :
    ∀ {l₁ : List α} {l₂ : List β}, List.Forall₂ R l₁ l₂ →
      List.Forall₂ (fun y x => R x y) l₂ l₁ := by
  intro l₁ l₂ h
  induction h with
  | nil => exact List.Forall₂.nil
  | cons hab t ih => exact List.Forall₂.cons hab ih

/-- Elementwise correspondences compose. -/
theorem forall2_comp {α β γ : Type} {R : α → β → Prop}
    {S : β → γ → Prop} :
    ∀ {l₁ : List α} {l₂ : List β} {l₃ : List γ},
      List.Forall₂ R l₁ l₂ → List.Forall₂ S l₂ l₃ →
      List.Forall₂ (fun x z => ∃ y, R x y ∧ S y z) l₁ l₃ := by
  intro l₁ l₂ l₃ h1
  induction h1 generalizing l₃ with
  | nil =>
    intro h2
    cases h2
    exact List.Forall₂.nil
  | cons hab t ih =>
    intro h2
    cases h2 with
    | cons hbc t2 => exact List.Forall₂.cons ⟨_, hab, hbc⟩ (ih t2)

/-- Structural equality of heap values is symmetric. -/
theorem ValEquiv_symm {H₁ H₂ : List Node} {a b : Addr}
    (h : ValEquiv H₁ a H₂ b) : ValEquiv H₂ b H₁ a := by
  obtain ⟨R, hR, hbis⟩ := h
  refine ⟨fun x y => R y x, hR, ?_⟩
  intro x y hxy
  obtain ⟨n₁, n₂, h1, h2, h3⟩ := hbis y x hxy
  refine ⟨n₂, n₁, h2, h1, ?_⟩
  cases n₁ with
  | prim p =>
    cases n₂ with
    | prim q => exact (h3 : p = q).symm
    | entity c i r => exact h3.elim
    | seq es => exact h3.elim
  | entity c i r =>
    cases n₂ with
    | prim q => exact h3.elim
    | entity c' i' r' =>
      exact ⟨(h3 : c = c' ∧ i = i').1.symm, (h3 : c = c' ∧ i = i').2.symm⟩
    | seq es => exact h3.elim
  | seq es =>
    cases n₂ with
    | prim q => exact h3.elim
    | entity c i r => exact h3.elim
    | seq fs => exact forall2_flip h3

/-- Structural equality of heap values is transitive. -/
theorem ValEquiv_trans {H₁ H₂ H₃ : List Node} {a b c : Addr}
    (h1 : ValEquiv H₁ a H₂ b) (h2 : ValEquiv H₂ b H₃ c) :
    ValEquiv H₁ a H₃ c := by
  obtain ⟨R, hR, hbis⟩ := h1
  obtain ⟨S, hS, hbisS⟩ := h2
  refine ⟨fun x z => ∃ y, R x y ∧ S y z, ⟨b, hR, hS⟩, ?_⟩
  intro x z hxz
  obtain ⟨y, hxy, hyz⟩ := hxz
  obtain ⟨n₁, n₂, e1, e2, r12⟩ := hbis x y hxy
  obtain ⟨n₂', n₃, e2', e3, r23⟩ := hbisS y z hyz
  have hn : n₂' = n₂ := by
    rw [e2] at e2'
    exact (Option.some_inj.mp e2').symm
  subst hn
  refine ⟨n₁, n₃, e1, e3, ?_⟩
  cases n₁ with
  | prim p =>
    cases n₂' with
    | prim q =>
      cases n₃ with
      | prim w => exact (r12 : p = q).trans (r23 : q = w)
      | entity c i r => exact r23.elim
      | seq es => exact r23.elim
    | entity c i r => exact r12.elim
    | seq es => exact r12.elim
  | entity c i r =>
    cases n₂' with
    | prim q => exact r12.elim
    | entity c' i' r' =>
      cases n₃ with
      | prim w => exact r23.elim
      | entity c'' i'' r'' =>
        obtain ⟨a1, a2⟩ := (r12 : c = c' ∧ i = i')
        obtain ⟨b1, b2⟩ := (r23 : c' = c'' ∧ i' = i'')
        exact ⟨a1.trans b1, a2.trans b2⟩
      | seq es => exact r23.elim
    | seq es => exact r12.elim
  | seq es =>
    cases n₂' with
    | prim q => exact r12.elim
    | entity c i r => exact r12.elim
    | seq fs =>
      cases n₃ with
      | prim w => exact r23.elim
      | entity c i r => exact r23.elim
      | seq gs => exact forall2_comp r12 r23

end ACV

namespace ACV

/-- Decoding a persisted blob through a cache whose identity map may
be empty (a reopened cache): pass 1 succeeds, the inter-pass loop
resolves every pointer token from memory or the durable store, pass 2
succeeds, and the reconstruction is structurally equal to the
originally pickled value. -/
theorem unpickle_via_store {H : List Node} {m : Mem} {s : CState}
    {data : List Op} {col : List (Addr × Ident)} {res : Addr}
    (hpk : pickle_and_reduce_to_identities H res = some (data, col))
    (hstore : ∀ pid ∈ opsPids data,
      (lookupL s.store pid).isSome = true)
    (hassoc : ∀ q ∈ m.assoc, q.1 < m.heap.length)
    (hident : ∀ p ∈ s.idMap, p.2 < m.heap.length ∧
      ∃ r, m.heap[p.2]? = some (.entity p.1.cls p.1.ident r)) :
    ∃ m' s' v,
      unpickle_and_reconstruct_from_identities m s data =
        (m', s', .ok v) ∧
      s'.fieldMap = s.fieldMap ∧ s'.attrStore = s.attrStore ∧
      s'.store = s.store ∧ s'.cid = s.cid ∧
      m.heap.length ≤ m'.heap.length ∧
      (∀ j, j < m.heap.length → m'.heap[j]? = m.heap[j]?) ∧
      v < m'.heap.length ∧
      ValEquiv H res m'.heap v := by
  obtain ⟨d₁, v₁, hrun₁, hstk₁, hlen₁, hpre₁, -, -, -, -⟩ :=
    pickle_run_spec H res data col collecting_loader
      (fun _ _ _ => True) m.heap hpk
      (collecting_loader_total m.heap.length data)
  have hcol : d₁.collected = opsPids data := by
    have h0 := urun_collected collecting_loader data _ _ hrun₁
    simpa using h0
  obtain ⟨m₂, s₂, hloop, k2, k3, k4, k5, k6, k7, k8, k9, k10, k11⟩ :=
    obtain_each_store_tier d₁.collected
      (m := { m with heap := d₁.heap }) (s := s)
      (by
        intro pid hp
        exact hstore pid (by rwa [hcol] at hp))
      (by
        intro q hq
        exact lt_of_lt_of_le (hassoc q hq) hlen₁)
      (by
        intro p hp
        obtain ⟨hlt, r, hrd⟩ := hident p hp
        refine ⟨lt_of_lt_of_le hlt hlen₁, r, ?_⟩
        show d₁.heap[p.2]? = _
        rw [hpre₁ p.2 hlt]
        exact hrd)
  have hcov : ∀ pid ∈ opsPids data,
      (lookupL s₂.idMap pid).isSome = true := by
    intro pid hp
    refine k9 pid ?_
    rw [hcol]
    exact hp
  have htot2 : LoaderTotal (associating_loader (lookupL s₂.idMap))
      (fun c i b => b < m₂.heap.length ∧
        ∃ r', m₂.heap[b]? = some (.entity c i r'))
      m₂.heap.length data := by
    intro D pid hmem hN
    obtain ⟨b, hbv⟩ := Option.isSome_iff_exists.mp
      (hcov pid (mem_opsPids hmem))
    obtain ⟨hblt, r', hrd⟩ := k8 _ (lookupL_mem hbv)
    refine ⟨D, b, ?_, le_refl _, lt_of_lt_of_le hblt hN,
            fun j _ => rfl, hblt, r', hrd⟩
    show (lookupL s₂.idMap pid).map (fun b => (D, b)) = some (D, b)
    rw [hbv]
    rfl
  obtain ⟨d₂, v, hrun₂, hstk₂, hlen₂, hpre₂, hv₂, hfresh₂, hcorr₂,
          hflat₂⟩ :=
    pickle_run_spec H res data col _ _ m₂.heap hpk htot2
  refine ⟨{ m₂ with heap := d₂.heap }, s₂, v, ?_, k6, k5, k4, k7,
          ?_, ?_, hv₂, ?_⟩
  · unfold unpickle_and_reconstruct_from_identities
    rw [hrun₁]
    simp only []
    rw [hloop]
    simp only []
    rw [hrun₂]
    simp only []
    rw [hstk₂]
  · show m.heap.length ≤ d₂.heap.length
    calc m.heap.length ≤ d₁.heap.length := hlen₁
      _ ≤ m₂.heap.length := k2
      _ ≤ d₂.heap.length := hlen₂
  · intro j hj
    show d₂.heap[j]? = m.heap[j]?
    rw [hpre₂ j (lt_of_lt_of_le (lt_of_lt_of_le hj hlen₁) k2)]
    rw [k3 j (lt_of_lt_of_le hj hlen₁)]
    exact hpre₁ j hj
  · refine ⟨corrVal H d₂.heap _ d₂.memo, hcorr₂, ?_⟩
    refine corr_bisim H d₂.heap _ d₂.memo hflat₂ ?_
    intro c i b hent
    obtain ⟨hblt, r', hrd⟩ := hent
    refine ⟨r', ?_⟩
    rw [hpre₂ b hblt]
    exact hrd

end ACV

namespace ACV

/-- C4: derived-attribute idempotence.  Under a fresh
`(class, identity, attribute)` key, the first
`cached_attribute_lookup` runs the compute coroutine — the outcome is
determined by its single application to the entry state — and
memoizes the decoded result; a second read through the same cache is
served from the in-memory attribute map with the identical value and
unchanged state no matter what compute function is supplied; and
after reopening a cache on the same durable store, re-reading the
attribute is served from the persisted record — again for every
compute function, without recomputation — and returns the same value
up to structural equality of the object graphs. -/
theorem derived_attribute_idempotent
    (m : Mem) (s : CState) (a : Addr) (c0 : Nat) (i0 : Ident)
    (r0 : List Prim) (attrname : String) (res : Addr)
    (F : Mem → CState → Mem × CState × Except Err Addr)
    (hH : HeapClosed m.heap) (hres : res < m.heap.length)
    (hWF : IdMapWF m s)
    (hfree : ∀ x c i r, m.heap[x]? = some (.entity c i r) →
      (lookupL s.idMap ⟨c, i⟩).isSome = true ∨
      lookupL m.assoc x = none)
    (hassoc : ∀ q ∈ m.assoc, q.1 < m.heap.length)
    (hnode0 : m.heap[a]? = some (.entity c0 i0 r0))
    (hfm0 : lookupL s.fieldMap (c0, i0, attrname) = none)
    (hat0 : lookupL s.attrStore (m.clsQual c0, strId i0, attrname) =
      none)
    (hF : F m s = (m, s, .ok res)) :
    ∃ m' s' v,
      cached_attribute_lookup m s a attrname F = (m', s', .ok v) ∧
      lookupL s'.fieldMap (c0, i0, attrname) = some v ∧
      (∀ G, G m s = F m s →
        cached_attribute_lookup m s a attrname G = (m', s', .ok v)) ∧
      (∀ G, cached_attribute_lookup m' s' a attrname G =
        (m', s', .ok v)) ∧
      (∀ G cid', ∃ m₃ s₃ v₃,
        cached_attribute_lookup m' (reopen s' cid') a attrname G =
          (m₃, s₃, .ok v₃) ∧
        ValEquiv m'.heap v m₃.heap v₃) := by
  obtain ⟨data, col, m₁, s₁, m', sfin, v, hpk, hce, g1, gq, g5, g6,
          hadr, hfm, hat, hid, hlen, hpre, hveq, hrent, hrseq,
          hstorecov, hassoc', hquall⟩ :=
    attr_pipeline_core m s c0 i0 attrname res hH hres hWF hfree
  have hfirst : ∀ G : Mem → CState → Mem × CState × Except Err Addr,
      G m s = (m, s, .ok res) →
      cached_attribute_lookup m s a attrname G =
        (m', sfin, .ok v) := by
    intro G hG
    unfold cached_attribute_lookup
    rw [hnode0]
    simp only []
    rw [hfm0]
    simp only []
    rw [hat0]
    simp only []
    rw [hG]
    simp only []
    rw [hpk]
    simp only []
    rw [hce]
    simp only []
    rw [gq]
    rw [hadr]
  have hfmv : lookupL sfin.fieldMap (c0, i0, attrname) = some v := by
    rw [hfm]
    exact lookupL_cons_self _ _ _
  have hnode' : m'.heap[a]? = some (.entity c0 i0 r0) := by
    rw [hpre a (lt_length_of_getElem? hnode0)]
    exact hnode0
  refine ⟨m', sfin, v, hfirst F hF, hfmv, ?_, ?_, ?_⟩
  · intro G hG
    exact hfirst G (by rw [hG]; exact hF)
  · intro G
    unfold cached_attribute_lookup
    rw [hnode']
    simp only []
    rw [hfmv]
  · intro G cid'
    have hat' : lookupL (reopen sfin cid').attrStore
        (m'.clsQual c0, strId i0, attrname) = some data := by
      show lookupL sfin.attrStore (m'.clsQual c0, strId i0, attrname)
        = some data
      rw [hquall, hat]
      exact lookupL_cons_self _ _ _
    obtain ⟨m₃, s₃, v₃, hup3, -, -, -, -, -, -, -, hveq3⟩ :=
      unpickle_via_store (m := m') (s := reopen sfin cid')
        (H := m.heap) hpk
        (by
          intro pid hp
          show (lookupL sfin.store pid).isSome = true
          exact hstorecov pid hp)
        (by
          intro q hq
          rcases hassoc' q hq with h1 | h1
          · exact lt_of_lt_of_le (hassoc q h1) hlen
          · exact lt_of_lt_of_le h1 hlen)
        (fun p hp => absurd hp (List.not_mem_nil p))
    refine ⟨m₃, { s₃ with fieldMap := ((c0, i0, attrname), v₃) ::
              s₃.fieldMap }, v₃, ?_,
            ValEquiv_trans (ValEquiv_symm hveq) hveq3⟩
    unfold cached_attribute_lookup
    rw [hnode']
    simp only []
    rw [show lookupL (reopen sfin cid').fieldMap (c0, i0, attrname) =
        none from rfl]
    simp only []
    rw [hat']
    simp only []
    unfold attr_decode_register
    rw [hup3]

end ACV

namespace ACV

/-- Witness for C4: a derived attribute of the entity of `memPipe`
whose computation returns the cyclic container, read twice and then
through a reopened cache. -/
theorem derived_attribute_idempotent_witness :
    ∃ m' s' v,
      cached_attribute_lookup memPipe cstate0 0 "f"
        (fun m s => (m, s, .ok 1)) = (m', s', .ok v) ∧
      lookupL s'.fieldMap (1, [Prim.int 0], "f") = some v ∧
      (∀ G, G memPipe cstate0 =
          (fun (m : Mem) (s : CState) => (m, s, Except.ok 1))
            memPipe cstate0 →
        cached_attribute_lookup memPipe cstate0 0 "f" G =
          (m', s', .ok v)) ∧
      (∀ G, cached_attribute_lookup m' s' 0 "f" G =
        (m', s', .ok v)) ∧
      (∀ G cid', ∃ m₃ s₃ v₃,
        cached_attribute_lookup m' (reopen s' cid') 0 "f" G =
          (m₃, s₃, .ok v₃) ∧
        ValEquiv m'.heap v m₃.heap v₃) :=
  derived_attribute_idempotent memPipe cstate0 0 1 [Prim.int 0] []
    "f" 1 (fun m s => (m, s, .ok 1))
    (by unfold HeapClosed memPipe; decide) (by decide)
    (fun p hp => absurd hp (List.not_mem_nil p))
    (fun x c i r _ => Or.inr rfl)
    (fun q hq => absurd hq (List.not_mem_nil q))
    rfl rfl rfl rfl

end ACV
